import Mathlib

/-!
Verification of the go-collection trie package.

The Go sources are shallowly embedded: each Go method becomes a Lean
function over explicit state.  Pointer-linked nodes are represented by an
arena (a list of node records addressed by index); a Go `nil` reference is
`Option.none`.  A Go runtime panic (nil dereference, out-of-range slice
index, or a loop that cannot terminate) is modelled by `Option.none` in the
`GoM` result monad.  Go `int` values that can be negative (indices,
branch positions, sizes) are modelled by `Int`; digit values produced by
the string digitizer are natural numbers (Go byte arithmetic wraps
modulo 256 and is never negative).  Strings are restricted to ASCII in the
theorems (the Go code lower-cases the string and then indexes bytes, which
coincides with per-character treatment exactly on ASCII input).
-/

/-- Runtime-panic monad: `none` models a Go runtime panic. -/
abbrev GoM (α : Type) := Option α

/-- The error values produced by the package (`github.com/pkg/errors`
values in Go; only their identity matters to callers). -/
inductive GoErr where
  | indexOutOfRange
  | childExists
  | prefixViolation
deriving DecidableEq, Repr

/-! ## The string digitizer (src/trie/digitizer.go)

`stringDigitizer` with `base = alphabetSize + 1`.  `DigitOf` lower-cases
the string and maps byte `b` to `b - 'a' + 1` with Go byte (mod 256)
arithmetic; positions at or past the end of the string give the terminator
digit 0. -/

/-- Digit of one (ASCII) character: Go `lower(s)[place] - 'a' + 1` in byte
arithmetic, i.e. `(b + 160) % 256` since `-97 + 1 ≡ 160 (mod 256)`. -/
def charDigit (c : Char) : Nat := (c.toLower.toNat + 160) % 256

/-- `stringDigitizer.NumDigitsOf`: length plus the end-of-string digit. -/
def numDigitsOf (e : String) : Nat := e.length + 1

/-- `stringDigitizer.DigitOf`.  A negative place indexes before the start
of the byte slice and panics in Go. -/
def stringDigitOf (e : String) (place : Int) : GoM Nat :=
  if (e.length : Int) ≤ place then some 0
  else if place < 0 then none
  else (e.data[place.toNat]?).map charDigit

/-- The digit sequence of a string: its characters' digits followed by the
terminator digit 0. -/
def seqOf (s : String) : List Nat := s.data.map charDigit ++ [0]

/-- A character the digitizer can place inside a base-`B` trie: ASCII, and
its digit is a real (non-terminator) digit below the base. -/
def GoodChar (B : Nat) (c : Char) : Prop :=
  c.toNat < 128 ∧ 1 ≤ charDigit c ∧ charDigit c < B

instance (B : Nat) (c : Char) : Decidable (GoodChar B c) := by
  unfold GoodChar; infer_instance

/-- A string every character of which fits the base-`B` digitizer. -/
def GoodStr (B : Nat) (s : String) : Prop := ∀ c ∈ s.data, GoodChar B c

instance (B : Nat) (s : String) : Decidable (GoodStr B s) := by
  unfold GoodStr; infer_instance

/-! ## Lexicographic order on digit sequences

The iteration order of the trie is the lexicographic order of the stored
elements' digit sequences; with the string digitizer this is
case-insensitive string order in which a proper prefix sorts first
(terminator digit 0 is smaller than every character digit). -/

/-- Strict lexicographic order on digit sequences (executable). -/
def seqLtb : List Nat → List Nat → Bool
  | [], [] => false
  | [], _ :: _ => true
  | _ :: _, [] => false
  | a :: as, b :: bs => a < b || (a == b && seqLtb as bs)

/-- Insert a string into a list sorted by `seqLtb` on digit sequences,
after every strictly smaller element. -/
def insertOrdered (e : String) : List String → List String
  | [] => [e]
  | v :: vs => if seqLtb (seqOf v) (seqOf e) then v :: insertOrdered e vs else e :: v :: vs

/-- Case-insensitive lexicographic sort (insertion sort keyed on the
digitizer's digit sequences, i.e. lower-cased characters with
shorter-proper-prefix-first tie handling). -/
def ciSort (l : List String) : List String := l.foldl (fun acc e => insertOrdered e acc) []

/-! ## The Node ownership model, stand-alone (src/unnamed/part_000)

`node` with its child-slot operations.  Child slots hold arena indices of
child nodes; `SetParent`, which `AddChildWithIndexOf` performs on the
child, mutates the child's record (not this node) and is modelled at the
arena level further below. -/

namespace GoNode

/-- Go struct `node`. -/
structure NodeSt where
  parent : Option Nat
  children : List (Option Nat)
  numChildren : Int
  element : Option String
  isRoot : Bool
deriving DecidableEq, Repr

/-- Outcome of a node operation: a value, a returned Go error, or a
runtime panic. -/
inductive Out (α : Type) where
  | ok : α → Out α
  | err : GoErr → Out α
  | panic : Out α
deriving DecidableEq, Repr

/-- `newNode(capacity)`: a nil slice when `capacity <= 0`, else `capacity`
empty slots. -/
def newNode (capacity : Int) : NodeSt :=
  if capacity ≤ 0 then ⟨none, [], 0, none, false⟩
  else ⟨none, List.replicate capacity.toNat none, 0, none, false⟩

/-- `newRootNode(capacity)`. -/
def newRootNode (capacity : Int) : NodeSt :=
  ⟨none, List.replicate capacity.toNat none, 0, none, true⟩

/-- `node.checkBounds`: note the bound is `index > len(children)`, not
`>=`. -/
def checkBounds (n : NodeSt) (index : Int) : Option GoErr :=
  if index < 0 ∨ (n.children.length : Int) < index then some .indexOutOfRange else none

/-- `node.ChildWithIndexOf`.  After `checkBounds` passes, Go reads
`n.children[index]`, which panics when `index = len(children)`. -/
def ChildWithIndexOf (n : NodeSt) (index : Int) : Out (Option Nat) :=
  match checkBounds n index with
  | some e => .err e
  | none =>
    match n.children[index.toNat]? with
    | some slot => .ok slot
    | none => .panic

/-- `node.RemoveChildWithIndexOf`.  A failed bounds check returns `false`
without an error; a passing check reads `n.children[index]`, which panics
when `index = len(children)`. -/
def RemoveChildWithIndexOf (n : NodeSt) (index : Int) : Out (Bool × NodeSt) :=
  match checkBounds n index with
  | some _ => .ok (false, n)
  | none =>
    match n.children[index.toNat]? with
    | none => .panic
    | some none => .ok (false, n)
    | some (some _) =>
      .ok (true, { n with children := n.children.set index.toNat none,
                          numChildren := n.numChildren - 1 })

/-- `node.AddChildWithIndexOf` (its own bounds test uses `>=`).  The
`child.SetParent(n)` write mutates the child's record, not `n`, and is
modelled in the arena embedding below. -/
def AddChildWithIndexOf (n : NodeSt) (index : Int) (child : Nat) : Out NodeSt :=
  if index < 0 ∨ (n.children.length : Int) ≤ index then .err .indexOutOfRange
  else
    match n.children[index.toNat]? with
    | some (some _) => .err .childExists
    | _ =>
      .ok { n with numChildren := n.numChildren + 1,
                   children := n.children.set index.toNat (some child) }

/-- `node.HasChildren`. -/
def HasChildren (n : NodeSt) : Bool := 0 < n.numChildren

/-- Number of occupied child slots. -/
def countOccupied (n : NodeSt) : Nat := (n.children.filter Option.isSome).length

/-- One call against a node: `AddChildWithIndexOf index child` or
`RemoveChildWithIndexOf index`. -/
inductive NodeOp where
  | add : Int → Nat → NodeOp
  | remove : Int → NodeOp
deriving DecidableEq, Repr

/-- Run a sequence of child operations; a returned error leaves the node
unchanged (as in Go), a panic aborts the run. -/
def runNodeOps (n : NodeSt) : List NodeOp → GoM NodeSt
  | [] => some n
  | .add i c :: rest =>
    match AddChildWithIndexOf n i c with
    | .ok n' => runNodeOps n' rest
    | .err _ => runNodeOps n rest
    | .panic => none
  | .remove i :: rest =>
    match RemoveChildWithIndexOf n i with
    | .ok (_, n') => runNodeOps n' rest
    | .err _ => runNodeOps n rest
    | .panic => none

theorem countOccupied_replicate (k : Nat) :
    ((List.replicate k (none : Option Nat)).filter Option.isSome).length = 0 := by
  induction k with
  | zero => rfl
  | succ k ih => simpa [List.replicate_succ, List.filter] using ih

theorem filter_isSome_set_some (l : List (Option Nat)) (i : Nat) (c : Nat)
    (h : l[i]? = some none) :
    ((l.set i (some c)).filter Option.isSome).length
      = (l.filter Option.isSome).length + 1 := by
  induction l generalizing i with
  | nil => simp at h
  | cons a as ih =>
    cases i with
    | zero =>
      simp only [List.getElem?_cons_zero, Option.some_inj] at h
      subst h
      simp [List.set, List.filter]
    | succ j =>
      simp only [List.getElem?_cons_succ] at h
      cases a with
      | none => simpa [List.set, List.filter] using ih j h
      | some v => simpa [List.set, List.filter] using ih j h

theorem filter_isSome_set_none (l : List (Option Nat)) (i : Nat) (c : Nat)
    (h : l[i]? = some (some c)) :
    ((l.set i none).filter Option.isSome).length + 1
      = (l.filter Option.isSome).length := by
  induction l generalizing i with
  | nil => simp at h
  | cons a as ih =>
    cases i with
    | zero =>
      simp only [List.getElem?_cons_zero, Option.some_inj] at h
      subst h
      simp [List.set, List.filter]
    | succ j =>
      simp only [List.getElem?_cons_succ] at h
      cases a with
      | none => simpa [List.set, List.filter] using ih j h
      | some v => simpa [List.set, List.filter] using ih j h

/-- The counter invariant considered by claim C6. -/
def counterOK (n : NodeSt) : Prop := n.numChildren = (countOccupied n : Int)

theorem AddChild_counter (n : NodeSt) (i : Int) (c : Nat) (n' : NodeSt)
    (hinv : counterOK n) (h : AddChildWithIndexOf n i c = .ok n') : counterOK n' := by
  unfold AddChildWithIndexOf at h
  split at h
  · exact absurd h (by simp)
  next hb =>
    push_neg at hb
    have hlt : i.toNat < n.children.length := by
      omega
    revert h
    split
    · intro h; exact absurd h (by simp)
    next slot hslot =>
      intro h
      have hget : n.children[i.toNat]? = some none := by
        rcases hgs : n.children[i.toNat]? with _ | s
        · simp [List.getElem?_eq_none_iff] at hgs; omega
        · cases s with
          | none => rfl
          | some v => exact absurd hgs (by simpa using hslot v)
      cases h
      unfold counterOK countOccupied at hinv ⊢
      simp only []
      rw [filter_isSome_set_some n.children i.toNat c hget]
      omega

theorem RemoveChild_counter (n : NodeSt) (i : Int) (b : Bool) (n' : NodeSt)
    (hinv : counterOK n) (h : RemoveChildWithIndexOf n i = .ok (b, n')) : counterOK n' := by
  unfold RemoveChildWithIndexOf at h
  split at h
  · cases h; exact hinv
  · revert h
    split
    · intro h; exact absurd h (by simp)
    · intro h; cases h; exact hinv
    next c hget =>
      intro h
      cases h
      unfold counterOK countOccupied at hinv ⊢
      simp only []
      have := filter_isSome_set_none n.children i.toNat c hget
      omega

theorem runNodeOps_counter (ops : List NodeOp) (n n' : NodeSt)
    (hinv : counterOK n) (h : runNodeOps n ops = some n') : counterOK n' := by
  induction ops generalizing n with
  | nil => cases h; exact hinv
  | cons op rest ih =>
    cases op with
    | add i c =>
      unfold runNodeOps at h
      revert h
      rcases ha : AddChildWithIndexOf n i c with n2 | e | _
      · exact fun h => ih n2 (AddChild_counter n i c n2 hinv ha) h
      · exact fun h => ih n hinv h
      · intro h; exact absurd h (by simp)
    | remove i =>
      unfold runNodeOps at h
      revert h
      rcases hr : RemoveChildWithIndexOf n i with ⟨b, n2⟩ | e | _
      · exact fun h => ih n2 (RemoveChild_counter n i b n2 hinv hr) h
      · exact fun h => ih n hinv h
      · intro h; exact absurd h (by simp)

theorem newNode_counter (capacity : Int) : counterOK (newNode capacity) := by
  unfold counterOK countOccupied newNode
  split <;> simp [countOccupied_replicate]

end GoNode

/-! ## The trie engine (src/trie/trie.go, search_context.go, node.go)

Arena embedding: `TrieSt.nodes` is the heap of `node`/`leafNode` records,
`Option Nat` references replace Go pointers.  `isLeafN` is the dynamic
type of the record (`*leafNode` vs `*node`), used where Go type-asserts.
Loops carry an explicit fuel that dominates their iteration count; a run
out of fuel (only possible on states no Go execution produces, i.e. with
reference cycles) yields `none` like a panic. -/

namespace GoTrie

/-- One heap record: the fields of `node` plus those of the `leafNode`
wrapper (meaningful when `isLeafN` is set). -/
structure NodeRec where
  parent : Option Nat
  children : List (Option Nat)
  numChildren : Int
  element : Option String
  isRoot : Bool
  isLeafN : Bool
  next : Option Nat
  previous : Option Nat
  isHead : Bool
  isTail : Bool
deriving DecidableEq, Repr

/-- The `trie` struct: arena plus the `root`, sentinel, `size` and
`capacity` fields (`capacity` is the digitizer base). -/
structure TrieSt where
  nodes : List NodeRec
  root : Option Nat
  head : Nat
  tail : Nat
  size : Int
  capacity : Nat
deriving DecidableEq, Repr

def blankNode : NodeRec :=
  ⟨none, [], 0, none, false, false, none, none, false, false⟩

/-- `newNode(capacity)`. -/
def newNodeRec (capacity : Int) : NodeRec :=
  if capacity ≤ 0 then blankNode
  else { blankNode with children := List.replicate capacity.toNat none }

/-- `newRootNode(capacity)`. -/
def newRootRec (capacity : Int) : NodeRec :=
  { blankNode with children := List.replicate capacity.toNat none, isRoot := true }

/-- `newLeafNode()` (wraps `newNode(0)`, so an empty child slice). -/
def newLeafRec : NodeRec := { blankNode with isLeafN := true }

def newHeadRec : NodeRec := { newLeafRec with isHead := true }

def newTailRec : NodeRec := { newLeafRec with isTail := true }

/-- Allocate a record, returning its index. -/
def alloc (st : TrieSt) (r : NodeRec) : TrieSt × Nat :=
  ({ st with nodes := st.nodes ++ [r] }, st.nodes.length)

def getN (st : TrieSt) (i : Nat) : GoM NodeRec := st.nodes[i]?

def setN (st : TrieSt) (i : Nat) (r : NodeRec) : TrieSt :=
  { st with nodes := st.nodes.set i r }

def modifyN (st : TrieSt) (i : Nat) (f : NodeRec → NodeRec) : GoM TrieSt :=
  (getN st i).map (fun r => setN st i (f r))

/-- `newTrieWithDigitizer(NewStringDigitizer(alphabetSize))`, i.e.
`NewTrie(alphabetSize)`: head and tail sentinels with `head.SetNext(tail)`
and `tail.SetNext(head)` (the source links tail's next, not its
previous). -/
def newTrie (alphabetSize : Nat) : TrieSt :=
  { nodes := [{ newHeadRec with next := some 1 }, { newTailRec with next := some 0 }],
    root := none, head := 0, tail := 1, size := 0, capacity := alphabetSize + 1 }

/-- `stringDigitizer.IsPrefixFree`. -/
def stringIsPrefixFree : Bool := true

/-! ### node methods at the arena level (src/unnamed/part_000) -/

/-- `node.checkBounds` (bound `index > len(children)`, as in the source). -/
def checkBoundsN (r : NodeRec) (index : Int) : Option GoErr :=
  if index < 0 ∨ (r.children.length : Int) < index then some .indexOutOfRange else none

/-- `node.ChildWithIndexOf` as `(child, err)`; the slice read panics at
`index = len(children)`. -/
def childWithIndexOf (st : TrieSt) (nid : Nat) (index : Int) :
    GoM (Option Nat × Option GoErr) := do
  let r ← getN st nid
  match checkBoundsN r index with
  | some e => some (none, some e)
  | none =>
    match r.children[index.toNat]? with
    | some slot => some (slot, none)
    | none => none

/-- `node.AddChildWithIndexOf`: on success writes the slot, bumps
`numChildren` and sets the child's parent back-reference. -/
def addChildWithIndexOf (st : TrieSt) (nid : Nat) (index : Int) (childId : Nat) :
    GoM (TrieSt × Option GoErr) := do
  let r ← getN st nid
  if index < 0 ∨ (r.children.length : Int) ≤ index then some (st, some .indexOutOfRange)
  else
    match r.children[index.toNat]? with
    | some (some _) => some (st, some .childExists)
    | _ =>
      let st1 := setN st nid
        { r with numChildren := r.numChildren + 1,
                 children := r.children.set index.toNat (some childId) }
      let c ← getN st1 childId
      some (setN st1 childId { c with parent := some nid }, none)

/-- `node.RemoveChildWithIndexOf`; the slice read panics at
`index = len(children)` after the off-by-one bounds check passes. -/
def removeChildWithIndexOf (st : TrieSt) (nid : Nat) (index : Int) :
    GoM (Bool × TrieSt) := do
  let r ← getN st nid
  match checkBoundsN r index with
  | some _ => some (false, st)
  | none =>
    match r.children[index.toNat]? with
    | none => none
    | some none => some (false, st)
    | some (some _) =>
      some (true, setN st nid { r with children := r.children.set index.toNat none,
                                       numChildren := r.numChildren - 1 })

/-! ### leafNode methods (src/unnamed/part_000) -/

/-- `leafNode.AddAfter(after)`: splice `l` in immediately after `after`. -/
def leafAddAfter (st : TrieSt) (l : Nat) (after : Nat) : GoM TrieSt := do
  let aft ← getN st after
  let st ← modifyN st l (fun r => { r with next := aft.next })
  let st ← modifyN st after (fun r => { r with next := some l })
  let st ← modifyN st l (fun r => { r with previous := some after })
  let lr ← getN st l
  match lr.next with
  | none => none
  | some nid => modifyN st nid (fun r => { r with previous := some l })

/-- `leafNode.Remove`: relink predecessor and successor, then clear only
the removed leaf's `previous` link (`markDeleted`); its `next` link stays.
A leaf whose `previous` is already nil panics on the first relink. -/
def leafRemove (st : TrieSt) (l : Nat) : GoM TrieSt := do
  let lr ← getN st l
  match lr.previous with
  | none => none
  | some p =>
    let st ← modifyN st p (fun r => { r with next := lr.next })
    let lr2 ← getN st l
    match lr2.next with
    | none => none
    | some nx =>
      let st ← modifyN st nx (fun r => { r with previous := lr2.previous })
      modifyN st l (fun r => { r with previous := none })

/-- `leafNode.IsDeleted`: the previous link is nil. -/
def leafIsDeleted (st : TrieSt) (l : Nat) : GoM Bool :=
  (getN st l).map (fun r => r.previous.isNone)

/-! ### searchContext (src/trie/search_context.go) -/

inductive SearchResult where
  | Extension
  | Greater
  | Less
  | Matched
  | Prefix
  | Unmatched
deriving DecidableEq, Repr

def childNotFound : Int := -1

structure SCtx where
  pointer : Option Nat
  branchPosition : Int
  numMatches : Int
deriving DecidableEq, Repr

/-- A fresh search context (`acquireSearchContext`; all fields that the
plain trie reads are then reset by `prepareSearch`). -/
def newSCtx : SCtx := ⟨none, 0, 0⟩

/-- `searchContext.atLeaf`: the Go type assertion to `LeafNode`. -/
def atLeaf (st : TrieSt) (s : SCtx) : Bool :=
  match s.pointer with
  | none => false
  | some i =>
    match st.nodes[i]? with
    | some r => r.isLeafN
    | none => false

/-- `searchContext.atRoot`: `s.pointer.Parent() == nil` (a nil pointer
panics). -/
def atRoot (st : TrieSt) (s : SCtx) : GoM Bool :=
  match s.pointer with
  | none => none
  | some i => (st.nodes[i]?).map (fun r => r.parent.isNone)

/-- `searchContext.descendToIndex`: returns the index used, or
`childNotFound` without moving. -/
def descendToIndex (st : TrieSt) (s : SCtx) (index : Int) : GoM (Int × SCtx) :=
  match s.pointer with
  | none => none
  | some nid => do
    let (child, err) ← childWithIndexOf st nid index
    if err.isSome || child.isNone then some (childNotFound, s)
    else some (index, { s with branchPosition := s.branchPosition + 1, pointer := child })

/-- `searchContext.descendTo`. -/
def descendTo (st : TrieSt) (s : SCtx) (e : String) : GoM (Int × SCtx) := do
  let index ← stringDigitOf e s.branchPosition
  descendToIndex st s (index : Int)

/-- `searchContext.ascend`. -/
def ascend (st : TrieSt) (s : SCtx) : GoM SCtx :=
  match s.pointer with
  | none => none
  | some nid =>
    (getN st nid).map (fun r =>
      { s with branchPosition := s.branchPosition - 1, pointer := r.parent })

/-- `searchContext.childIndexOf`. -/
def sctxChildIndexOf (s : SCtx) (e : String) : GoM Nat :=
  stringDigitOf e s.branchPosition

/-- The inner slot scan of `moveToMaxDescendant`: decrement the index
until a descent succeeds (the Go loop does not terminate when the node has
no occupied slot; the fuel then yields `none`). -/
def maxDescScan (st : TrieSt) (s : SCtx) : Int → Nat → GoM SCtx
  | _, 0 => none
  | index, fuel+1 => do
    let (res, s') ← descendToIndex st s index
    if res = childNotFound then maxDescScan st s (index - 1) fuel
    else some s'

/-- `searchContext.moveToMaxDescendant`: repeatedly descend via the
highest occupied slot until a leaf is reached. -/
def moveToMaxDescendant (st : TrieSt) : SCtx → Nat → GoM SCtx
  | _, 0 => none
  | s, fuel+1 =>
    if atLeaf st s then some s
    else do
      let s' ← maxDescScan st s ((st.capacity : Int) - 1) (st.capacity + 2)
      moveToMaxDescendant st s' fuel

/-- The sibling scan of `retraceToLastLeftFork`: try slots
`index-1, …, 0`; `some s'` means a descent succeeded (the Go `return`
from inside the loop). -/
def leftForkScan (st : TrieSt) (s : SCtx) : Int → Nat → GoM (Option SCtx)
  | _, 0 => none
  | i, fuel+1 =>
    if i < 0 then some none
    else do
      let (res, s') ← descendToIndex st s i
      if res = childNotFound then leftForkScan st s (i - 1) fuel
      else some (some s')

/-- `searchContext.retraceToLastLeftFork`. -/
def retraceToLastLeftFork (st : TrieSt) (e : String) : SCtx → Nat → GoM SCtx
  | _, 0 => none
  | s, fuel+1 => do
    let hit ←
      if atLeaf st s then some none
      else do
        let index ← stringDigitOf e s.branchPosition
        leftForkScan st s ((index : Int) - 1) (index + 2)
    match hit with
    | some s' => some s'
    | none => do
      let rt ← atRoot st s
      if rt then some s
      else do
        let s' ← ascend st s
        retraceToLastLeftFork st e s' fuel

/-- `searchContext.processedEndOfString`: the parent's slot-0 child is
read (`s.pointer.Parent().ChildWithIndexOf(0)`) before the `IsRoot` test,
so a pointer at the root dereferences a nil parent and panics.
`reflect.DeepEqual(childNode, s.pointer)` is structural equality of the
referenced nodes, modelled by `deepEqualOpt` below. -/
def deepEqualNode (st : TrieSt) : Nat → Nat → Nat → Bool
  | 0, _, _ => false
  | fuel+1, a, b =>
    if a = b then true
    else
      match st.nodes[a]?, st.nodes[b]? with
      | some ra, some rb =>
        ra.element == rb.element && ra.isRoot == rb.isRoot && ra.isLeafN == rb.isLeafN
          && ra.isHead == rb.isHead && ra.isTail == rb.isTail
          && ra.numChildren == rb.numChildren
          && ra.parent.isSome == rb.parent.isSome
          && ra.next.isSome == rb.next.isSome
          && ra.previous.isSome == rb.previous.isSome
          && ra.children.length == rb.children.length
          && (List.zip ra.children rb.children).all (fun cc =>
                match cc with
                | (none, none) => true
                | (some x, some y) => deepEqualNode st fuel x y
                | _ => false)
      | _, _ => false

def deepEqualOpt (st : TrieSt) (a b : Option Nat) : Bool :=
  match a, b with
  | none, none => true
  | some x, some y => deepEqualNode st (st.nodes.length + 1) x y
  | _, _ => false

def processedEndOfString (st : TrieSt) (s : SCtx) : GoM Bool :=
  match s.pointer with
  | none => none
  | some nid => do
    let r ← getN st nid
    match r.parent with
    | none => none
    | some pid => do
      let (childNode, _) ← childWithIndexOf st pid 0
      some (stringIsPrefixFree && !r.isRoot && deepEqualOpt st childNode (some nid))

/-- The child-slot loop of `searchContext.elementsInSubtree`, with the
recursive subtree walk inlined one level (a child that is a leaf
contributes its value; an internal child is walked from slot 0).  The
fuel bounds the total number of steps; `elementsInSubtree` below passes
one dominating every walk of an acyclic arena. -/
def elemsSlotLoop (st : TrieSt) : Nat → SCtx → Int → List (Option String) →
    GoM (SCtx × List (Option String))
  | 0, _, _, _ => none
  | fuel+1, s, i, out =>
    if (st.capacity : Int) ≤ i then some (s, out)
    else do
      let (res, s') ← descendToIndex st s i
      if res = childNotFound then elemsSlotLoop st fuel s (i + 1) out
      else do
        let (s2, out2) ←
          if atLeaf st s' then
            match s'.pointer with
            | none => none
            | some nid => (getN st nid).map (fun r => (s', out ++ [r.element]))
          else elemsSlotLoop st fuel s' 0 out
        let s3 ← ascend st s2
        elemsSlotLoop st fuel s3 (i + 1) out2

/-- `searchContext.elementsInSubtree`: append every leaf value under the
pointer, lowest slot first, to the output collection. -/
def elementsInSubtree (st : TrieSt) (fuel : Nat) (s : SCtx) (out : List (Option String)) :
    GoM (SCtx × List (Option String)) :=
  if atLeaf st s then
    match s.pointer with
    | none => none
    | some nid => (getN st nid).map (fun r => (s, out ++ [r.element]))
  else
    match fuel with
    | 0 => none
    | fuel+1 => elemsSlotLoop st fuel s 0 out

/-! ### trie methods (src/trie/trie.go) -/

def Size (st : TrieSt) : Int := st.size

def isEmpty (st : TrieSt) : Bool := st.size == 0

/-- `trie.prepareSearch`. -/
def prepareSearch (st : TrieSt) (s : SCtx) : SCtx :=
  { s with pointer := st.root, branchPosition := 0 }

/-- The descent loop of `trie.find`.  Each iteration that continues
advances `branchPosition` by one and the loop stops at
`branchPosition = numDigits`, so `numDigits + 1` fuel dominates it. -/
def findLoop (st : TrieSt) (e : String) : Nat → SCtx → GoM (Option SearchResult × SCtx)
  | 0, _ => none
  | fuel+1, s =>
    if s.pointer.isSome && !(atLeaf st s) then
      if s.branchPosition = (numDigitsOf e : Int) then some (some .Prefix, s)
      else do
        let (res, s') ← descendTo st s e
        if res = childNotFound then some (some .Unmatched, s')
        else findLoop st e fuel s'
    else some (none, s)

/-- `trie.find`. -/
def find (st : TrieSt) (e : String) (s : SCtx) : GoM (SearchResult × SCtx) :=
  let s := prepareSearch st s
  if isEmpty st then some (.Unmatched, s)
  else do
    let (early, s') ← findLoop st e (numDigitsOf e + 1) s
    match early with
    | some r => some (r, s')
    | none =>
      if s'.pointer.isSome && s'.branchPosition ≠ (numDigitsOf e : Int) then
        some (.Extension, s')
      else some (.Matched, s')

/-- `trie.moveToPredecessor`. -/
def moveToPredecessor (st : TrieSt) (e : String) (s : SCtx) (sr : SearchResult) :
    GoM (Bool × SCtx) := do
  if atLeaf st s && (sr = .Greater || sr = .Extension) then some (true, s)
  else do
    let s ←
      if sr ≠ .Greater then retraceToLastLeftFork st e s (st.nodes.length + 2)
      else some s
    let rt ← atRoot st s
    if rt then some (false, s)
    else if !(atLeaf st s) then do
      let s' ← moveToMaxDescendant st s (st.nodes.length + 2)
      some (true, s')
    else some (true, s)

/-- The path-building loop of `trie.addNode`; iterations are bounded by
the element's digit count. -/
def addNodeLoop (st : TrieSt) (el : String) : Nat → SCtx → GoM (TrieSt × SCtx)
  | 0, _ => none
  | fuel+1, s =>
    if s.branchPosition < (numDigitsOf el : Int) - 1 then do
      let index ← stringDigitOf el s.branchPosition
      match s.pointer with
      | none => none
      | some pid =>
        let (st1, childId) := alloc st (newNodeRec (st.capacity : Int))
        do
          let (st2, _e) ← addChildWithIndexOf st1 pid (index : Int) childId
          addNodeLoop st2 el fuel
            { s with pointer := some childId, branchPosition := s.branchPosition + 1 }
    else some (st, s)

/-- The final attachment step of `trie.addNode` (the code after the
path-building loop): attach the node itself at the digit reached. -/
def addNodeFinish (st : TrieSt) (el : String) (nodeId : Nat) (s : SCtx) :
    GoM (TrieSt × SCtx) := do
  let index ← stringDigitOf el s.branchPosition
  match s.pointer with
  | none => none
  | some pid => do
    let (st, _e) ← addChildWithIndexOf st pid (index : Int) nodeId
    some (st, { s with pointer := some nodeId, branchPosition := s.branchPosition + 1 })

/-- `trie.addNode`: materialize the path for the node's value (creating
the root on first insertion) and attach the node at the end; errors from
`AddChildWithIndexOf` are discarded, as in the source. -/
def addNode (st : TrieSt) (nodeId : Nat) (s : SCtx) : GoM (TrieSt × SCtx) := do
  let (st, s) ←
    if s.pointer.isNone then
      let (st', rid) := alloc st (newRootRec (st.capacity : Int))
      some ({ st' with root := some rid }, { s with pointer := some rid })
    else some (st, s)
  let r ← getN st nodeId
  match r.element with
  | none => none
  | some el => do
    let (st, s) ← addNodeLoop st el (numDigitsOf el + 1) s
    addNodeFinish st el nodeId s

/-- `trie.insert`. -/
def insert (st : TrieSt) (e : String) : GoM (TrieSt × Except GoErr Nat) := do
  let (sr, s1) ← find st e newSCtx
  if sr = .Matched ∨ (¬ stringIsPrefixFree ∧ (sr = .Prefix ∨ sr = .Extension)) then
    some (st, .error .prefixViolation)
  else do
    let (st, leafId) := alloc st { newLeafRec with element := some e }
    let (st, s2) ← addNode st leafId s1
    let (moved, s3) ← moveToPredecessor st e s2 .Matched
    let st ←
      if moved then
        match s3.pointer with
        | none => none
        | some pid => do
          let r ← getN st pid
          if r.isLeafN then leafAddAfter st leafId pid else none
      else leafAddAfter st leafId st.head
    some ({ st with size := st.size + 1 }, .ok leafId)

/-- `trie.Add`. -/
def Add (st : TrieSt) (e : String) : GoM (TrieSt × Option GoErr) := do
  let (st', r) ← insert st e
  match r with
  | .ok _ => some (st', none)
  | .error er => some (st', some er)

/-- `trie.Contains`. -/
def Contains (st : TrieSt) (e : String) : GoM Bool :=
  if isEmpty st then some false
  else do
    let (sr, _) ← find st e newSCtx
    some (sr = .Matched)

/-- The upward pruning loop of `trie.remove`. -/
def pruneLoop (st : TrieSt) (el : String) : Nat → Int → Nat → GoM TrieSt
  | _, _, 0 => none
  | nid, level, fuel+1 => do
    let r ← getN st nid
    if ¬ r.isRoot ∧ ¬ (0 < r.numChildren) then
      match r.parent with
      | none => none
      | some pid => do
        let d ← stringDigitOf el (level - 1)
        let (_b, st') ← removeChildWithIndexOf st pid (d : Int)
        pruneLoop st' el pid (level - 1) fuel
    else some st

/-- `trie.remove(node)`: tombstone the leaf, prune childless ancestors,
decrement `size`. -/
def removeNode (st : TrieSt) (nid : Nat) : GoM TrieSt := do
  let r ← getN st nid
  let st ← if r.isLeafN then leafRemove st nid else some st
  let r2 ← getN st nid
  match r2.element with
  | none => none
  | some el => do
    let st ← pruneLoop st el nid (numDigitsOf el : Int) (numDigitsOf el + 2)
    some { st with size := st.size - 1 }

/-- `trie.Remove`. -/
def Remove (st : TrieSt) (e : String) : GoM (Bool × TrieSt) :=
  if isEmpty st then some (false, st)
  else do
    let (sr, s) ← find st e newSCtx
    if sr ≠ .Matched then some (false, st)
    else
      match s.pointer with
      | none => none
      | some nid => do
        let st' ← removeNode st nid
        some (true, st')

/-- `trie.Min`: the first element in iteration order
(`t.head.Next().Value()`), nil on an empty trie. -/
def Min (st : TrieSt) : GoM (Option String) :=
  if !(isEmpty st) then do
    let h ← getN st st.head
    match h.next with
    | none => none
    | some nid => (getN st nid).map (fun r => r.element)
  else some none

/-- `trie.Max`: the last element in iteration order
(`t.tail.Previous().Value()`), nil on an empty trie. -/
def Max (st : TrieSt) : GoM (Option String) :=
  if !(isEmpty st) then do
    let t ← getN st st.tail
    match t.previous with
    | none => none
    | some nid => (getN st nid).map (fun r => r.element)
  else some none

/-- `trie.Predecessor`. -/
def Predecessor (st : TrieSt) (e : String) : GoM (Option String) :=
  if !(isEmpty st) then do
    let (sr, s1) ← find st e newSCtx
    let (moved, s2) ← moveToPredecessor st e s1 sr
    if moved then
      match s2.pointer with
      | none => none
      | some nid => (getN st nid).map (fun r => r.element)
    else some none
  else some none

/-- `trie.Successor`: on a match, the matched leaf's list successor;
otherwise the list successor of the predecessor found by a fresh `find`
plus `moveToPredecessor`; nil when that successor is the tail sentinel. -/
def Successor (st : TrieSt) (e : String) : GoM (Option String) :=
  if !(isEmpty st) then do
    let (sr, s1) ← find st e newSCtx
    let succ : Option Nat ←
      if sr = .Matched then
        match s1.pointer with
        | none => none
        | some nid => do
          let r ← getN st nid
          if r.isLeafN then some r.next else none
      else do
        let (sr2, s2) ← find st e s1
        let (moved, s3) ← moveToPredecessor st e s2 sr2
        if moved then
          match s3.pointer with
          | none => none
          | some nid => do
            let r ← getN st nid
            if r.isLeafN then some r.next else none
        else some (some st.tail)
    match succ with
    | none => none
    | some sid => do
      let r ← getN st sid
      if !r.isTail then some r.element else some none
  else some none

/-- `trie.Completions`: append to the collection every stored element
having the queried prefix. -/
def Completions (st : TrieSt) (pfx : String) (coll : List (Option String)) :
    GoM (List (Option String)) :=
  if !(isEmpty st) then do
    let (sr, s1) ← find st pfx newSCtx
    let nd0 : Int := (numDigitsOf pfx : Int)
    let (nd, s2) ←
      if stringIsPrefixFree then do
        let pe ← processedEndOfString st s1
        if pe then do
          let s' ← ascend st s1
          some (nd0 - 1, s')
        else some (nd0 - 1, s1)
      else some (nd0, s1)
    if sr = .Prefix ∨ sr = .Matched ∨ s2.branchPosition = nd then do
      let (_s3, out) ← elementsInSubtree st ((st.nodes.length + 2) * (st.capacity + 2)) s2 coll
      some out
    else some coll
  else some coll

/-! ### the iterator (src/trie/trie.go) -/

/-- `iterator.inCollection`. -/
def iterInCollection (st : TrieSt) (p : Nat) : GoM Bool := do
  let r ← getN st p
  if r.isHead ∨ r.isTail then some false
  else some (!r.previous.isNone)

/-- `iterator.get`. -/
def iterGet (st : TrieSt) (p : Nat) : GoM (Option String) := do
  let b ← iterInCollection st p
  if b then (getN st p).map (fun r => r.element) else some none

/-- `iterator.skipRemovedElements`: recursively skip tombstoned leaves,
re-pointing their `next` links past further tombstones. -/
def skipRemovedElements (st : TrieSt) : Nat → Nat → GoM (TrieSt × Nat)
  | 0, _ => none
  | fuel+1, lid => do
    let r ← getN st lid
    if r.isHead ∨ r.isTail ∨ ¬ r.previous.isNone then some (st, lid)
    else
      match r.next with
      | none => none
      | some nid => do
        let (st1, skipped) ← skipRemovedElements st fuel nid
        let st2 ← modifyN st1 lid (fun rr => { rr with next := some skipped })
        let r2 ← getN st2 lid
        match r2.next with
        | none => none
        | some nxt => some (st2, nxt)

/-- `iterator.advance`. -/
def iterAdvance (st : TrieSt) (p : Nat) : GoM (TrieSt × Nat × Bool) := do
  let r ← getN st p
  if r.isTail then some (st, p, false)
  else do
    let (st', p') ←
      if ¬ r.isHead ∧ r.previous.isNone then skipRemovedElements st (st.nodes.length + 1) p
      else
        match r.next with
        | none => none
        | some nxt => some (st, nxt)
    let r' ← getN st' p'
    some (st', p', !r'.isTail)

/-- The collection loop of `trie.Values`. -/
def valuesLoop (st : TrieSt) : Nat → Nat → List (Option String) →
    GoM (TrieSt × List (Option String))
  | 0, _, _ => none
  | fuel+1, p, acc => do
    let (st', p', more) ← iterAdvance st p
    if more then do
      let v ← iterGet st' p'
      valuesLoop st' fuel p' (acc ++ [v])
    else some (st', acc)

/-- `trie.Values`. -/
def Values (st : TrieSt) : GoM (List (Option String)) := do
  let (_st', l) ← valuesLoop st (st.nodes.length + 2) st.head []
  some l

/-- `trie.checkBounds`. -/
def trieCheckBounds (st : TrieSt) (index : Int) : Option GoErr :=
  if index < 0 ∨ st.size ≤ index then some .indexOutOfRange else none

/-- The advance loop of `trie.ValueWithIndex` (`index + 1` advances). -/
def advanceTimes (st : TrieSt) (p : Nat) : Nat → GoM (TrieSt × Nat)
  | 0 => some (st, p)
  | k+1 => do
    let (st', p', _) ← iterAdvance st p
    advanceTimes st' p' k

/-- `trie.ValueWithIndex` as `(element, err)`. -/
def ValueWithIndex (st : TrieSt) (index : Int) : GoM (Option String × Option GoErr) :=
  match trieCheckBounds st index with
  | some e => some (none, some e)
  | none => do
    let (st', p') ← advanceTimes st st.head (index + 1).toNat
    let v ← iterGet st' p'
    some (v, none)

/-! ### the radix-tree variant (src/trie/radix_tree.go)

`radixTree` embeds `*trie`; Go struct embedding promotes the trie's
public methods without virtual dispatch, so `Add`, `Contains` and
`Remove` called on a radix tree run `trie.find`, `trie.addNode` and
`trie.remove` above, never the overriding methods below. -/

/-- `NewRadixTree`: the same state as a plain trie. -/
def newRadixTree (alphabetSize : Nat) : TrieSt := newTrie alphabetSize

/-- `radixTree.checkMatchFromLeaf`: digit-by-digit comparison of the
remaining digits against the reached leaf's value. -/
def checkMatchLoop (st : TrieSt) (e leafData : String) (stop : Int) :
    SCtx → Nat → GoM (Option SearchResult × SCtx)
  | _, 0 => none
  | s, fuel+1 =>
    if s.numMatches < stop then do
      let targetDigit ← stringDigitOf e s.numMatches
      let leafDigit ← stringDigitOf leafData s.numMatches
      let comparison : Int := (targetDigit : Int) - (leafDigit : Int)
      if comparison < 0 then
        if stringIsPrefixFree ∧ targetDigit = 0 then some (some .Prefix, s)
        else some (some .Less, s)
      else if 0 < comparison then some (some .Greater, s)
      else checkMatchLoop st e leafData stop { s with numMatches := s.numMatches + 1 } fuel
    else some (none, s)

def checkMatchFromLeaf (st : TrieSt) (e : String) (s : SCtx) :
    GoM (SearchResult × SCtx) := do
  match s.pointer with
  | none => none
  | some nid => do
    let r ← getN st nid
    match r.element with
    | none => none
    | some leafData => do
      let stop : Int := Nat.min (numDigitsOf e) (numDigitsOf leafData)
      let (early, s') ← checkMatchLoop st e leafData stop s (numDigitsOf e + numDigitsOf leafData + 2)
      match early with
      | some res => some (res, s')
      | none =>
        if s'.numMatches = (numDigitsOf e : Int) then
          if s'.numMatches = (numDigitsOf leafData : Int) then some (.Matched, s')
          else some (.Prefix, s')
        else some (.Extension, s')

/-- The descent loop of `radixTree.find`. -/
def radixFindLoop (st : TrieSt) (e : String) : Nat → SCtx → GoM (Option SearchResult × SCtx)
  | 0, _ => none
  | fuel+1, s =>
    if s.branchPosition < (numDigitsOf e : Int) && !(atLeaf st s) then do
      let (res, s') ← descendTo st s e
      if res = childNotFound then some (some .Unmatched, s')
      else radixFindLoop st e fuel s'
    else some (none, s)

/-- `radixTree.find` (unreachable from the public interface, see above). -/
def radixFind (st : TrieSt) (e : String) (s : SCtx) : GoM (SearchResult × SCtx) :=
  let s := prepareSearch st s
  if isEmpty st then some (.Unmatched, s)
  else do
    let (early, s1) ← radixFindLoop st e (numDigitsOf e + 1) s
    match early with
    | some r => some (r, s1)
    | none =>
      if s1.branchPosition = (numDigitsOf e : Int) then
        if atLeaf st s1 then some (.Matched, s1) else some (.Prefix, s1)
      else checkMatchFromLeaf st e { s1 with numMatches := s1.branchPosition }

/-- `radixTree.remove`: the explicitly unimplemented placeholder (empty
body: the state is returned unchanged, and in particular `size` is not
decremented because `trie.Remove` delegates that to this method's plain
counterpart). -/
def radixRemove (st : TrieSt) (_nid : Nat) : GoM TrieSt := some st

/-- Modelled from the spec: `Remove` as claim C5 describes it, i.e. the
public removal dispatching its internal removal step to the radix tree's
own (placeholder) `remove` instead of `trie.remove`. -/
def RemoveDispatchedToRadix (st : TrieSt) (e : String) : GoM (Bool × TrieSt) :=
  if isEmpty st then some (false, st)
  else do
    let (sr, s) ← find st e newSCtx
    if sr ≠ .Matched then some (false, st)
    else
      match s.pointer with
      | none => none
      | some nid => do
        let st' ← radixRemove st nid
        some (true, st')

/-! ### drivers and arena access lemmas -/

/-- Run a sequence of `Add` calls, returning the final state and the
error value each call returned. -/
def addSeq (st : TrieSt) : List String → GoM (TrieSt × List (Option GoErr))
  | [] => some (st, [])
  | e :: rest => do
    let (st', r) ← Add st e
    let (st'', rs) ← addSeq st' rest
    some (st'', r :: rs)

theorem getN_bound {st : TrieSt} {i : Nat} {ri : NodeRec}
    (h : getN st i = some ri) : i < st.nodes.length := by
  unfold getN at h
  by_contra hge
  rw [List.getElem?_eq_none (by omega)] at h
  exact absurd h (by simp)

theorem getN_setN_self {st : TrieSt} {i : Nat} {ri : NodeRec} (r : NodeRec)
    (h : getN st i = some ri) : getN (setN st i r) i = some r := by
  have hlt := getN_bound h
  unfold getN setN
  exact List.getElem?_set_self hlt

theorem getN_setN_ne (st : TrieSt) (i : Nat) (r : NodeRec) (j : Nat) (h : j ≠ i) :
    getN (setN st i r) j = getN st j := by
  unfold getN setN
  exact List.getElem?_set_ne (Ne.symm h)

end GoTrie

/-! ## Digit sequences: shape and order

Pure facts about the digit sequences the string digitizer produces:
every good string's sequence is its character digits (each in
`[1, B)`) followed by the terminator 0, sequences are prefix-free, and
`seqLtb` is a strict total order on them. -/

/-- The digit-sequence shape the digitizer gives to good strings:
non-empty, real digits in `[1, B)`, terminator 0 at the end. -/
def GoodSeq (B : Nat) (ds : List Nat) : Prop :=
  ds ≠ [] ∧ (∀ i, i + 1 < ds.length → 1 ≤ ds.getD i 0 ∧ ds.getD i 0 < B) ∧
    ds.getD (ds.length - 1) 0 = 0

theorem string_length_data (e : String) : e.length = e.data.length := rfl

theorem seqOf_length (e : String) : (seqOf e).length = e.length + 1 := by
  unfold seqOf
  rw [string_length_data]
  simp

theorem numDigitsOf_eq (e : String) : numDigitsOf e = (seqOf e).length := by
  simp [numDigitsOf, seqOf_length]

theorem seqOf_ne_nil (e : String) : seqOf e ≠ [] := by
  simp [seqOf]

theorem seqOf_getD_lt {e : String} {i : Nat} (h : i < e.length) :
    (seqOf e).getD i 0 = charDigit (e.data.getD i 'a') := by
  unfold seqOf
  have hd : i < e.data.length := h
  rw [List.getD_append _ _ _ _ (by simpa using hd)]
  rw [List.getD_eq_getElem _ _ (by simpa using hd), List.getElem_map]
  rw [List.getD_eq_getElem _ _ hd]

theorem seqOf_getD_last (e : String) : (seqOf e).getD e.length 0 = 0 := by
  unfold seqOf
  rw [List.getD_append_right _ _ _ _ (by rw [string_length_data]; simp)]
  rw [string_length_data]
  simp

theorem seqOf_getD_ge {e : String} {i : Nat} (h : e.length ≤ i) :
    (seqOf e).getD i 0 = 0 := by
  rcases Nat.eq_or_lt_of_le h with h | h
  · rw [← h]; exact seqOf_getD_last e
  · apply List.getD_eq_default
    rw [seqOf_length]; omega

/-- `DigitOf` at a non-negative place is the digit sequence read with
default 0. -/
theorem stringDigitOf_eq_getD (e : String) (k : Nat) :
    stringDigitOf e (k : Int) = some ((seqOf e).getD k 0) := by
  unfold stringDigitOf
  rcases Nat.lt_or_ge k e.length with h | h
  · rw [if_neg (by exact_mod_cast Nat.not_le.mpr h), if_neg (by omega)]
    have hd : k < e.data.length := h
    rw [Int.toNat_ofNat, List.getElem?_eq_getElem hd, seqOf_getD_lt h]
    simp [List.getD_eq_getElem?_getD, List.getElem?_eq_getElem hd]
  · rw [if_pos (by exact_mod_cast h), seqOf_getD_ge h]

theorem goodStr_goodSeq {B : Nat} {e : String} (h : GoodStr B e) : GoodSeq B (seqOf e) := by
  refine ⟨seqOf_ne_nil e, ?_, ?_⟩
  · intro i hi
    rw [seqOf_length] at hi
    have hie : i < e.length := by omega
    rw [seqOf_getD_lt hie]
    have hmem : e.data.getD i 'a' ∈ e.data := by
      have : i < e.data.length := hie
      rw [List.getD_eq_getElem _ _ this]
      exact List.getElem_mem this
    exact ⟨(h _ hmem).2.1, (h _ hmem).2.2⟩
  · rw [seqOf_length]
    simpa using seqOf_getD_last e

/-- Prefix-freedom: between good sequences, a prefix is the whole
sequence (the terminator digit 0 cannot occur in the interior). -/
theorem goodSeq_prefix_eq {B : Nat} {a b : List Nat}
    (ha : GoodSeq B a) (hb : GoodSeq B b) (hab : a <+: b) : a = b := by
  obtain ⟨t, rfl⟩ := hab
  cases t with
  | nil => simp
  | cons x xs =>
    exfalso
    obtain ⟨hne, hmid, hlast⟩ := ha
    obtain ⟨-, hmid', -⟩ := hb
    have hlen : 1 ≤ a.length := List.length_pos.mpr hne
    have hi : (a.length - 1) + 1 < (a ++ x :: xs).length := by
      simp; omega
    have := hmid' (a.length - 1) hi
    rw [List.getD_append _ _ _ _ (by omega)] at this
    omega

theorem seqLtb_irrefl (a : List Nat) : seqLtb a a = false := by
  induction a with
  | nil => rfl
  | cons x xs ih => simp [seqLtb, ih]

theorem seqLtb_trans {a b c : List Nat} (h1 : seqLtb a b = true) (h2 : seqLtb b c = true) :
    seqLtb a c = true := by
  induction a generalizing b c with
  | nil =>
    cases b with
    | nil => simp [seqLtb] at h1
    | cons y ys => cases c with
      | nil => simp [seqLtb] at h2
      | cons z zs => simp [seqLtb]
  | cons x xs ih =>
    cases b with
    | nil => simp [seqLtb] at h1
    | cons y ys =>
      cases c with
      | nil => simp [seqLtb] at h2
      | cons z zs =>
        simp only [seqLtb, Bool.or_eq_true, Bool.and_eq_true, beq_iff_eq,
          decide_eq_true_eq] at h1 h2 ⊢
        rcases h1 with h1 | ⟨rfl, h1⟩
        · rcases h2 with h2 | ⟨rfl, h2⟩
          · exact Or.inl (by omega)
          · exact Or.inl h1
        · rcases h2 with h2 | ⟨rfl, h2⟩
          · exact Or.inl h2
          · exact Or.inr ⟨rfl, ih h1 h2⟩

theorem seqLtb_total (a b : List Nat) :
    seqLtb a b = true ∨ a = b ∨ seqLtb b a = true := by
  induction a generalizing b with
  | nil => cases b with
    | nil => simp [seqLtb]
    | cons y ys => simp [seqLtb]
  | cons x xs ih =>
    cases b with
    | nil => simp [seqLtb]
    | cons y ys =>
      rcases Nat.lt_trichotomy x y with h | h | h
      · exact Or.inl (by simp [seqLtb]; omega)
      · subst h
        rcases ih ys with h | h | h
        · exact Or.inl (by simp [seqLtb, h])
        · exact Or.inr (Or.inl (by rw [h]))
        · exact Or.inr (Or.inr (by simp [seqLtb, h]))
      · exact Or.inr (Or.inr (by simp [seqLtb]; omega))

theorem seqLtb_asymm {a b : List Nat} (h : seqLtb a b = true) : seqLtb b a = false := by
  by_contra hc
  have hba : seqLtb b a = true := by
    cases hh : seqLtb b a
    · exact absurd hh hc
    · rfl
  have := seqLtb_trans h hba
  rw [seqLtb_irrefl] at this
  exact absurd this (by simp)

theorem seqLtb_ne {a b : List Nat} (h : seqLtb a b = true) : a ≠ b := by
  rintro rfl
  rw [seqLtb_irrefl] at h
  exact absurd h (by simp)

/-- Sequences branching at the end of a common prefix order by the
branch digits. -/
theorem seqLtb_append_lt {x y : Nat} (p : List Nat) (a b : List Nat) (h : x < y) :
    seqLtb (p ++ x :: a) (p ++ y :: b) = true := by
  induction p with
  | nil => simp [seqLtb]; omega
  | cons d p ih => simp [seqLtb, ih]

/-- Anything lexicographically between two sequences sharing a prefix
shares that prefix. -/
theorem seqLtb_between_pfx {p a b c : List Nat}
    (hpa : p <+: a) (hpc : p <+: c)
    (hab : seqLtb a b = true) (hbc : seqLtb b c = true) : p <+: b := by
  induction p generalizing a b c with
  | nil => exact List.nil_prefix
  | cons d p ih =>
    obtain ⟨ta, rfl⟩ := hpa
    obtain ⟨tc, rfl⟩ := hpc
    cases b with
    | nil => simp [seqLtb] at hab
    | cons x xs =>
      simp only [List.cons_append, seqLtb, Bool.or_eq_true, Bool.and_eq_true, beq_iff_eq,
        decide_eq_true_eq] at hab hbc
      have hx : x = d := by omega
      subst hx
      rcases hab with hab | ⟨-, hab⟩
      · omega
      rcases hbc with hbc | ⟨-, hbc⟩
      · omega
      have := ih (List.prefix_append p ta) (List.prefix_append p tc) hab hbc
      exact (List.prefix_cons_inj x).mpr this

/-! ## The canonical tree

A pure inductive picture of a trie's node structure: each internal node
carries its arena id and its child list as (digit, subtree) pairs in
strictly increasing digit order; each leaf carries its arena id and
element.  The arena is related to it by `Encodes` below. -/

mutual
inductive CT where
  | leaf (id : Nat) (e : String) : CT
  | node (id : Nat) (kids : CTKids) : CT
deriving DecidableEq, Repr

inductive CTKids where
  | nil : CTKids
  | cons (d : Nat) (t : CT) (rest : CTKids) : CTKids
deriving DecidableEq, Repr
end

def CT.idOf : CT → Nat
  | .leaf i _ => i
  | .node i _ => i

mutual
/-- The (id, element) pairs of the leaves, in digit order. -/
def ctPairs : CT → List (Nat × String)
  | .leaf i e => [(i, e)]
  | .node _ ks => ctKidsPairs ks

def ctKidsPairs : CTKids → List (Nat × String)
  | .nil => []
  | .cons _ t rest => ctPairs t ++ ctKidsPairs rest
end

mutual
/-- All arena ids in the subtree. -/
def ctIds : CT → List Nat
  | .leaf i _ => [i]
  | .node i ks => i :: ctKidsIds ks

def ctKidsIds : CTKids → List Nat
  | .nil => []
  | .cons _ t rest => ctIds t ++ ctKidsIds rest
end

def kidsDigits : CTKids → List Nat
  | .nil => []
  | .cons d _ rest => d :: kidsDigits rest

def kidsCount : CTKids → Nat
  | .nil => 0
  | .cons _ _ rest => kidsCount rest + 1

/-- The subtree stored under a digit. -/
def kidsFind : CTKids → Nat → Option CT
  | .nil, _ => none
  | .cons d t rest, j => if j = d then some t else kidsFind rest j

/-- The child-slot content for a digit. -/
def kidsLookup (ks : CTKids) (j : Nat) : Option Nat := (kidsFind ks j).map CT.idOf

/-- Replace the subtree under a digit. -/
def kidsReplace (j : Nat) (nt : CT) : CTKids → CTKids
  | .nil => .nil
  | .cons d t rest => if j = d then .cons d nt rest else .cons d t (kidsReplace j nt rest)

/-- Insert a subtree under a fresh digit, keeping digits sorted. -/
def kidsInsert (j : Nat) (nt : CT) : CTKids → CTKids
  | .nil => .cons j nt .nil
  | .cons d t rest => if j < d then .cons j nt (.cons d t rest) else .cons d t (kidsInsert j nt rest)

/-- Remove the subtree under a digit. -/
def kidsRemove (j : Nat) : CTKids → CTKids
  | .nil => .nil
  | .cons d t rest => if j = d then rest else .cons d t (kidsRemove j rest)

mutual
/-- Structural wellformedness of a canonical tree hanging at `path`:
digits below the base and strictly sorted, non-root internal nodes
non-empty, every leaf's digit sequence is exactly its path and its
element fits the alphabet. -/
def ctWF (B : Nat) : List Nat → CT → Prop
  | path, .leaf _ e => seqOf e = path ∧ GoodStr B e
  | path, .node _ ks => (path = [] ∨ ks ≠ .nil) ∧ kidsWF B path ks

def kidsWF (B : Nat) : List Nat → CTKids → Prop
  | _, .nil => True
  | path, .cons d t rest =>
    d < B ∧ ctWF B (path ++ [d]) t ∧ kidsWF B path rest ∧
      (∀ d' ∈ kidsDigits rest, d < d')
end

theorem getD_append_cons (p : List Nat) (d : Nat) (ta : List Nat) :
    (p ++ d :: ta).getD p.length 0 = d := by
  rw [List.getD_append_right _ _ _ _ (Nat.le_refl _)]
  simp

theorem pfx_cons_getD {p : List Nat} {d : Nat} {a : List Nat} (h : p ++ [d] <+: a) :
    a.getD p.length 0 = d := by
  obtain ⟨ta, rfl⟩ := h
  rw [List.append_assoc, List.singleton_append]
  exact getD_append_cons p d ta

theorem kidsWF_find {B : Nat} {path : List Nat} :
    ∀ {ks : CTKids} {d : Nat} {t : CT}, kidsWF B path ks → kidsFind ks d = some t →
      ctWF B (path ++ [d]) t ∧ d < B
  | .nil, d, t, _, hfind => by simp [kidsFind] at hfind
  | .cons d' t' rest, d, t, hwf, hfind => by
    obtain ⟨hdB, hwt, hwr, hlt⟩ := hwf
    unfold kidsFind at hfind
    split at hfind
    next heq =>
      cases hfind
      subst heq
      exact ⟨hwt, hdB⟩
    next => exact kidsWF_find hwr hfind

theorem kidsFind_digit_mem : ∀ {ks : CTKids} {d : Nat} {t : CT},
    kidsFind ks d = some t → d ∈ kidsDigits ks
  | .nil, d, t, hfind => by simp [kidsFind] at hfind
  | .cons d' t' rest, d, t, hfind => by
    unfold kidsFind at hfind
    split at hfind
    next heq => subst heq; simp [kidsDigits]
    next => simp [kidsDigits, kidsFind_digit_mem hfind]

/- Main structural facts about well-formed trees: every leaf pair is
good, sits under some kid digit (locatable by `kidsFind`), has the path
as a sequence prefix, and the pairs list is strictly sorted. -/
mutual

theorem ctWF_pairs {B : Nat} : ∀ (path : List Nat) (t : CT), ctWF B path t →
    (∀ pr ∈ ctPairs t, (path <+: seqOf pr.2) ∧ GoodStr B pr.2) ∧
    (ctPairs t).Pairwise (fun a b => seqLtb (seqOf a.2) (seqOf b.2) = true)
  | path, .leaf i e, hwf => by
    obtain ⟨hseq, hgood⟩ := hwf
    refine ⟨?_, by simp [ctPairs]⟩
    intro pr hpr
    simp only [ctPairs, List.mem_singleton] at hpr
    subst hpr
    exact ⟨hseq ▸ List.prefix_refl _, hgood⟩
  | path, .node i ks, hwf => by
    obtain ⟨-, hks⟩ := hwf
    have h := kidsWF_pairs path ks hks
    refine ⟨?_, h.2⟩
    intro pr hpr
    obtain ⟨⟨d, t', hfind, hmem, hpfx⟩, hgood⟩ := h.1 pr hpr
    exact ⟨(List.prefix_append path [d]).trans hpfx, hgood⟩

theorem kidsWF_pairs {B : Nat} : ∀ (path : List Nat) (ks : CTKids), kidsWF B path ks →
    (∀ pr ∈ ctKidsPairs ks,
        (∃ d t', kidsFind ks d = some t' ∧ pr ∈ ctPairs t' ∧ (path ++ [d]) <+: seqOf pr.2) ∧
        GoodStr B pr.2) ∧
    (ctKidsPairs ks).Pairwise (fun a b => seqLtb (seqOf a.2) (seqOf b.2) = true)
  | _, .nil, _ => by simp [ctKidsPairs]
  | path, .cons d t rest, hwf => by
    obtain ⟨hdB, hwt, hwr, hlt⟩ := hwf
    have ht := ctWF_pairs (path ++ [d]) t hwt
    have hr := kidsWF_pairs path rest hwr
    constructor
    · intro pr hpr
      unfold ctKidsPairs at hpr
      rcases List.mem_append.mp hpr with hpr | hpr
      · refine ⟨⟨d, t, by simp [kidsFind], hpr, (ht.1 pr hpr).1⟩, (ht.1 pr hpr).2⟩
      · obtain ⟨⟨d', t', hfind, hmem, hpfx⟩, hgood⟩ := hr.1 pr hpr
        have hne : d' ≠ d := by
          intro heq
          have := hlt d' (kidsFind_digit_mem hfind)
          omega
        exact ⟨⟨d', t', by simp [kidsFind, hne, hfind], hmem, hpfx⟩, hgood⟩
    · unfold ctKidsPairs
      rw [List.pairwise_append]
      refine ⟨ht.2, hr.2, ?_⟩
      intro a ha b hb
      obtain ⟨hapfx, -⟩ := ht.1 a ha
      obtain ⟨⟨d', t', hfind, -, hbpfx⟩, -⟩ := hr.1 b hb
      have hdd : d < d' := hlt d' (kidsFind_digit_mem hfind)
      obtain ⟨ta, hta⟩ := hapfx
      obtain ⟨tb, htb⟩ := hbpfx
      rw [← hta, ← htb, List.append_assoc, List.append_assoc,
        List.singleton_append, List.singleton_append]
      exact seqLtb_append_lt path ta tb hdd

end

/-- A subtree hanging strictly below the root holds at least one pair. -/
theorem ctPairs_ne_nil {B : Nat} : ∀ (path : List Nat) (t : CT), ctWF B path t →
    path ≠ [] → ctPairs t ≠ []
  | path, .leaf i e, _, _ => by simp [ctPairs]
  | path, .node i ks, hwf, hpath => by
    obtain ⟨hnil, hks⟩ := hwf
    rcases hnil with h | h
    · exact absurd h hpath
    · cases ks with
      | nil => exact absurd rfl h
      | cons d t' rest =>
        obtain ⟨-, hwt, -, -⟩ := hks
        have := ctPairs_ne_nil (path ++ [d]) t' hwt (by simp)
        unfold ctPairs ctKidsPairs
        intro hcon
        rcases List.append_eq_nil.mp hcon with ⟨h1, -⟩
        exact this h1

namespace GoTrie

mutual
/-- The arena realizes the canonical tree `t` whose top sits at `path`:
record flags and child slots match the tree, parents point back, and the
occupied counter equals the number of kids. -/
def Encodes (st : TrieSt) : List Nat → CT → Prop
  | _, .leaf i e =>
    ∃ r, getN st i = some r ∧ r.isLeafN = true ∧ r.element = some e ∧
      r.children = [] ∧ r.numChildren = 0 ∧ r.isRoot = false ∧
      r.isHead = false ∧ r.isTail = false
  | path, .node i ks =>
    ∃ r, getN st i = some r ∧ r.isLeafN = false ∧ r.isHead = false ∧ r.isTail = false ∧
      r.isRoot = path.isEmpty ∧ r.children.length = st.capacity ∧
      r.numChildren = (kidsCount ks : Int) ∧
      (∀ j, j < st.capacity → r.children[j]? = some (kidsLookup ks j)) ∧
      EncodesKids st i path ks

def EncodesKids (st : TrieSt) : Nat → List Nat → CTKids → Prop
  | _, _, .nil => True
  | i, path, .cons d t rest =>
    Encodes st (path ++ [d]) t ∧
    (∃ rc, getN st (CT.idOf t) = some rc ∧ rc.parent = some i) ∧
    EncodesKids st i path rest
end

theorem idOf_mem_ctIds : ∀ t : CT, CT.idOf t ∈ ctIds t
  | .leaf i e => by simp [CT.idOf, ctIds]
  | .node i ks => by simp [CT.idOf, ctIds]

mutual

theorem ctIds_sub : ∀ t : CT, ∀ p ∈ ctPairs t, p.1 ∈ ctIds t
  | .leaf i e => by simp [ctPairs, ctIds]
  | .node i ks => by
    intro p hp
    simp only [ctPairs] at hp
    simp only [ctIds, List.mem_cons]
    exact Or.inr (kidsIds_sub ks p hp)

theorem kidsIds_sub : ∀ ks : CTKids, ∀ p ∈ ctKidsPairs ks, p.1 ∈ ctKidsIds ks
  | .nil => by simp [ctKidsPairs]
  | .cons d t rest => by
    intro p hp
    simp only [ctKidsPairs, List.mem_append] at hp
    simp only [ctKidsIds, List.mem_append]
    rcases hp with hp | hp
    · exact Or.inl (ctIds_sub t p hp)
    · exact Or.inr (kidsIds_sub rest p hp)

end

mutual

theorem Encodes_ids_bound {st : TrieSt} : ∀ (path : List Nat) (t : CT),
    Encodes st path t → ∀ i ∈ ctIds t, i < st.nodes.length
  | path, .leaf i e, henc => by
    obtain ⟨r, hr, -⟩ := henc
    intro j hj
    simp only [ctIds, List.mem_singleton] at hj
    subst hj
    exact getN_bound hr
  | path, .node i ks, henc => by
    obtain ⟨r, hr, -, -, -, -, -, -, -, hks⟩ := henc
    intro j hj
    simp only [ctIds, List.mem_cons] at hj
    rcases hj with rfl | hj
    · exact getN_bound hr
    · exact EncodesKids_ids_bound i path ks hks j hj

theorem EncodesKids_ids_bound {st : TrieSt} : ∀ (i : Nat) (path : List Nat) (ks : CTKids),
    EncodesKids st i path ks → ∀ j ∈ ctKidsIds ks, j < st.nodes.length
  | i, path, .nil, _ => by simp [ctKidsIds]
  | i, path, .cons d t rest, hks => by
    obtain ⟨ht, -, hrest⟩ := hks
    intro j hj
    simp only [ctKidsIds, List.mem_append] at hj
    rcases hj with hj | hj
    · exact Encodes_ids_bound (path ++ [d]) t ht j hj
    · exact EncodesKids_ids_bound i path rest hrest j hj

end

mutual

/-- Frame rule: a state agreeing on every id of the subtree (and with
the same capacity) encodes the same tree. -/
theorem Encodes_frame {st st' : TrieSt} (hcap : st'.capacity = st.capacity) :
    ∀ (path : List Nat) (t : CT), Encodes st path t →
      (∀ i ∈ ctIds t, getN st' i = getN st i) → Encodes st' path t
  | path, .leaf i e, henc, hagree => by
    obtain ⟨r, hr, hrest⟩ := henc
    exact ⟨r, (hagree i (by simp [ctIds])).trans hr, hrest⟩
  | path, .node i ks, henc, hagree => by
    obtain ⟨r, hr, h1, h2, h3, h4, h5, h6, h7, hks⟩ := henc
    refine ⟨r, (hagree i (by simp [ctIds])).trans hr, h1, h2, h3, h4, by rw [hcap]; exact h5,
      h6, ?_, ?_⟩
    · intro j hj
      exact h7 j (by omega)
    · refine EncodesKids_frame hcap i path ks hks ?_
      intro j hj
      exact hagree j (by simp [ctIds, hj])

theorem EncodesKids_frame {st st' : TrieSt} (hcap : st'.capacity = st.capacity) :
    ∀ (i : Nat) (path : List Nat) (ks : CTKids), EncodesKids st i path ks →
      (∀ j ∈ ctKidsIds ks, getN st' j = getN st j) → EncodesKids st' i path ks
  | i, path, .nil, _, _ => trivial
  | i, path, .cons d t rest, hks, hagree => by
    obtain ⟨ht, ⟨rc, hrc, hpar⟩, hrest⟩ := hks
    refine ⟨?_, ⟨rc, ?_, hpar⟩, ?_⟩
    · exact Encodes_frame hcap (path ++ [d]) t ht
        (fun j hj => hagree j (by simp [ctKidsIds, List.mem_append]; exact Or.inl hj))
    · refine (hagree (CT.idOf t) ?_).trans hrc
      simp only [ctKidsIds, List.mem_append]
      exact Or.inl (idOf_mem_ctIds t)
    · exact EncodesKids_frame hcap i path rest hrest
        (fun j hj => hagree j (by simp [ctKidsIds, List.mem_append]; exact Or.inr hj))

end

/-- Next/previous links thread `ids` between the two sentinels. -/
def ChainFrom (st : TrieSt) : Nat → List Nat → Prop
  | prev, [] =>
    (∃ r, getN st prev = some r ∧ r.next = some st.tail) ∧
    (∃ r, getN st st.tail = some r ∧ r.previous = some prev)
  | prev, x :: xs =>
    (∃ r, getN st prev = some r ∧ r.next = some x) ∧
    (∃ r, getN st x = some r ∧ r.previous = some prev) ∧
    ChainFrom st x xs

theorem ChainFrom_frame {st st' : TrieSt} :
    ∀ (prev : Nat) (ids : List Nat), ChainFrom st prev ids →
      (∀ i ∈ prev :: st.tail :: ids, getN st' i = getN st i) → st'.tail = st.tail →
      ChainFrom st' prev ids
  | prev, [], hch, hagree, htl => by
    obtain ⟨⟨r1, hr1, hn1⟩, ⟨r2, hr2, hp2⟩⟩ := hch
    refine ⟨⟨r1, (hagree prev (by simp)).trans hr1, by rw [htl]; exact hn1⟩,
      ⟨r2, ?_, hp2⟩⟩
    rw [htl]
    exact (hagree st.tail (by simp)).trans hr2
  | prev, x :: xs, hch, hagree, htl => by
    obtain ⟨⟨r1, hr1, hn1⟩, ⟨r2, hr2, hp2⟩, hrest⟩ := hch
    refine ⟨⟨r1, (hagree prev (by simp)).trans hr1, hn1⟩,
      ⟨r2, (hagree x (by simp)).trans hr2, hp2⟩, ?_⟩
    refine ChainFrom_frame x xs hrest ?_ htl
    intro i hi
    apply hagree
    simp only [List.mem_cons] at hi ⊢
    tauto

/-- The representation invariant tying a trie state to its ordered list
of live (leaf id, element) pairs. -/
structure InvT (st : TrieSt) (es : List (Nat × String)) : Prop where
  hsize : st.size = (es.length : Int)
  hcap : 0 < st.capacity
  hht : st.head ≠ st.tail
  hhead : ∃ r, getN st st.head = some r ∧ r.isHead = true ∧ r.isTail = false ∧
      r.isLeafN = true ∧ r.previous = none
  htail : ∃ r, getN st st.tail = some r ∧ r.isTail = true ∧ r.isHead = false ∧
      r.isLeafN = true
  hchain : ChainFrom st st.head (es.map Prod.fst) ∨
      (es = [] ∧ ∃ r, getN st st.head = some r ∧ r.next = some st.tail)
  htree :
    match st.root with
    | none => es = []
    | some rid =>
      ∃ ks, Encodes st [] (CT.node rid ks) ∧ ctWF st.capacity [] (CT.node rid ks) ∧
        ctPairs (CT.node rid ks) = es ∧ (ctIds (CT.node rid ks)).Nodup ∧
        st.head ∉ ctIds (CT.node rid ks) ∧ st.tail ∉ ctIds (CT.node rid ks) ∧
        (∃ r, getN st rid = some r ∧ r.parent = none)

theorem newTrie_InvT (a : Nat) : InvT (newTrie a) [] := by
  refine ⟨rfl, by simp [newTrie], by simp [newTrie], ?_, ?_, ?_, ?_⟩
  · exact ⟨_, rfl, rfl, rfl, rfl, rfl⟩
  · exact ⟨_, rfl, rfl, rfl, rfl⟩
  · exact Or.inr ⟨rfl, _, rfl, rfl⟩
  · simp only [newTrie]

/-! ### How the search primitives act on an encoded tree -/

theorem goodStr_digit_lt {B : Nat} {e : String} (hgood : GoodStr B e) (hB : 0 < B)
    (k : Nat) : (seqOf e).getD k 0 < B := by
  rcases Nat.lt_or_ge k e.length with h | h
  · rw [seqOf_getD_lt h]
    have hmem : e.data.getD k 'a' ∈ e.data := by
      have : k < e.data.length := h
      rw [List.getD_eq_getElem _ _ this]
      exact List.getElem_mem this
    exact (hgood _ hmem).2.2
  · rw [seqOf_getD_ge h]; exact hB

theorem atLeaf_node {st : TrieSt} {path : List Nat} {i : Nat} {ks : CTKids}
    (henc : Encodes st path (CT.node i ks)) (bp m : Int) :
    atLeaf st ⟨some i, bp, m⟩ = false := by
  obtain ⟨r, hr, hleaf, -⟩ := henc
  unfold atLeaf
  unfold getN at hr
  simp [hr, hleaf]

theorem atLeaf_leaf {st : TrieSt} {path : List Nat} {c : Nat} {f : String}
    (henc : Encodes st path (CT.leaf c f)) (bp m : Int) :
    atLeaf st ⟨some c, bp, m⟩ = true := by
  obtain ⟨r, hr, hleaf, -⟩ := henc
  unfold atLeaf
  unfold getN at hr
  simp [hr, hleaf]

/-- Descending by the element's digit at the node's depth: moves into
the kid when present, reports `childNotFound` otherwise. -/
theorem descendTo_spec {st : TrieSt} {path : List Nat} {i : Nat} {ks : CTKids} {e : String}
    (henc : Encodes st path (CT.node i ks))
    (hdig : (seqOf e).getD path.length 0 < st.capacity) (m : Int) :
    descendTo st ⟨some i, (path.length : Int), m⟩ e =
      some (match kidsFind ks ((seqOf e).getD path.length 0) with
        | none => (childNotFound, ⟨some i, (path.length : Int), m⟩)
        | some t' => (((seqOf e).getD path.length 0 : Int),
            ⟨some (CT.idOf t'), ((path.length : Int) + 1), m⟩)) := by
  obtain ⟨r, hr, -, -, -, -, hlen, -, hslots, -⟩ := henc
  unfold descendTo
  rw [stringDigitOf_eq_getD]
  simp only [Option.bind_eq_bind, Option.some_bind]
  set d := (seqOf e).getD path.length 0 with hd
  unfold descendToIndex childWithIndexOf checkBoundsN
  simp only [hr, Option.bind_eq_bind, Option.some_bind]
  rw [if_neg (by rw [hlen]; omega)]
  rw [Int.toNat_ofNat]
  rw [hslots d (by omega)]
  simp only [Option.bind_eq_bind, Option.some_bind]
  unfold kidsLookup
  cases hfind : kidsFind ks d with
  | none => simp
  | some t' => simp [childNotFound]

end GoTrie

/-- The subtree at a relative digit path. -/
def ctAt : CT → List Nat → Option CT
  | t, [] => some t
  | .leaf _ _, _ :: _ => none
  | .node _ ks, d :: ds =>
    match kidsFind ks d with
    | none => none
    | some t' => ctAt t' ds

theorem ctAt_wf {B : Nat} : ∀ (rq : List Nat) (p : List Nat) (t u : CT),
    ctWF B p t → ctAt t rq = some u → ctWF B (p ++ rq) u
  | [], p, t, u, hwf, hat => by
    simp only [ctAt, Option.some_inj] at hat
    subst hat
    simpa using hwf
  | d :: ds, p, .leaf i e, u, hwf, hat => by simp [ctAt] at hat
  | d :: ds, p, .node i ks, u, hwf, hat => by
    unfold ctAt at hat
    revert hat
    cases hfind : kidsFind ks d with
    | none => intro hat; exact absurd hat (by simp)
    | some t' =>
      intro hat
      have := kidsWF_find hwf.2 hfind
      have hres := ctAt_wf ds (p ++ [d]) t' u this.1 hat
      simpa using hres

namespace GoTrie

theorem EncodesKids_find_enc {st : TrieSt} {i : Nat} :
    ∀ {path : List Nat} {ks : CTKids} {d : Nat} {t2 : CT}, EncodesKids st i path ks →
      kidsFind ks d = some t2 → Encodes st (path ++ [d]) t2
  | path, .nil, d, t2, _, hfind => by simp [kidsFind] at hfind
  | path, .cons d2 t rest, d, t2, hks, hfind => by
    obtain ⟨ht, -, hrest⟩ := hks
    unfold kidsFind at hfind
    split at hfind
    next heq =>
      injection hfind with hfind
      subst hfind
      subst heq
      exact ht
    next => exact EncodesKids_find_enc hrest hfind

/-- The subtree reached by a digit path is encoded at that path. -/
theorem Encodes_ctAt_sub {st : TrieSt} : ∀ (q path : List Nat) (t u : CT),
    Encodes st path t → ctAt t q = some u → Encodes st (path ++ q) u
  | [], path, t, u, henc, hat => by
    simp only [ctAt, Option.some_inj] at hat
    subst hat
    simpa using henc
  | d :: ds, path, .leaf i f, u, henc, hat => by simp [ctAt] at hat
  | d :: ds, path, .node i ks, u, henc, hat => by
    unfold ctAt at hat
    revert hat
    cases hf : kidsFind ks d with
    | none => intro hat; exact absurd hat (by simp)
    | some t0 =>
      intro hat
      obtain ⟨r, -, -, -, -, -, -, -, -, hks⟩ := henc
      have ht0 := EncodesKids_find_enc hks hf
      have hres := Encodes_ctAt_sub ds (path ++ [d]) t0 u ht0 hat
      simpa using hres

end GoTrie

theorem kidsFind_pairs_subset : ∀ {ks : CTKids} {d : Nat} {t' : CT},
    kidsFind ks d = some t' → ∀ pr ∈ ctPairs t', pr ∈ ctKidsPairs ks
  | .nil, d, t', hfind => by simp [kidsFind] at hfind
  | .cons d' t rest, d, t', hfind => by
    unfold kidsFind at hfind
    split at hfind
    next => cases hfind; intro pr hpr; simp [ctKidsPairs, hpr]
    next =>
      intro pr hpr
      simp only [ctKidsPairs, List.mem_append]
      exact Or.inr (kidsFind_pairs_subset hfind pr hpr)

theorem kidsFind_ids_subset : ∀ {ks : CTKids} {d : Nat} {t' : CT},
    kidsFind ks d = some t' → ∀ j ∈ ctIds t', j ∈ ctKidsIds ks
  | .nil, d, t', hfind => by simp [kidsFind] at hfind
  | .cons dd tt rest, d, t', hfind => by
    unfold kidsFind at hfind
    split at hfind
    next => cases hfind; intro j hj; simp [ctKidsIds, List.mem_append, hj]
    next =>
      intro j hj
      simp only [ctKidsIds, List.mem_append]
      exact Or.inr (kidsFind_ids_subset hfind j hj)

theorem ctAt_pairs_subset : ∀ (rq : List Nat) (t u : CT),
    ctAt t rq = some u → ∀ pr ∈ ctPairs u, pr ∈ ctPairs t
  | [], t, u, hat => by
    simp only [ctAt, Option.some_inj] at hat
    subst hat
    exact fun pr h => h
  | d :: ds, .leaf i e, u, hat => by simp [ctAt] at hat
  | d :: ds, .node i ks, u, hat => by
    unfold ctAt at hat
    revert hat
    cases hfind : kidsFind ks d with
    | none => intro hat; exact absurd hat (by simp)
    | some t' =>
      intro hat pr hpr
      have := ctAt_pairs_subset ds t' u hat pr hpr
      exact kidsFind_pairs_subset hfind pr this

theorem ctAt_ids_subset : ∀ (rq : List Nat) (t u : CT),
    ctAt t rq = some u → ∀ j ∈ ctIds u, j ∈ ctIds t
  | [], t, u, hat => by
    simp only [ctAt, Option.some_inj] at hat
    subst hat
    exact fun j h => h
  | d :: ds, .leaf i e, u, hat => by simp [ctAt] at hat
  | d :: ds, .node i ks, u, hat => by
    unfold ctAt at hat
    revert hat
    cases hfind : kidsFind ks d with
    | none => intro hat; exact absurd hat (by simp)
    | some t' =>
      intro hat j hj
      have hsub := ctAt_ids_subset ds t' u hat j hj
      simp only [ctIds, List.mem_cons]
      exact Or.inr (kidsFind_ids_subset hfind j hsub)

/-- An internal node cannot sit at the full digit sequence of a good
string (the terminator digit occurs only at the end of a sequence). -/
theorem ctWF_no_internal_at_full {B : Nat} {path : List Nat} {i : Nat} {ks : CTKids}
    (hwf : ctWF B path (CT.node i ks)) (hgs : GoodSeq B path) : False := by
  have hne : path ≠ [] := hgs.1
  have hpairs := ctPairs_ne_nil path (CT.node i ks) hwf hne
  rcases hx : ctPairs (CT.node i ks) with - | ⟨pr, rest⟩
  · exact hpairs hx
  · have hmem : pr ∈ ctPairs (CT.node i ks) := by rw [hx]; simp
    obtain ⟨hk, -⟩ := kidsWF_pairs path ks hwf.2
    obtain ⟨⟨d, t', -, -, hpfx⟩, hgood⟩ := hk pr (by simpa [ctPairs] using hmem)
    have hpp : path <+: seqOf pr.2 := (List.prefix_append path [d]).trans hpfx
    have := goodSeq_prefix_eq hgs (goodStr_goodSeq hgood) hpp
    have hlen := hpfx.length_le
    rw [← this] at hlen
    simp at hlen

namespace GoTrie

theorem EncodesKids_find {st : TrieSt} {i : Nat} {path : List Nat} :
    ∀ {ks : CTKids} {d : Nat} {t' : CT}, EncodesKids st i path ks →
      kidsFind ks d = some t' → Encodes st (path ++ [d]) t'
  | .nil, d, t', _, hfind => by simp [kidsFind] at hfind
  | .cons d' t rest, d, t', hks, hfind => by
    obtain ⟨ht, -, hrest⟩ := hks
    unfold kidsFind at hfind
    split at hfind
    next heq => cases hfind; subst heq; exact ht
    next => exact EncodesKids_find hrest hfind

theorem ctAt_encodes {st : TrieSt} : ∀ (rq : List Nat) (p : List Nat) (t u : CT),
    Encodes st p t → ctAt t rq = some u → Encodes st (p ++ rq) u
  | [], p, t, u, henc, hat => by
    simp only [ctAt, Option.some_inj] at hat
    subst hat
    simpa using henc
  | d :: ds, p, .leaf i e, u, henc, hat => by simp [ctAt] at hat
  | d :: ds, p, .node i ks, u, henc, hat => by
    unfold ctAt at hat
    revert hat
    cases hfind : kidsFind ks d with
    | none => intro hat; exact absurd hat (by simp)
    | some t' =>
      intro hat
      obtain ⟨r, -, -, -, -, -, -, -, -, hks⟩ := henc
      have := EncodesKids_find hks hfind
      have hres := ctAt_encodes ds (p ++ [d]) t' u this hat
      simpa using hres

/-- One iteration of the find loop at an encoded internal node. -/
theorem findLoop_step_node {st : TrieSt} {path : List Nat} {i : Nat} {ks : CTKids}
    {e : String} (henc : Encodes st path (CT.node i ks))
    (hdig : (seqOf e).getD path.length 0 < st.capacity)
    (hlt : path.length < (seqOf e).length) (m : Int) (n : Nat) :
    findLoop st e (n + 1) ⟨some i, (path.length : Int), m⟩ =
      (match kidsFind ks ((seqOf e).getD path.length 0) with
        | none => some (some .Unmatched, ⟨some i, (path.length : Int), m⟩)
        | some t' => findLoop st e n ⟨some (CT.idOf t'), ((path.length : Int) + 1), m⟩) := by
  unfold findLoop
  rw [if_pos (by simp [atLeaf_node henc])]
  rw [if_neg (by rw [numDigitsOf_eq]; intro hcon; simp at hcon; omega)]
  rw [descendTo_spec henc hdig m]
  cases hfind : kidsFind ks ((seqOf e).getD path.length 0) with
  | none =>
    simp only [Option.bind_eq_bind, Option.some_bind]
    simp
  | some t' =>
    simp only [Option.bind_eq_bind, Option.some_bind]
    rw [if_neg (by unfold childNotFound; omega)]
    cases n <;> rfl

/-- The find loop exits as soon as the pointer reaches a leaf. -/
theorem findLoop_exit_leaf {st : TrieSt} {path : List Nat} {c : Nat} {f : String}
    (henc : Encodes st path (CT.leaf c f)) (e : String) (bp m : Int) (n : Nat) :
    findLoop st e (n + 1) ⟨some c, bp, m⟩ = some (none, ⟨some c, bp, m⟩) := by
  unfold findLoop
  rw [if_neg (by simp [atLeaf_leaf henc])]

/-- The find loop reaches the matching leaf when the queried sequence is
stored below the current node. -/
theorem findLoop_present {st : TrieSt} {e : String} {c : Nat} {f : String}
    (hgood : GoodStr st.capacity e) (hB : 0 < st.capacity) :
    ∀ (fuel : Nat) (path : List Nat) (t : CT), Encodes st path t →
    ctWF st.capacity path t →
    path <+: seqOf e → path ≠ seqOf e →
    (c, f) ∈ ctPairs t → seqOf f = seqOf e →
    ∀ (m : Int), (seqOf e).length - path.length < fuel →
    findLoop st e fuel ⟨some (CT.idOf t), (path.length : Int), m⟩ =
      some (none, ⟨some c, ((seqOf e).length : Int), m⟩) := by
  intro fuel
  induction fuel with
  | zero =>
    intro path t henc hwf hpfx hne hmem hseq m hfuel
    have : path.length < (seqOf e).length :=
      Nat.lt_of_le_of_ne hpfx.length_le (fun h => hne (List.IsPrefix.eq_of_length hpfx h))
    omega
  | succ n ih =>
    intro path t henc hwf hpfx hne hmem hseq m hfuel
    have hplt : path.length < (seqOf e).length :=
      Nat.lt_of_le_of_ne hpfx.length_le (fun h => hne (List.IsPrefix.eq_of_length hpfx h))
    cases t with
    | leaf c' f' =>
      exfalso
      simp only [ctPairs, List.mem_singleton, Prod.mk.injEq] at hmem
      obtain ⟨-, rfl⟩ := hmem
      exact hne (hwf.1 ▸ hseq ▸ rfl)
    | node i ks =>
      obtain ⟨hk, -⟩ := kidsWF_pairs path ks hwf.2
      obtain ⟨⟨d', t', hfind, hmem', hpfx'⟩, -⟩ := hk (c, f) hmem
      have hd' : d' = (seqOf e).getD path.length 0 := by
        have := pfx_cons_getD (hseq ▸ hpfx')
        omega
      subst hd'
      show findLoop st e (n + 1) ⟨some i, (path.length : Int), m⟩ = _
      rw [findLoop_step_node henc (goodStr_digit_lt hgood hB _) hplt m n, hfind]
      have henct' := EncodesKids_find
        henc.choose_spec.2.2.2.2.2.2.2.2 hfind
      have hwft' := (kidsWF_find hwf.2 hfind).1
      have hpfxt' : path ++ [(seqOf e).getD path.length 0] <+: seqOf e := hseq ▸ hpfx'
      cases t' with
      | leaf c'' f'' =>
        simp only [ctPairs, List.mem_singleton, Prod.mk.injEq] at hmem'
        obtain ⟨rfl, rfl⟩ := hmem'
        have hfull : seqOf f = path ++ [(seqOf e).getD path.length 0] := hwft'.1
        have hlen2 : (seqOf e).length = path.length + 1 := by
          rw [← hseq, hfull]; simp
        rcases n with - | n2
        · omega
        simp only [CT.idOf]
        rw [findLoop_exit_leaf henct' e _ m n2]
        have hbp : ((seqOf e).length : Int) = (path.length : Int) + 1 := by omega
        rw [hbp]
      | node i2 ks2 =>
        have hne' : path ++ [(seqOf e).getD path.length 0] ≠ seqOf e := by
          intro hcon
          exact ctWF_no_internal_at_full (hcon ▸ hwft') (goodStr_goodSeq hgood)
        have hrec := ih (path ++ [(seqOf e).getD path.length 0]) (CT.node i2 ks2)
          henct' hwft' hpfxt' hne' hmem' hseq m (by simp; omega)
        rw [← hrec]
        show findLoop st e n ⟨some (CT.idOf (CT.node i2 ks2)), ((path.length : Int) + 1), m⟩ = _
        congr 2
        simp

end GoTrie

theorem pfx_snoc_getD {p a : List Nat} (h : p <+: a) (hlt : p.length < a.length) :
    p ++ [a.getD p.length 0] <+: a := by
  obtain ⟨ta, rfl⟩ := h
  cases ta with
  | nil => simp at hlt
  | cons x tx =>
    rw [getD_append_cons]
    exact ⟨tx, by simp⟩

theorem drop_of_snoc_pfx {p : List Nat} {d : Nat} {q : List Nat} (h : p ++ [d] <+: q) :
    q.drop p.length = d :: q.drop (p.length + 1) := by
  obtain ⟨tq, rfl⟩ := h
  have h1 : ((p ++ [d]) ++ tq).drop p.length = d :: tq := by
    rw [List.append_assoc, List.singleton_append, List.drop_left]
  have h2 : ((p ++ [d]) ++ tq).drop (p.length + 1) = tq := by
    have := List.drop_left (p ++ [d]) tq
    simpa using this
  rw [h1, h2]

namespace GoTrie

/-- The find loop stops with Unmatched at the deepest existing node along
the query's digits when the queried sequence is absent. -/
theorem findLoop_absent {st : TrieSt} {e : String}
    (hgood : GoodStr st.capacity e) (hB : 0 < st.capacity) :
    ∀ (fuel : Nat) (path : List Nat) (t : CT), Encodes st path t →
    ctWF st.capacity path t →
    path <+: seqOf e → path ≠ seqOf e →
    (∀ pr ∈ ctPairs t, seqOf pr.2 ≠ seqOf e) →
    ∀ (m : Int), (seqOf e).length - path.length < fuel →
    ∃ (q : List Nat) (i' : Nat) (ks' : CTKids),
      findLoop st e fuel ⟨some (CT.idOf t), (path.length : Int), m⟩ =
        some (some .Unmatched, ⟨some i', (q.length : Int), m⟩) ∧
      path <+: q ∧ q <+: seqOf e ∧ q ≠ seqOf e ∧
      ctAt t (q.drop path.length) = some (CT.node i' ks') ∧
      kidsFind ks' ((seqOf e).getD q.length 0) = none := by
  intro fuel
  induction fuel with
  | zero =>
    intro path t henc hwf hpfx hne habs m hfuel
    have : path.length < (seqOf e).length :=
      Nat.lt_of_le_of_ne hpfx.length_le (fun h => hne (List.IsPrefix.eq_of_length hpfx h))
    omega
  | succ n ih =>
    intro path t henc hwf hpfx hne habs m hfuel
    have hplt : path.length < (seqOf e).length :=
      Nat.lt_of_le_of_ne hpfx.length_le (fun h => hne (List.IsPrefix.eq_of_length hpfx h))
    cases t with
    | leaf c f =>
      exfalso
      have hf : seqOf f = path := hwf.1
      have heq : seqOf f = seqOf e :=
        goodSeq_prefix_eq (goodStr_goodSeq hwf.2) (goodStr_goodSeq hgood) (hf ▸ hpfx)
      exact habs (c, f) (by simp [ctPairs]) heq
    | node i ks =>
      cases hfind : kidsFind ks ((seqOf e).getD path.length 0) with
      | none =>
        refine ⟨path, i, ks, ?_, List.prefix_refl _, hpfx, hne, ?_, hfind⟩
        · show findLoop st e (n + 1) ⟨some i, (path.length : Int), m⟩ = _
          rw [findLoop_step_node henc (goodStr_digit_lt hgood hB _) hplt m n, hfind]
        · rw [List.drop_length]
          rfl
      | some t' =>
        have henct' := EncodesKids_find
          henc.choose_spec.2.2.2.2.2.2.2.2 hfind
        have hwft' := (kidsWF_find hwf.2 hfind).1
        have hpfxt' : path ++ [(seqOf e).getD path.length 0] <+: seqOf e :=
          pfx_snoc_getD hpfx hplt
        cases t' with
        | leaf c f =>
          exfalso
          have hf : seqOf f = path ++ [(seqOf e).getD path.length 0] := hwft'.1
          have heq : seqOf f = seqOf e :=
            goodSeq_prefix_eq (goodStr_goodSeq hwft'.2) (goodStr_goodSeq hgood)
              (hf ▸ hpfxt')
          refine habs (c, f) ?_ heq
          show (c, f) ∈ ctPairs (CT.node i ks)
          exact kidsFind_pairs_subset hfind (c, f) (by simp [ctPairs])
        | node i2 ks2 =>
          have hne' : path ++ [(seqOf e).getD path.length 0] ≠ seqOf e := by
            intro hcon
            exact ctWF_no_internal_at_full (hcon ▸ hwft') (goodStr_goodSeq hgood)
          have habs' : ∀ pr ∈ ctPairs (CT.node i2 ks2), seqOf pr.2 ≠ seqOf e := by
            intro pr hpr
            exact habs pr (kidsFind_pairs_subset hfind pr hpr)
          obtain ⟨q, i', ks', hloop, hq1, hq2, hq3, hat, hmiss⟩ :=
            ih (path ++ [(seqOf e).getD path.length 0]) (CT.node i2 ks2)
              henct' hwft' hpfxt' hne' habs' m (by simp; omega)
          refine ⟨q, i', ks', ?_, (List.prefix_append path _).trans hq1, hq2, hq3, ?_, hmiss⟩
          · show findLoop st e (n + 1) ⟨some i, (path.length : Int), m⟩ = _
            rw [findLoop_step_node henc (goodStr_digit_lt hgood hB _) hplt m n, hfind]
            rw [← hloop]
            congr 2
            simp
          · rw [drop_of_snoc_pfx hq1]
            show ctAt (CT.node i ks) _ = _
            unfold ctAt
            rw [hfind]
            show ctAt (CT.node i2 ks2) (List.drop (path.length + 1) q) = _
            have hlen : (path ++ [(seqOf e).getD path.length 0]).length = path.length + 1 := by
              simp
            rw [← hlen]
            exact hat

theorem isEmpty_eq {st : TrieSt} {es : List (Nat × String)} (hinv : InvT st es) :
    isEmpty st = es.isEmpty := by
  unfold isEmpty
  rw [hinv.hsize]
  cases es with
  | nil => simp
  | cons a l => simp; omega

theorem find_empty {st : TrieSt} {es : List (Nat × String)} (hinv : InvT st es)
    (hes : es = []) (e : String) (s0 : SCtx) :
    find st e s0 = some (.Unmatched, ⟨st.root, 0, s0.numMatches⟩) := by
  obtain ⟨p0, b0, m0⟩ := s0
  unfold find prepareSearch
  rw [isEmpty_eq hinv, hes]
  rfl

/-- `trie.find` returns Matched at the stored leaf whose digit sequence
equals the query's. -/
theorem find_present {st : TrieSt} {es : List (Nat × String)} (hinv : InvT st es)
    {e f : String} {c : Nat} (hgood : GoodStr st.capacity e)
    (hmem : (c, f) ∈ es) (hseq : seqOf f = seqOf e) (s0 : SCtx) :
    find st e s0 = some (.Matched, ⟨some c, ((seqOf e).length : Int), s0.numMatches⟩) := by
  obtain ⟨p0, b0, m0⟩ := s0
  have hes : es ≠ [] := by rintro rfl; simp at hmem
  have hne : es.isEmpty = false := by
    cases es with
    | nil => exact absurd rfl hes
    | cons a l => rfl
  unfold find prepareSearch
  rw [isEmpty_eq hinv, hne]
  cases hroot : st.root with
  | none =>
    exfalso
    have ht := hinv.htree
    rw [hroot] at ht
    exact hes ht
  | some rid =>
    have ht := hinv.htree
    rw [hroot] at ht
    obtain ⟨ks, henc, hwf, hpairs, -, -, -, -⟩ := ht
    have h := findLoop_present (c := c) (f := f) hgood hinv.hcap (numDigitsOf e + 1) []
      (CT.node rid ks) henc hwf List.nil_prefix (Ne.symm (seqOf_ne_nil e))
      (hpairs ▸ hmem) hseq m0 (by simp [numDigitsOf_eq])
    simp only [CT.idOf, List.length_nil, Nat.cast_zero] at h
    simp only [Bool.false_eq_true, if_false]
    rw [h]
    simp only [Option.bind_eq_bind, Option.some_bind]
    rw [if_neg (by simp [numDigitsOf_eq])]

/-- `trie.find` returns Unmatched, stopped at the deepest node along the
query's digits, when the query is absent from a non-empty trie. -/
theorem find_absent {st : TrieSt} {es : List (Nat × String)} (hinv : InvT st es)
    {e : String} (hgood : GoodStr st.capacity e) (hes : es ≠ [])
    (habs : ∀ pr ∈ es, seqOf pr.2 ≠ seqOf e) (s0 : SCtx) :
    ∃ rid ks q i' ks',
      st.root = some rid ∧
      Encodes st [] (CT.node rid ks) ∧ ctWF st.capacity [] (CT.node rid ks) ∧
      ctPairs (CT.node rid ks) = es ∧
      find st e s0 = some (.Unmatched, ⟨some i', (q.length : Int), s0.numMatches⟩) ∧
      q <+: seqOf e ∧ q ≠ seqOf e ∧
      ctAt (CT.node rid ks) q = some (CT.node i' ks') ∧
      kidsFind ks' ((seqOf e).getD q.length 0) = none ∧
      (ctIds (CT.node rid ks)).Nodup ∧
      st.head ∉ ctIds (CT.node rid ks) ∧ st.tail ∉ ctIds (CT.node rid ks) ∧
      (∃ r, getN st rid = some r ∧ r.parent = none) := by
  obtain ⟨p0, b0, m0⟩ := s0
  have hne : es.isEmpty = false := by
    cases es with
    | nil => exact absurd rfl hes
    | cons a l => rfl
  cases hroot : st.root with
  | none =>
    exfalso
    have ht := hinv.htree
    rw [hroot] at ht
    exact hes ht
  | some rid =>
    have ht := hinv.htree
    rw [hroot] at ht
    obtain ⟨ks, henc, hwf, hpairs, hnd, hhd, htl, hrr⟩ := ht
    obtain ⟨q, i', ks', hloop, -, hq2, hq3, hat, hmiss⟩ :=
      findLoop_absent hgood hinv.hcap (numDigitsOf e + 1) [] (CT.node rid ks)
        henc hwf List.nil_prefix (Ne.symm (seqOf_ne_nil e))
        (fun pr hpr => habs pr (hpairs ▸ hpr)) m0 (by simp [numDigitsOf_eq])
    refine ⟨rid, ks, q, i', ks', rfl, henc, hwf, hpairs, ?_, hq2, hq3, ?_, hmiss,
      hnd, hhd, htl, hrr⟩
    · unfold find prepareSearch
      rw [isEmpty_eq hinv, hne]
      simp only [Bool.false_eq_true, if_false]
      rw [hroot]
      simp only [CT.idOf, List.length_nil, Nat.cast_zero] at hloop
      rw [hloop]
      rfl
    · simpa using hat

end GoTrie

theorem drop_cons_getD {l : List Nat} {k : Nat} (h : k < l.length) :
    l.drop k = l.getD k 0 :: l.drop (k + 1) := by
  rw [List.getD_eq_getElem l 0 h]
  exact List.drop_eq_getElem_cons h

/-- The fresh chain the trie materializes below the insertion point: one
internal node per remaining digit, ending in the new leaf.  `nextId` is
the arena id of the first chain node; ids grow by one per level. -/
def chainCT (leafId : Nat) (f : String) : Nat → List Nat → CT
  | _, [] => .leaf leafId f
  | nextId, d :: ds => .node nextId (.cons d (chainCT leafId f (nextId + 1) ds) .nil)

theorem chainCT_pairs (leafId : Nat) (f : String) :
    ∀ (n : Nat) (ds : List Nat), ctPairs (chainCT leafId f n ds) = [(leafId, f)]
  | n, [] => rfl
  | n, d :: ds => by
    show ctPairs (chainCT leafId f (n + 1) ds) ++ ctKidsPairs CTKids.nil = _
    rw [chainCT_pairs leafId f (n + 1) ds]
    rfl

theorem chainCT_ids (leafId : Nat) (f : String) :
    ∀ (n : Nat) (ds : List Nat),
      ctIds (chainCT leafId f n ds) = List.range' n ds.length ++ [leafId]
  | n, [] => rfl
  | n, d :: ds => by
    show n :: (ctIds (chainCT leafId f (n + 1) ds) ++ ctKidsIds CTKids.nil) = _
    rw [chainCT_ids leafId f (n + 1) ds]
    rw [List.length_cons, List.range'_succ]
    simp [ctKidsIds]

theorem chainCT_idOf (leafId : Nat) (f : String) (n : Nat) (ds : List Nat) :
    CT.idOf (chainCT leafId f n ds) = (if ds = [] then leafId else n) := by
  cases ds with
  | nil => rfl
  | cons d rest => rfl

/-- The chain is well formed at the path it extends to the full
sequence. -/
theorem chainCT_wf {B : Nat} {f : String} (leafId : Nat) (hgood : GoodStr B f) :
    ∀ (p : List Nat) (n : Nat) (ds : List Nat), seqOf f = p ++ ds →
      (∀ j, j < ds.length → ds.getD j 0 < B) →
      ctWF B p (chainCT leafId f n ds)
  | p, n, [], hseq, hlt => by
    unfold chainCT ctWF
    exact ⟨by simpa using hseq, hgood⟩
  | p, n, d :: ds, hseq, hlt => by
    unfold chainCT ctWF kidsWF
    refine ⟨Or.inr (by simp), ?_, ?_, trivial, by simp [kidsDigits]⟩
    · have := hlt 0 (by simp)
      simpa using this
    · have hrec := chainCT_wf leafId hgood (p ++ [d]) (n + 1) ds
        (by rw [hseq]; simp)
        (fun j hj => by
          have := hlt (j + 1) (by simpa using hj)
          simpa using this)
      exact hrec

namespace GoTrie

theorem getN_append_old {st : TrieSt} {j : Nat} (r : NodeRec) (h : j < st.nodes.length) :
    getN { st with nodes := st.nodes ++ [r] } j = getN st j := by
  unfold getN
  exact List.getElem?_append_left h

theorem getN_append_new (st : TrieSt) (r : NodeRec) :
    getN { st with nodes := st.nodes ++ [r] } st.nodes.length = some r := by
  unfold getN
  exact List.getElem?_concat_length st.nodes r

theorem newNodeRec_pos {B : Nat} (hB : 0 < B) :
    newNodeRec (B : Int) = { blankNode with children := List.replicate B none } := by
  unfold newNodeRec
  rw [if_neg (by omega), Int.toNat_ofNat]

theorem getElem_replicate_set {B i j : Nat} (x : Option Nat) (hi : i < B) (hj : j < B) :
    ((List.replicate B (none : Option Nat)).set i x)[j]? =
      some (if j = i then x else none) := by
  rcases eq_or_ne j i with rfl | hne
  · rw [List.getElem?_set_self (by simpa using hj)]
    simp
  · rw [List.getElem?_set_ne (Ne.symm hne)]
    rw [List.getElem?_replicate_of_lt hj]
    simp [hne]

/-- `AddChildWithIndexOf` on an in-range free slot: write the slot, bump
the counter, set the child's parent. -/
theorem addChild_free {st : TrieSt} {pid cid d : Nat} {r rc : NodeRec}
    (hr : getN st pid = some r) (hlen : r.children.length = st.capacity)
    (hd : d < st.capacity) (hslot : r.children[d]? = some none)
    (hc : getN st cid = some rc) (hne : cid ≠ pid) :
    addChildWithIndexOf st pid (d : Int) cid =
      some (setN (setN st pid
          { r with numChildren := r.numChildren + 1,
                   children := r.children.set d (some cid) }) cid
        { rc with parent := some pid }, none) := by
  unfold addChildWithIndexOf
  simp only [hr, Option.bind_eq_bind, Option.some_bind]
  rw [if_neg (by omega)]
  rw [Int.toNat_ofNat, hslot]
  simp only [getN_setN_ne st pid _ cid hne, hc, Option.bind_eq_bind, Option.some_bind]

theorem addNodeLoop_exit {stc : TrieSt} {e : String} (po : Option Nat) (bp m : Int) (n : Nat)
    (hk : ¬ bp < (numDigitsOf e : Int) - 1) :
    addNodeLoop stc e (n + 1) ⟨po, bp, m⟩ = some (stc, ⟨po, bp, m⟩) := by
  unfold addNodeLoop
  rw [if_neg hk]

/-- The attachment step of `addNode` on a free in-range slot at the
digit reached. -/
theorem addNodeFinish_attach {st2 : TrieSt} {e : String} {leafId lastId k : Nat} {m : Int}
    {r rl : NodeRec}
    (hr : getN st2 lastId = some r) (hlen : r.children.length = st2.capacity)
    (hd : (seqOf e).getD k 0 < st2.capacity)
    (hslot : r.children[(seqOf e).getD k 0]? = some none)
    (hl : getN st2 leafId = some rl) (hne : leafId ≠ lastId) :
    addNodeFinish st2 e leafId ⟨some lastId, (k : Int), m⟩ =
      some (setN (setN st2 lastId
          { r with numChildren := r.numChildren + 1,
                   children := r.children.set ((seqOf e).getD k 0) (some leafId) }) leafId
        { rl with parent := some lastId },
        ⟨some leafId, (k : Int) + 1, m⟩) := by
  unfold addNodeFinish
  rw [stringDigitOf_eq_getD]
  simp only [Option.bind_eq_bind, Option.some_bind]
  rw [addChild_free hr hlen hd hslot hl hne]
  simp only [Option.some_bind]

theorem kidsLookup_single (d : Nat) (t : CT) (j : Nat) :
    kidsLookup (CTKids.cons d t CTKids.nil) j =
      if j = d then some (CT.idOf t) else none := by
  unfold kidsLookup kidsFind
  rcases eq_or_ne j d with rfl | hne
  · simp
  · rw [if_neg hne, if_neg hne]
    rfl

/-- The path-building loop plus the final attachment grow exactly the
fresh chain `chainCT` below the insertion point `cid`, whose slot at the
current digit is free; everything else in the arena is untouched. -/
theorem addNode_chain {e : String} {leafId : Nat} :
    ∀ (fuel k : Nat) (stc : TrieSt) (cid : Nat) (rc : NodeRec) (m : Int),
    GoodStr stc.capacity e → 0 < stc.capacity →
    getN stc cid = some rc → rc.children.length = stc.capacity →
    rc.children[(seqOf e).getD k 0]? = some none →
    getN stc leafId = some { newLeafRec with element := some e } →
    leafId ≠ cid → k < numDigitsOf e → numDigitsOf e - 1 - k < fuel →
    ∃ st2 lastId st3,
      addNodeLoop stc e fuel ⟨some cid, (k : Int), m⟩ =
        some (st2, ⟨some lastId, ((numDigitsOf e - 1 : Nat) : Int), m⟩) ∧
      addNodeFinish st2 e leafId ⟨some lastId, ((numDigitsOf e - 1 : Nat) : Int), m⟩ =
        some (st3, ⟨some leafId, ((numDigitsOf e - 1 : Nat) : Int) + 1, m⟩) ∧
      st3.capacity = stc.capacity ∧ st3.root = stc.root ∧ st3.head = stc.head ∧
      st3.tail = stc.tail ∧ st3.size = stc.size ∧
      st3.nodes.length = stc.nodes.length + ((seqOf e).drop (k + 1)).length ∧
      (∀ j, j < stc.nodes.length → j ≠ cid → j ≠ leafId → getN st3 j = getN stc j) ∧
      getN st3 cid = some
        { rc with
          numChildren := rc.numChildren + 1,
          children := rc.children.set ((seqOf e).getD k 0)
            (some (CT.idOf (chainCT leafId e stc.nodes.length ((seqOf e).drop (k + 1))))) } ∧
      (∀ p : List Nat, p ≠ [] →
        Encodes st3 p (chainCT leafId e stc.nodes.length ((seqOf e).drop (k + 1)))) ∧
      (∃ rs, getN st3 (CT.idOf (chainCT leafId e stc.nodes.length ((seqOf e).drop (k + 1))))
          = some rs ∧ rs.parent = some cid) := by
  intro fuel
  induction fuel with
  | zero => intro k stc cid rc m hgood hB hrc hlen hslot hl hne hk hfuel; omega
  | succ n ih =>
    intro k stc cid rc m hgood hB hrc hlen hslot hl hne hk hfuel
    have hnd : numDigitsOf e = e.length + 1 := rfl
    have hseqlen : (seqOf e).length = e.length + 1 := seqOf_length e
    by_cases hbr : (k : Int) < (numDigitsOf e : Int) - 1
    · -- still digits to materialize: allocate one internal node and recurse
      have hklt : k < numDigitsOf e - 1 := by omega
      have hk1 : k + 1 < (seqOf e).length := by omega
      have hcid : cid < stc.nodes.length := getN_bound hrc
      have hlfl : leafId < stc.nodes.length := getN_bound hl
      -- the state after allocating the fresh internal node and linking it in
      set st1 : TrieSt := { stc with nodes := stc.nodes ++ [newNodeRec (stc.capacity : Int)] }
        with hst1
      set rcb : NodeRec :=
        { blankNode with
          children := List.replicate stc.capacity none,
          parent := some cid } with hrcb
      have hC0ne : stc.nodes.length ≠ cid := by omega
      have hget1 : getN st1 stc.nodes.length =
          some { blankNode with children := List.replicate stc.capacity none } := by
        rw [hst1, ← newNodeRec_pos hB]
        exact getN_append_new stc _
      have hgetcid1 : getN st1 cid = getN stc cid := getN_append_old _ hcid
      have hstep : addNodeLoop stc e (n + 1) ⟨some cid, (k : Int), m⟩ =
          addNodeLoop (setN (setN st1 cid
              { rc with numChildren := rc.numChildren + 1,
                        children := rc.children.set ((seqOf e).getD k 0)
                          (some stc.nodes.length) }) stc.nodes.length rcb)
            e n ⟨some stc.nodes.length, ((k : Int) + 1), m⟩ := by
        conv_lhs => unfold addNodeLoop
        rw [if_pos hbr]
        rw [stringDigitOf_eq_getD]
        simp only [Option.bind_eq_bind, Option.some_bind, alloc]
        rw [addChild_free (hgetcid1.trans hrc) hlen
          (goodStr_digit_lt hgood hB k) hslot hget1 hC0ne]
        simp only [Option.some_bind]
      set st_b : TrieSt := setN (setN st1 cid
          { rc with numChildren := rc.numChildren + 1,
                    children := rc.children.set ((seqOf e).getD k 0)
                      (some stc.nodes.length) }) stc.nodes.length rcb with hstb
      have hlenb : st_b.nodes.length = stc.nodes.length + 1 := by
        rw [hstb, hst1]
        simp [setN]
      have hgetb : getN st_b stc.nodes.length = some rcb := by
        rw [hstb]
        apply getN_setN_self
        rw [getN_setN_ne _ _ _ _ hC0ne]
        exact hget1
      have hlb : getN st_b leafId = some { newLeafRec with element := some e } := by
        rw [hstb, getN_setN_ne _ _ _ _ (by omega), getN_setN_ne _ _ _ _ hne]
        rw [hst1]
        rw [getN_append_old _ hlfl]
        exact hl
      have hcast : ((k : Int) + 1) = ((k + 1 : Nat) : Int) := by push_cast; ring
      have hcapb : st_b.capacity = stc.capacity := by rw [hstb]; rfl
      have hgoodb : GoodStr st_b.capacity e := by rw [hcapb]; exact hgood
      have hBb : 0 < st_b.capacity := by rw [hcapb]; exact hB
      have hrclen : rcb.children.length = st_b.capacity := by
        rw [hcapb, hrcb]
        simp
      have hrcslot : rcb.children[(seqOf e).getD (k + 1) 0]? = some none := by
        show (List.replicate stc.capacity (none : Option Nat))[(seqOf e).getD (k + 1) 0]? = _
        exact List.getElem?_replicate_of_lt (goodStr_digit_lt hgood hB (k + 1))
      obtain ⟨st2, lastId, st3, hα, hβ, hcap3, hroot3, hhead3, htail3, hsize3,
          hlen3, hframe, hcidb, hencs, hpar⟩ :=
        ih (k + 1) st_b stc.nodes.length rcb m hgoodb hBb hgetb hrclen hrcslot
          hlb (by omega) (by omega) (by omega)
      rw [hlenb] at hcidb hencs hpar
      have hdropc : (seqOf e).drop (k + 1) =
          (seqOf e).getD (k + 1) 0 :: (seqOf e).drop (k + 1 + 1) := drop_cons_getD hk1
      refine ⟨st2, lastId, st3, ?_, hβ, hcap3, ?_, ?_, ?_, ?_, ?_, ?_, ?_, ?_, ?_⟩
      · rw [hstep, hcast]
        exact hα
      · rw [hroot3]; rfl
      · rw [hhead3]; rfl
      · rw [htail3]; rfl
      · rw [hsize3]; rfl
      · rw [hlen3, hlenb]
        simp only [List.length_drop]
        omega
      · intro j hj hjcid hjleaf
        rw [hframe j (by omega) (by omega) hjleaf]
        rw [hstb, getN_setN_ne _ _ _ _ (by omega), getN_setN_ne _ _ _ _ hjcid]
        exact getN_append_old _ hj
      · rw [hframe cid (by omega) hC0ne.symm (Ne.symm hne)]
        rw [hstb, getN_setN_ne _ _ _ _ hC0ne.symm]
        rw [getN_setN_self _ (hgetcid1.trans hrc)]
        rw [hdropc]
        rfl
      · intro p hp
        rw [hdropc]
        show Encodes st3 p (CT.node stc.nodes.length (CTKids.cons ((seqOf e).getD (k + 1) 0)
          (chainCT leafId e (stc.nodes.length + 1) ((seqOf e).drop (k + 1 + 1))) CTKids.nil))
        refine ⟨_, hcidb, rfl, rfl, rfl, ?_, ?_, ?_, ?_, ?_⟩
        · exact (List.isEmpty_eq_false.mpr hp).symm
        · rw [hcap3, hcapb]
          simp [hrcb]
        · simp [hrcb, kidsCount, blankNode]
        · intro j hj
          rw [hcap3, hcapb] at hj
          show ((List.replicate stc.capacity (none : Option Nat)).set
            ((seqOf e).getD (k + 1) 0) _)[j]? = _
          rw [getElem_replicate_set _ (goodStr_digit_lt hgood hB (k + 1)) hj,
            kidsLookup_single]
        · exact ⟨hencs _ (by simp), hpar, trivial⟩
      · rw [hdropc]
        show ∃ rs, getN st3 stc.nodes.length = some rs ∧ rs.parent = some cid
        exact ⟨_, hcidb, rfl⟩
    · -- at the last digit: the loop exits and the leaf is attached here
      have hkeq : k = numDigitsOf e - 1 := by omega
      subst hkeq
      have hcid : cid < stc.nodes.length := getN_bound hrc
      have hdrop : (seqOf e).drop (numDigitsOf e - 1 + 1) = [] := by
        apply List.drop_eq_nil_of_le
        omega
      refine ⟨stc, cid, _, addNodeLoop_exit _ _ m n hbr,
        addNodeFinish_attach hrc hlen (goodStr_digit_lt hgood hB _) hslot hl hne,
        rfl, rfl, rfl, rfl, rfl, ?_, ?_, ?_, ?_, ?_⟩
      · rw [hdrop]
        simp [setN]
      · intro j hj hjcid hjleaf
        rw [getN_setN_ne _ _ _ _ hjleaf, getN_setN_ne _ _ _ _ hjcid]
      · rw [hdrop]
        rw [getN_setN_ne _ _ _ _ (Ne.symm hne), getN_setN_self _ hrc]
        rfl
      · intro p hp
        rw [hdrop]
        show Encodes _ p (CT.leaf leafId e)
        exact ⟨_, getN_setN_self _ (by rw [getN_setN_ne _ _ _ _ hne]; exact hl),
          rfl, rfl, rfl, rfl, rfl, rfl, rfl⟩
      · rw [hdrop]
        exact ⟨_, getN_setN_self _ (by rw [getN_setN_ne _ _ _ _ hne]; exact hl), rfl⟩

end GoTrie

/-! ## From the invariant to the iteration order -/

theorem nodup_lt_length_le {l : List Nat} {n : Nat} (hnd : l.Nodup)
    (hlt : ∀ x ∈ l, x < n) : l.length ≤ n := by
  have h1 : l.toFinset ⊆ Finset.range n := by
    intro x hx
    simp only [List.mem_toFinset] at hx
    simp only [Finset.mem_range]
    exact hlt x hx
  have h2 := Finset.card_le_card h1
  rw [Finset.card_range, List.toFinset_card_of_nodup hnd] at h2
  exact h2

mutual

theorem ctPairs_fst_sublist : ∀ t : CT,
    List.Sublist ((ctPairs t).map Prod.fst) (ctIds t)
  | .leaf i e => List.Sublist.refl [i]
  | .node i ks => by
    simp only [ctPairs, ctIds]
    exact (ctKidsPairs_fst_sublist ks).trans (List.sublist_cons_self i _)

theorem ctKidsPairs_fst_sublist : ∀ ks : CTKids,
    List.Sublist ((ctKidsPairs ks).map Prod.fst) (ctKidsIds ks)
  | .nil => List.nil_sublist []
  | .cons d t rest => by
    simp only [ctKidsPairs, ctKidsIds, List.map_append]
    exact List.Sublist.append (ctPairs_fst_sublist t) (ctKidsPairs_fst_sublist rest)

end

namespace GoTrie

mutual

theorem Encodes_pair_record {st : TrieSt} : ∀ (path : List Nat) (t : CT),
    Encodes st path t → ∀ pr ∈ ctPairs t,
    ∃ r, getN st pr.1 = some r ∧ r.element = some pr.2 ∧
      r.isHead = false ∧ r.isTail = false ∧ r.isLeafN = true
  | path, .leaf i e, henc => by
    obtain ⟨r, hr, hleaf, helem, -, -, -, hh, ht⟩ := henc
    intro pr hpr
    simp only [ctPairs, List.mem_singleton] at hpr
    subst hpr
    exact ⟨r, hr, helem, hh, ht, hleaf⟩
  | path, .node i ks, henc => by
    obtain ⟨r, hr, -, -, -, -, -, -, -, hks⟩ := henc
    intro pr hpr
    exact EncodesKids_pair_record i path ks hks pr hpr

theorem EncodesKids_pair_record {st : TrieSt} : ∀ (i : Nat) (path : List Nat) (ks : CTKids),
    EncodesKids st i path ks → ∀ pr ∈ ctKidsPairs ks,
    ∃ r, getN st pr.1 = some r ∧ r.element = some pr.2 ∧
      r.isHead = false ∧ r.isTail = false ∧ r.isLeafN = true
  | i, path, .nil, _ => by simp [ctKidsPairs]
  | i, path, .cons d t rest, hks => by
    obtain ⟨ht, -, hrest⟩ := hks
    intro pr hpr
    simp only [ctKidsPairs, List.mem_append] at hpr
    rcases hpr with hpr | hpr
    · exact Encodes_pair_record (path ++ [d]) t ht pr hpr
    · exact EncodesKids_pair_record i path rest hrest pr hpr

end

/-- Every stored pair has a live leaf record in the arena. -/
theorem InvT_pair_records {st : TrieSt} {es : List (Nat × String)} (hinv : InvT st es) :
    ∀ pr ∈ es, ∃ r, getN st pr.1 = some r ∧ r.element = some pr.2 ∧
      r.isHead = false ∧ r.isTail = false ∧ r.isLeafN = true := by
  intro pr hpr
  have ht3 := hinv.htree
  cases hroot : st.root with
  | none =>
    rw [hroot] at ht3
    subst ht3
    simp at hpr
  | some rid =>
    rw [hroot] at ht3
    obtain ⟨ks, henc, -, hpairs, -, -, -, -⟩ := ht3
    exact Encodes_pair_record [] _ henc pr (hpairs ▸ hpr)

theorem InvT_es_length {st : TrieSt} {es : List (Nat × String)} (hinv : InvT st es) :
    es.length ≤ st.nodes.length := by
  have ht3 := hinv.htree
  cases hroot : st.root with
  | none =>
    rw [hroot] at ht3
    subst ht3
    simp
  | some rid =>
    rw [hroot] at ht3
    obtain ⟨ks, henc, -, hpairs, hnd, -, -, -⟩ := ht3
    have hsub := ctPairs_fst_sublist (CT.node rid ks)
    rw [hpairs] at hsub
    have hnd2 : (es.map Prod.fst).Nodup := hnd.sublist hsub
    have hbound : ∀ x ∈ es.map Prod.fst, x < st.nodes.length :=
      fun x hx => Encodes_ids_bound [] _ henc x (hsub.subset hx)
    have := nodup_lt_length_le hnd2 hbound
    simpa using this

theorem ChainFrom_tail_prev {st : TrieSt} :
    ∀ (p : Nat) (ids : List Nat), ChainFrom st p ids →
      ∃ r, getN st st.tail = some r ∧ r.previous = some (ids.getLastD p)
  | p, [], hch => by
    obtain ⟨-, h⟩ := hch
    simpa using h
  | p, x :: xs, hch => by
    obtain ⟨-, -, hrest⟩ := hch
    have := ChainFrom_tail_prev x xs hrest
    rw [List.getLastD_cons]
    exact this

/-- Advancing the iterator from a live (non-tombstoned) position follows
the `next` link without touching the arena. -/
theorem iterAdvance_live {st : TrieSt} {p nxt : Nat} {rp rn : NodeRec}
    (hp : getN st p = some rp) (htl : rp.isTail = false)
    (hlive : rp.isHead = true ∨ rp.previous.isNone = false)
    (hnx : rp.next = some nxt) (hn : getN st nxt = some rn) :
    iterAdvance st p = some (st, nxt, !rn.isTail) := by
  unfold iterAdvance
  simp only [hp, Option.bind_eq_bind, Option.some_bind]
  rw [if_neg (by simp [htl])]
  rw [if_neg (by rcases hlive with h | h <;> simp [h])]
  rw [hnx]
  simp only [Option.some_bind, hn]

theorem iterGet_live {st : TrieSt} {c : Nat} {rc : NodeRec}
    (hc : getN st c = some rc) (hh : rc.isHead = false) (ht : rc.isTail = false)
    (hprev : rc.previous.isNone = false) :
    iterGet st c = some rc.element := by
  unfold iterGet iterInCollection
  simp only [hc, Option.bind_eq_bind, Option.some_bind]
  rw [if_neg (by simp [hh, ht])]
  simp only [Option.some_bind, hprev]
  rw [if_pos (by simp)]
  simp [Option.map_some]

/-- `Values`' collection loop walks the leaf chain and collects the
elements in chain order. -/
theorem valuesLoop_chain {st : TrieSt} {rt : NodeRec}
    (htr : getN st st.tail = some rt) (htt : rt.isTail = true) :
    ∀ (es : List (Nat × String)) (fuel : Nat) (p : Nat) (rp : NodeRec)
      (acc : List (Option String)),
    getN st p = some rp → rp.isTail = false →
    (rp.isHead = true ∨ rp.previous.isNone = false) →
    ChainFrom st p (es.map Prod.fst) →
    (∀ pr ∈ es, ∃ r, getN st pr.1 = some r ∧ r.element = some pr.2 ∧
        r.isHead = false ∧ r.isTail = false) →
    es.length + 1 ≤ fuel →
    valuesLoop st fuel p acc = some (st, acc ++ es.map (fun pr => some pr.2)) := by
  intro es
  induction es with
  | nil =>
    intro fuel p rp acc hp htl hlive hch hrec hfuel
    obtain ⟨⟨r1, hr1, hn1⟩, -⟩ := hch
    rw [hp] at hr1
    injection hr1 with hr1
    subst hr1
    cases fuel with
    | zero => omega
    | succ fl =>
      unfold valuesLoop
      rw [iterAdvance_live hp htl hlive hn1 htr]
      simp only [Option.bind_eq_bind, Option.some_bind]
      rw [if_neg (by simp [htt])]
      simp
  | cons pr rest ih =>
    intro fuel p rp acc hp htl hlive hch hrec hfuel
    obtain ⟨⟨r1, hr1, hn1⟩, ⟨rc0, hrc0, hprev0⟩, hrest⟩ := hch
    rw [hp] at hr1
    injection hr1 with hr1
    subst hr1
    obtain ⟨rc, hrc, helem, hhh, hht2⟩ := hrec pr (by simp)
    rw [hrc] at hrc0
    injection hrc0 with hrc0
    subst hrc0
    cases fuel with
    | zero => simp at hfuel
    | succ fl =>
      unfold valuesLoop
      rw [iterAdvance_live hp htl hlive hn1 hrc]
      simp only [Option.bind_eq_bind, Option.some_bind]
      rw [if_pos (by simp [hht2])]
      rw [iterGet_live hrc hhh hht2 (by simp [hprev0])]
      simp only [Option.some_bind, helem]
      rw [ih fl pr.1 rc (acc ++ [some pr.2]) hrc hht2
        (Or.inr (by simp [hprev0])) hrest
        (fun q hq => hrec q (by simp [hq])) (by simp at hfuel ⊢; omega)]
      simp

/-- `Values` returns the stored elements in chain order. -/
theorem Values_spec {st : TrieSt} {es : List (Nat × String)} (hinv : InvT st es) :
    Values st = some (es.map (fun pr => some pr.2)) := by
  obtain ⟨rh, hrh, hhh, hht, hhl, hhprev⟩ := hinv.hhead
  obtain ⟨rt, hrt, htt, -, -⟩ := hinv.htail
  have hfl : st.nodes.length + 2 = (st.nodes.length + 1) + 1 := rfl
  rcases hinv.hchain with hch | ⟨hes, rh2, hrh2, hn2⟩
  · have hrecs : ∀ pr ∈ es, ∃ r, getN st pr.1 = some r ∧ r.element = some pr.2 ∧
        r.isHead = false ∧ r.isTail = false := by
      intro pr hpr
      obtain ⟨r, h1, h2, h3, h4, -⟩ := InvT_pair_records hinv pr hpr
      exact ⟨r, h1, h2, h3, h4⟩
    have hlen := InvT_es_length hinv
    unfold Values
    rw [valuesLoop_chain hrt htt es (st.nodes.length + 2) st.head rh []
      hrh hht (Or.inl hhh) hch hrecs (by omega)]
    rfl
  · subst hes
    rw [hrh] at hrh2
    injection hrh2 with hrh2
    subst hrh2
    unfold Values
    rw [hfl]
    unfold valuesLoop
    rw [iterAdvance_live hrh hht (Or.inl hhh) hn2 hrt]
    simp only [Option.bind_eq_bind, Option.some_bind]
    rw [if_neg (by simp [htt])]
    simp

/-- `Min` is the head of the iteration order (nil on an empty trie). -/
theorem Min_spec {st : TrieSt} {es : List (Nat × String)} (hinv : InvT st es) :
    Min st = some ((es.map (fun pr => some pr.2)).headD none) := by
  obtain ⟨rh, hrh, hhh, hht, hhl, hhprev⟩ := hinv.hhead
  cases es with
  | nil =>
    unfold Min
    rw [if_neg (by rw [isEmpty_eq hinv]; simp)]
    simp
  | cons pr rest =>
    rcases hinv.hchain with hch | ⟨hes, -⟩
    · obtain ⟨⟨r1, hr1, hn1⟩, ⟨rc0, hrc0, -⟩, -⟩ := hch
      rw [hrh] at hr1
      injection hr1 with hr1
      subst hr1
      obtain ⟨rc, hrc, helem, -, -, -⟩ := InvT_pair_records hinv pr (by simp)
      rw [hrc] at hrc0
      injection hrc0 with hrc0
      subst hrc0
      unfold Min
      rw [if_pos (by rw [isEmpty_eq hinv]; simp)]
      simp only [hrh, Option.bind_eq_bind, Option.some_bind]
      rw [hn1]
      simp [hrc, helem]
    · simp at hes

/-- `Max` is the last element of the iteration order (nil on an empty
trie). -/
theorem Max_spec {st : TrieSt} {es : List (Nat × String)} (hinv : InvT st es) :
    Max st = some ((es.map (fun pr => some pr.2)).getLastD none) := by
  obtain ⟨rt, hrt, htt, -, -⟩ := hinv.htail
  cases es with
  | nil =>
    unfold Max
    rw [if_neg (by rw [isEmpty_eq hinv]; simp)]
    simp
  | cons pr0 rest =>
    rcases hinv.hchain with hch | ⟨hes2, -⟩
    · obtain ⟨rt2, hrt2, hprev2⟩ := ChainFrom_tail_prev st.head _ hch
      rw [hrt] at hrt2
      injection hrt2 with hrt2
      subst hrt2
      have hlast : (pr0 :: rest).getLast? = some ((pr0 :: rest).getLast (by simp)) := by
        rw [List.getLast?_eq_getLast _ (by simp)]
      have hmem : (pr0 :: rest).getLast (by simp) ∈ pr0 :: rest := List.getLast_mem _
      obtain ⟨rc, hrc, helem, -, -, -⟩ := InvT_pair_records hinv _ hmem
      have hid : ((pr0 :: rest).map Prod.fst).getLastD st.head =
          ((pr0 :: rest).getLast (by simp)).1 := by
        rw [List.getLastD_eq_getLast?, List.getLast?_map, hlast]
        rfl
      have hval : ((pr0 :: rest).map (fun pr => some pr.2)).getLastD none =
          some ((pr0 :: rest).getLast (by simp)).2 := by
        rw [List.getLastD_eq_getLast?, List.getLast?_map, hlast]
        rfl
      unfold Max
      rw [if_pos (by rw [isEmpty_eq hinv]; simp)]
      simp only [hrt, Option.bind_eq_bind, Option.some_bind]
      rw [hprev2, hid, hval]
      simp [hrc, helem]
    · simp at hes2

/-- `ValueWithIndex`'s advance loop lands on the element at the queried
position of the chain. -/
theorem advanceTimes_chain {st : TrieSt} :
    ∀ (es : List (Nat × String)) (k : Nat) (p : Nat) (rp : NodeRec) (pr : Nat × String),
    getN st p = some rp → rp.isTail = false →
    (rp.isHead = true ∨ rp.previous.isNone = false) →
    ChainFrom st p (es.map Prod.fst) →
    (∀ q ∈ es, ∃ r, getN st q.1 = some r ∧ r.element = some q.2 ∧
        r.isHead = false ∧ r.isTail = false) →
    es[k]? = some pr →
    ∃ rk, advanceTimes st p (k + 1) = some (st, pr.1) ∧
      getN st pr.1 = some rk ∧ rk.element = some pr.2 ∧
      rk.isHead = false ∧ rk.isTail = false ∧ rk.previous.isNone = false := by
  intro es
  induction es with
  | nil => intro k p rp pr hp htl hlive hch hrec hk; simp at hk
  | cons pr0 rest ih =>
    intro k p rp pr hp htl hlive hch hrec hk
    obtain ⟨⟨r1, hr1, hn1⟩, ⟨rc0, hrc0, hprev0⟩, hrest⟩ := hch
    rw [hp] at hr1
    injection hr1 with hr1
    subst hr1
    obtain ⟨rc, hrc, helem, hhh, hht2⟩ := hrec pr0 (by simp)
    rw [hrc] at hrc0
    injection hrc0 with hrc0
    subst hrc0
    cases k with
    | zero =>
      simp only [List.getElem?_cons_zero, Option.some_inj] at hk
      subst hk
      refine ⟨rc, ?_, hrc, helem, hhh, hht2, by simp [hprev0]⟩
      unfold advanceTimes
      rw [iterAdvance_live hp htl hlive hn1 hrc]
      simp only [Option.bind_eq_bind, Option.some_bind]
      rfl
    | succ k2 =>
      simp only [List.getElem?_cons_succ] at hk
      obtain ⟨rk, hadv, hrest'⟩ := ih k2 pr0.1 rc pr hrc hht2
        (Or.inr (by simp [hprev0])) hrest (fun q hq => hrec q (by simp [hq])) hk
      refine ⟨rk, ?_, hrest'⟩
      unfold advanceTimes
      rw [iterAdvance_live hp htl hlive hn1 hrc]
      simp only [Option.bind_eq_bind, Option.some_bind]
      exact hadv

end GoTrie


/-! ## Pure insertion theory: scans, grafting, ordered splits -/

/-- Try digits `j, j-1, …, 0` and return the first occupied one (the
pure picture of the downward slot scans). -/
def scanDown (ks : CTKids) : Nat → Option (Nat × CT)
  | 0 => (kidsFind ks 0).map (fun t => (0, t))
  | j+1 =>
    match kidsFind ks (j+1) with
    | some t => some (j+1, t)
    | none => scanDown ks j

/-- The occupied slot of greatest digit strictly below `d`. -/
def scanBelow (ks : CTKids) : Nat → Option (Nat × CT)
  | 0 => none
  | d+1 => scanDown ks d

/-- The subtree rooted at the deepest left fork along a digit path: the
pure picture of `retraceToLastLeftFork`, preferring the deepest level. -/
def forkBelow : List Nat → CT → Option CT
  | [], _ => none
  | _ :: _, .leaf _ _ => none
  | d :: ds, .node _ ks =>
    match kidsFind ks d with
    | none => none
    | some t0 =>
      match forkBelow ds t0 with
      | some ft => some ft
      | none => (scanBelow ks d).map Prod.snd

/-- Graft `sub` under fresh digit `dq` of the node at path `q`. -/
def ctGraft (sub : CT) (dq : Nat) : List Nat → CT → CT
  | [], .leaf i f => .leaf i f
  | [], .node i ks => .node i (kidsInsert dq sub ks)
  | _ :: _, .leaf i f => .leaf i f
  | d :: ds, .node i ks =>
    .node i
      (match kidsFind ks d with
        | none => ks
        | some t0 => kidsReplace d (ctGraft sub dq ds t0) ks)

/-- Insert a pair into the stored list right where the digit order puts
it (mirrors `insertOrdered` on the element components). -/
def pairsInsert (c : Nat) (e : String) : List (Nat × String) → List (Nat × String)
  | [] => [(c, e)]
  | pr :: rest =>
    if seqLtb (seqOf pr.2) (seqOf e) then pr :: pairsInsert c e rest
    else (c, e) :: pr :: rest

theorem scanDown_none {ks : CTKids} : ∀ {j : Nat}, scanDown ks j = none →
    ∀ d, d ≤ j → kidsFind ks d = none := by
  intro j
  induction j with
  | zero =>
    intro h d hd
    interval_cases d
    unfold scanDown at h
    cases hf : kidsFind ks 0 with
    | none => rfl
    | some t => rw [hf] at h; simp at h
  | succ j2 ih =>
    intro h d hd
    unfold scanDown at h
    revert h
    cases hf : kidsFind ks (j2 + 1) with
    | some t => intro h; simp at h
    | none =>
      intro h
      rcases Nat.lt_or_ge d (j2 + 1) with hlt | hge
      · exact ih h d (by omega)
      · have : d = j2 + 1 := by omega
        rw [this]
        exact hf

theorem scanDown_some {ks : CTKids} : ∀ {j d : Nat} {t : CT},
    scanDown ks j = some (d, t) →
    kidsFind ks d = some t ∧ d ≤ j ∧
      (∀ d2, d < d2 → d2 ≤ j → kidsFind ks d2 = none) := by
  intro j
  induction j with
  | zero =>
    intro d t h
    unfold scanDown at h
    cases hf : kidsFind ks 0 with
    | none => rw [hf] at h; simp at h
    | some t2 =>
      rw [hf] at h
      simp only [Option.map_some', Option.some_inj, Prod.mk.injEq] at h
      obtain ⟨rfl, rfl⟩ := h
      exact ⟨hf, Nat.le_refl 0, fun d2 h1 h2 => by omega⟩
  | succ j2 ih =>
    intro d t h
    unfold scanDown at h
    revert h
    cases hf : kidsFind ks (j2 + 1) with
    | some t2 =>
      intro h
      simp only [Option.some_inj, Prod.mk.injEq] at h
      obtain ⟨rfl, rfl⟩ := h
      exact ⟨hf, Nat.le_refl _, fun d2 h1 h2 => by omega⟩
    | none =>
      intro h
      obtain ⟨h1, h2, h3⟩ := ih h
      refine ⟨h1, by omega, ?_⟩
      intro d2 hd1 hd2
      rcases Nat.lt_or_ge d2 (j2 + 1) with hlt | hge
      · exact h3 d2 hd1 (by omega)
      · have : d2 = j2 + 1 := by omega
        rw [this]
        exact hf

theorem kidsFind_insert (j : Nat) (nt : CT) :
    ∀ (ks : CTKids) (x : Nat), kidsFind ks j = none →
      kidsFind (kidsInsert j nt ks) x = if x = j then some nt else kidsFind ks x
  | .nil, x, _ => by
    show (if x = j then some nt else kidsFind .nil x) = _
    rfl
  | .cons d t rest, x, hf => by
    unfold kidsFind at hf
    have hjd : j ≠ d := by
      intro h
      rw [if_pos h] at hf
      exact absurd hf (by simp)
    rw [if_neg hjd] at hf
    unfold kidsInsert
    by_cases hlt : j < d
    · rw [if_pos hlt]
      rfl
    · rw [if_neg hlt]
      rw [show kidsFind (CTKids.cons d t (kidsInsert j nt rest)) x =
          (if x = d then some t else kidsFind (kidsInsert j nt rest) x) from rfl]
      rw [kidsFind_insert j nt rest x hf]
      rw [show kidsFind (CTKids.cons d t rest) x =
          (if x = d then some t else kidsFind rest x) from rfl]
      by_cases hxd : x = d
      · subst hxd
        rw [if_pos rfl, if_neg (fun h => hjd h.symm), if_pos rfl]
      · rw [if_neg hxd]
        by_cases hxj : x = j
        · rw [if_pos hxj, if_pos hxj]
        · rw [if_neg hxj, if_neg hxj, if_neg hxd]

theorem kidsCount_insert (j : Nat) (nt : CT) :
    ∀ ks : CTKids, kidsCount (kidsInsert j nt ks) = kidsCount ks + 1
  | .nil => rfl
  | .cons d t rest => by
    unfold kidsInsert
    by_cases hlt : j < d
    · rw [if_pos hlt]
      rfl
    · rw [if_neg hlt]
      show kidsCount (kidsInsert j nt rest) + 1 = (kidsCount rest + 1) + 1
      rw [kidsCount_insert j nt rest]

theorem kidsDigits_insert_mem (j : Nat) (nt : CT) :
    ∀ (ks : CTKids) (x : Nat),
      x ∈ kidsDigits (kidsInsert j nt ks) ↔ x = j ∨ x ∈ kidsDigits ks
  | .nil, x => by simp [kidsInsert, kidsDigits]
  | .cons d t rest, x => by
    unfold kidsInsert
    by_cases hlt : j < d
    · rw [if_pos hlt]
      simp [kidsDigits]
    · rw [if_neg hlt]
      show x ∈ kidsDigits (.cons d t (kidsInsert j nt rest)) ↔ _
      simp only [kidsDigits, List.mem_cons, kidsDigits_insert_mem j nt rest x]
      tauto

theorem kidsDigits_replace (j : Nat) (nt : CT) :
    ∀ ks : CTKids, kidsDigits (kidsReplace j nt ks) = kidsDigits ks
  | .nil => rfl
  | .cons d t rest => by
    unfold kidsReplace
    by_cases hjd : j = d
    · rw [if_pos hjd]
      rfl
    · rw [if_neg hjd]
      show d :: kidsDigits (kidsReplace j nt rest) = _
      rw [kidsDigits_replace j nt rest]
      rfl

theorem kidsWF_replace {B : Nat} {p : List Nat} (j : Nat) (nt : CT)
    (hnt : ctWF B (p ++ [j]) nt) :
    ∀ ks : CTKids, kidsWF B p ks → kidsWF B p (kidsReplace j nt ks)
  | .nil, _ => trivial
  | .cons d t rest, hwf => by
    obtain ⟨hdB, hwt, hwr, hlt⟩ := hwf
    unfold kidsReplace
    by_cases hjd : j = d
    · rw [if_pos hjd]
      subst hjd
      exact ⟨hdB, hnt, hwr, hlt⟩
    · rw [if_neg hjd]
      refine ⟨hdB, hwt, kidsWF_replace j nt hnt rest hwr, ?_⟩
      rw [kidsDigits_replace]
      exact hlt

theorem kidsWF_insert {B : Nat} {p : List Nat} (j : Nat) (nt : CT)
    (hnt : ctWF B (p ++ [j]) nt) (hjB : j < B) :
    ∀ ks : CTKids, kidsWF B p ks → kidsFind ks j = none →
      kidsWF B p (kidsInsert j nt ks)
  | .nil, _, _ => ⟨hjB, hnt, trivial, by simp [kidsDigits]⟩
  | .cons d t rest, hwf, hfind => by
    obtain ⟨hdB, hwt, hwr, hlt⟩ := hwf
    unfold kidsFind at hfind
    have hjd : j ≠ d := by
      intro h
      rw [if_pos h] at hfind
      exact absurd hfind (by simp)
    rw [if_neg hjd] at hfind
    unfold kidsInsert
    by_cases hltd : j < d
    · rw [if_pos hltd]
      refine ⟨hjB, hnt, ⟨hdB, hwt, hwr, hlt⟩, ?_⟩
      intro d2 hd2
      simp only [kidsDigits, List.mem_cons] at hd2
      rcases hd2 with rfl | hd2
      · exact hltd
      · have := hlt d2 hd2
        omega
    · rw [if_neg hltd]
      refine ⟨hdB, hwt, kidsWF_insert j nt hnt hjB rest hwr hfind, ?_⟩
      intro d2 hd2
      rw [kidsDigits_insert_mem] at hd2
      rcases hd2 with rfl | hd2
      · omega
      · exact hlt d2 hd2

/-- Split the pairs of a kid list at an occupied digit: the block before
it has smaller leading digits, the block after larger ones, and
replacing that kid swaps exactly its block. -/
theorem kids_split_at {B : Nat} {p : List Nat} :
    ∀ {ks : CTKids} {d0 : Nat} {t0 : CT}, kidsWF B p ks → kidsFind ks d0 = some t0 →
    ∀ (nt : CT),
    ∃ pre post, ctKidsPairs ks = pre ++ ctPairs t0 ++ post ∧
      ctKidsPairs (kidsReplace d0 nt ks) = pre ++ ctPairs nt ++ post ∧
      (∀ pr ∈ pre, ∃ d ta, d < d0 ∧ seqOf pr.2 = p ++ d :: ta) ∧
      (∀ pr ∈ post, ∃ d ta, d0 < d ∧ d ∈ kidsDigits ks ∧ seqOf pr.2 = p ++ d :: ta)
  | .nil, d0, t0, _, hfind => by simp [kidsFind] at hfind
  | .cons d t rest, d0, t0, hwf, hfind => by
    intro nt
    obtain ⟨hdB, hwt, hwr, hlt⟩ := hwf
    unfold kidsFind at hfind
    by_cases hd0d : d0 = d
    · rw [if_pos hd0d] at hfind
      injection hfind with hfind
      subst hfind
      subst hd0d
      refine ⟨[], ctKidsPairs rest, by simp [ctKidsPairs], ?_, by simp, ?_⟩
      · unfold kidsReplace
        rw [if_pos rfl]
        simp [ctKidsPairs]
      · intro pr hpr
        obtain ⟨⟨d2, t2, hfind2, -, hpfx2⟩, -⟩ := (kidsWF_pairs p rest hwr).1 pr hpr
        obtain ⟨ta, hta⟩ := hpfx2
        refine ⟨d2, ta, hlt d2 (kidsFind_digit_mem hfind2), ?_, ?_⟩
        · simp [kidsDigits, kidsFind_digit_mem hfind2]
        · rw [← hta, List.append_assoc, List.singleton_append]
    · rw [if_neg hd0d] at hfind
      obtain ⟨pre2, post2, h1, h2, h3, h4⟩ := kids_split_at hwr hfind nt
      have hdd0 : d < d0 := hlt d0 (kidsFind_digit_mem hfind)
      refine ⟨ctPairs t ++ pre2, post2, ?_, ?_, ?_, ?_⟩
      · show ctPairs t ++ ctKidsPairs rest = _
        rw [h1]
        simp [List.append_assoc]
      · unfold kidsReplace
        rw [if_neg (fun h => hd0d h)]
        show ctPairs t ++ ctKidsPairs (kidsReplace d0 nt rest) = _
        rw [h2]
        simp [List.append_assoc]
      · intro pr hpr
        rcases List.mem_append.mp hpr with hpr | hpr
        · obtain ⟨hpfx, -⟩ := (ctWF_pairs (p ++ [d]) t hwt).1 pr hpr
          obtain ⟨ta, hta⟩ := hpfx
          exact ⟨d, ta, hdd0, by rw [← hta, List.append_assoc, List.singleton_append]⟩
        · exact h3 pr hpr
      · intro pr hpr
        obtain ⟨d2, ta, hdd2, hmem2, hseq2⟩ := h4 pr hpr
        exact ⟨d2, ta, hdd2, by simp [kidsDigits, hmem2], hseq2⟩

/-- Inserting a fresh digit splits the pairs at the digit-order
position, slotting the new subtree's pairs in between. -/
theorem kidsInsert_split {B : Nat} {p : List Nat} :
    ∀ {ks : CTKids} {dq : Nat}, kidsWF B p ks → kidsFind ks dq = none →
    ∀ (nt : CT),
    ∃ pre post, ctKidsPairs ks = pre ++ post ∧
      ctKidsPairs (kidsInsert dq nt ks) = pre ++ ctPairs nt ++ post ∧
      (∀ pr ∈ pre, ∃ d ta, d < dq ∧ seqOf pr.2 = p ++ d :: ta) ∧
      (∀ pr ∈ post, ∃ d ta, dq < d ∧ seqOf pr.2 = p ++ d :: ta)
  | .nil, dq, _, _ => by
    intro nt
    exact ⟨[], [], rfl, by simp [kidsInsert, ctKidsPairs], by simp, by simp⟩
  | .cons d t rest, dq, hwf, hfind => by
    intro nt
    obtain ⟨hdB, hwt, hwr, hlt⟩ := hwf
    unfold kidsFind at hfind
    have hdqd : dq ≠ d := by
      intro h
      rw [if_pos h] at hfind
      exact absurd hfind (by simp)
    rw [if_neg hdqd] at hfind
    unfold kidsInsert
    by_cases hltd : dq < d
    · rw [if_pos hltd]
      refine ⟨[], ctKidsPairs (CTKids.cons d t rest), by simp, ?_, by simp, ?_⟩
      · show ctPairs nt ++ ctKidsPairs (CTKids.cons d t rest) = _
        simp
      · intro pr hpr
        obtain ⟨⟨d2, t2, hfind2, -, hpfx2⟩, -⟩ :=
          (kidsWF_pairs p (CTKids.cons d t rest) ⟨hdB, hwt, hwr, hlt⟩).1 pr hpr
        obtain ⟨ta, hta⟩ := hpfx2
        have hd2 : dq < d2 := by
          have hmem := kidsFind_digit_mem hfind2
          simp only [kidsDigits, List.mem_cons] at hmem
          rcases hmem with rfl | hmem
          · exact hltd
          · have := hlt d2 hmem
            omega
        exact ⟨d2, ta, hd2, by rw [← hta, List.append_assoc, List.singleton_append]⟩
    · rw [if_neg hltd]
      obtain ⟨pre2, post2, h1, h2, h3, h4⟩ := kidsInsert_split hwr hfind nt
      refine ⟨ctPairs t ++ pre2, post2, ?_, ?_, ?_, h4⟩
      · show ctPairs t ++ ctKidsPairs rest = _
        rw [h1, List.append_assoc]
      · show ctPairs t ++ ctKidsPairs (kidsInsert dq nt rest) = _
        rw [h2]
        simp [List.append_assoc]
      · intro pr hpr
        rcases List.mem_append.mp hpr with hpr | hpr
        · obtain ⟨hpfx, -⟩ := (ctWF_pairs (p ++ [d]) t hwt).1 pr hpr
          obtain ⟨ta, hta⟩ := hpfx
          have hddq : d < dq := by omega
          exact ⟨d, ta, hddq, by rw [← hta, List.append_assoc, List.singleton_append]⟩
        · exact h3 pr hpr

theorem kidsInsert_ne_nil (j : Nat) (nt : CT) :
    ∀ ks : CTKids, kidsInsert j nt ks ≠ .nil
  | .nil => fun h => nomatch h
  | .cons d t rest => by
    unfold kidsInsert
    by_cases hlt : j < d
    · rw [if_pos hlt]
      exact fun h => nomatch h
    · rw [if_neg hlt]
      exact fun h => nomatch h

theorem kidsReplace_ne_nil (j : Nat) (nt : CT) :
    ∀ ks : CTKids, ks ≠ .nil → kidsReplace j nt ks ≠ .nil
  | .nil, h => absurd rfl h
  | .cons d t rest, _ => by
    unfold kidsReplace
    by_cases hjd : j = d
    · rw [if_pos hjd]
      exact fun h => nomatch h
    · rw [if_neg hjd]
      exact fun h => nomatch h

theorem ctGraft_cons_eq {sub : CT} {dq d : Nat} {ds : List Nat} {i : Nat} {ks : CTKids}
    {t00 : CT} (hf0 : kidsFind ks d = some t00) :
    ctGraft sub dq (d :: ds) (CT.node i ks) =
      CT.node i (kidsReplace d (ctGraft sub dq ds t00) ks) := by
  conv_lhs => unfold ctGraft
  split
  next h =>
    rw [hf0] at h
    exact absurd h (by simp)
  next t0 h =>
    rw [hf0] at h
    injection h with h
    rw [h]

/-- Grafting keeps the tree well formed. -/
theorem ctGraft_wf {B : Nat} {sub : CT} {dq : Nat} :
    ∀ (q p : List Nat) (t : CT) (i2 : Nat) (ks2 : CTKids),
    ctWF B p t → ctAt t q = some (CT.node i2 ks2) → kidsFind ks2 dq = none →
    dq < B → ctWF B ((p ++ q) ++ [dq]) sub →
    ctWF B p (ctGraft sub dq q t)
  | [], p, t, i2, ks2, hwf, hat, hfind, hdqB, hsub => by
    simp only [ctAt, Option.some_inj] at hat
    subst hat
    show ctWF B p (CT.node i2 (kidsInsert dq sub ks2))
    refine ⟨Or.inr (kidsInsert_ne_nil dq sub ks2), ?_⟩
    exact kidsWF_insert dq sub (by simpa using hsub) hdqB ks2 hwf.2 hfind
  | d :: ds, p, .leaf i f, i2, ks2, hwf, hat, hfind, hdqB, hsub => by simp [ctAt] at hat
  | d :: ds, p, .node i ks, i2, ks2, hwf, hat, hfind, hdqB, hsub => by
    unfold ctAt at hat
    revert hat
    cases hf0 : kidsFind ks d with
    | none => intro hat; exact absurd hat (by simp)
    | some t00 =>
      intro hat
      have hwt00 := (kidsWF_find hwf.2 hf0).1
      have ih := ctGraft_wf ds (p ++ [d]) t00 i2 ks2 hwt00 hat hfind hdqB
        (by rw [List.append_assoc] at hsub ⊢; simpa using hsub)
      rw [ctGraft_cons_eq hf0]
      refine ⟨?_, kidsWF_replace d _ ih ks hwf.2⟩
      rcases hwf.1 with h | h
      · exact Or.inl h
      · exact Or.inr (kidsReplace_ne_nil d _ ks h)

theorem kidsInsert_ids_perm (j : Nat) (nt : CT) :
    ∀ ks : CTKids, List.Perm (ctKidsIds (kidsInsert j nt ks)) (ctKidsIds ks ++ ctIds nt)
  | .nil => by
    show List.Perm (ctIds nt ++ ctKidsIds .nil) (ctKidsIds .nil ++ ctIds nt)
    simp [ctKidsIds]
  | .cons d t rest => by
    unfold kidsInsert
    by_cases hlt : j < d
    · rw [if_pos hlt]
      show List.Perm (ctIds nt ++ (ctIds t ++ ctKidsIds rest))
        ((ctIds t ++ ctKidsIds rest) ++ ctIds nt)
      exact List.perm_append_comm
    · rw [if_neg hlt]
      show List.Perm (ctIds t ++ ctKidsIds (kidsInsert j nt rest))
        ((ctIds t ++ ctKidsIds rest) ++ ctIds nt)
      rw [List.append_assoc]
      exact List.Perm.append_left _ (kidsInsert_ids_perm j nt rest)

theorem kidsReplace_ids_perm (j : Nat) (nt : CT) :
    ∀ {ks : CTKids} {t0 : CT}, kidsFind ks j = some t0 →
      List.Perm (ctKidsIds (kidsReplace j nt ks) ++ ctIds t0) (ctKidsIds ks ++ ctIds nt)
  | .nil, t0, hf => by simp [kidsFind] at hf
  | .cons d t rest, t0, hf => by
    unfold kidsFind at hf
    by_cases hjd : j = d
    · rw [if_pos hjd] at hf
      injection hf with hf
      subst hf
      unfold kidsReplace
      rw [if_pos hjd]
      show List.Perm ((ctIds nt ++ ctKidsIds rest) ++ ctIds t)
        ((ctIds t ++ ctKidsIds rest) ++ ctIds nt)
      refine List.Perm.trans List.perm_append_comm ?_
      refine List.Perm.trans (List.Perm.append_left _ List.perm_append_comm) ?_
      rw [← List.append_assoc]
    · rw [if_neg hjd] at hf
      unfold kidsReplace
      rw [if_neg hjd]
      show List.Perm ((ctIds t ++ ctKidsIds (kidsReplace j nt rest)) ++ ctIds t0)
        ((ctIds t ++ ctKidsIds rest) ++ ctIds nt)
      rw [List.append_assoc, List.append_assoc]
      exact List.Perm.append_left _ (kidsReplace_ids_perm j nt hf)

theorem ctGraft_ids_perm (sub : CT) {dq : Nat} :
    ∀ (q : List Nat) (t : CT) (i2 : Nat) (ks2 : CTKids),
      ctAt t q = some (CT.node i2 ks2) → kidsFind ks2 dq = none →
      List.Perm (ctIds (ctGraft sub dq q t)) (ctIds t ++ ctIds sub)
  | [], t, i2, ks2, hat, hfind => by
    simp only [ctAt, Option.some_inj] at hat
    subst hat
    show List.Perm (i2 :: ctKidsIds (kidsInsert dq sub ks2))
      ((i2 :: ctKidsIds ks2) ++ ctIds sub)
    exact List.Perm.cons i2 (kidsInsert_ids_perm dq sub ks2)
  | d :: ds, .leaf i f, i2, ks2, hat, hfind => by simp [ctAt] at hat
  | d :: ds, .node i ks, i2, ks2, hat, hfind => by
    unfold ctAt at hat
    revert hat
    cases hf0 : kidsFind ks d with
    | none => intro hat; exact absurd hat (by simp)
    | some t00 =>
      intro hat
      have ih := ctGraft_ids_perm sub ds t00 i2 ks2 hat hfind
      have hrep := kidsReplace_ids_perm d (ctGraft sub dq ds t00) hf0
      have key : List.Perm (ctKidsIds (kidsReplace d (ctGraft sub dq ds t00) ks))
          (ctKidsIds ks ++ ctIds sub) := by
        apply (List.perm_append_right_iff (ctIds t00)).mp
        refine List.Perm.trans hrep ?_
        refine List.Perm.trans (List.Perm.append_left _ ih) ?_
        refine List.Perm.trans (List.Perm.append_left _ List.perm_append_comm) ?_
        rw [← List.append_assoc]
      rw [ctGraft_cons_eq hf0]
      show List.Perm (i :: ctKidsIds (kidsReplace d (ctGraft sub dq ds t00) ks))
        ((i :: ctKidsIds ks) ++ ctIds sub)
      exact List.Perm.cons i key

/-- Grafting splits the stored pairs at the digit-order position of the
grafted subtree, every earlier pair strictly below and every later pair
strictly above the query in sequence order. -/
theorem ctGraft_split {B : Nat} {e : String} (sub : CT) (dq : Nat) :
    ∀ (q p : List Nat) (t : CT) (i2 : Nat) (ks2 : CTKids),
    ctWF B p t → ctAt t q = some (CT.node i2 ks2) → kidsFind ks2 dq = none →
    ((p ++ q) ++ [dq]) <+: seqOf e →
    ∃ esL esR, ctPairs t = esL ++ esR ∧
      ctPairs (ctGraft sub dq q t) = esL ++ ctPairs sub ++ esR ∧
      (∀ pr ∈ esL, seqLtb (seqOf pr.2) (seqOf e) = true) ∧
      (∀ pr ∈ esR, seqLtb (seqOf e) (seqOf pr.2) = true)
  | [], p, t, i2, ks2, hwf, hat, hfind, hpfx => by
    simp only [ctAt, Option.some_inj] at hat
    subst hat
    obtain ⟨pre, post, h1, h2, h3, h4⟩ := kidsInsert_split hwf.2 hfind sub
    obtain ⟨tb, htb⟩ := hpfx
    have hseqe : seqOf e = p ++ dq :: tb := by
      rw [← htb]
      simp
    refine ⟨pre, post, h1, h2, ?_, ?_⟩
    · intro pr hpr
      obtain ⟨d, ta, hd, hseq⟩ := h3 pr hpr
      rw [hseq, hseqe]
      exact seqLtb_append_lt p ta tb hd
    · intro pr hpr
      obtain ⟨d, ta, hd, hseq⟩ := h4 pr hpr
      rw [hseq, hseqe]
      exact seqLtb_append_lt p tb ta hd
  | d :: ds, p, .leaf i f, i2, ks2, hwf, hat, hfind, hpfx => by simp [ctAt] at hat
  | d :: ds, p, .node i ks, i2, ks2, hwf, hat, hfind, hpfx => by
    unfold ctAt at hat
    revert hat
    cases hf0 : kidsFind ks d with
    | none => intro hat; exact absurd hat (by simp)
    | some t00 =>
      intro hat
      have hwt00 := (kidsWF_find hwf.2 hf0).1
      obtain ⟨esL0, esR0, g1, g2, g3, g4⟩ :=
        ctGraft_split (e := e) sub dq ds (p ++ [d]) t00 i2 ks2 hwt00 hat hfind
          (by rw [List.append_assoc] at hpfx ⊢; simpa using hpfx)
      obtain ⟨pre, post, h1, h2, h3, h4⟩ :=
        kids_split_at hwf.2 hf0 (ctGraft sub dq ds t00)
      have hpfx2 : (p ++ [d]) <+: seqOf e := by
        refine List.IsPrefix.trans ?_ hpfx
        refine List.IsPrefix.trans ?_ (List.prefix_append _ [dq])
        simp [List.prefix_append]
      obtain ⟨tb, htb⟩ := hpfx2
      have hseqe : seqOf e = p ++ d :: tb := by
        rw [← htb]
        simp
      refine ⟨pre ++ esL0, esR0 ++ post, ?_, ?_, ?_, ?_⟩
      · show ctPairs (CT.node i ks) = _
        show ctKidsPairs ks = _
        rw [h1, g1]
        simp [List.append_assoc]
      · rw [ctGraft_cons_eq hf0]
        show ctKidsPairs (kidsReplace d (ctGraft sub dq ds t00) ks) = _
        rw [h2, g2]
        simp [List.append_assoc]
      · intro pr hpr
        rcases List.mem_append.mp hpr with hpr | hpr
        · obtain ⟨d2, ta, hd2, hseq⟩ := h3 pr hpr
          rw [hseq, hseqe]
          exact seqLtb_append_lt p ta tb hd2
        · exact g3 pr hpr
      · intro pr hpr
        rcases List.mem_append.mp hpr with hpr | hpr
        · exact g4 pr hpr
        · obtain ⟨d2, ta, hd2, -, hseq⟩ := h4 pr hpr
          rw [hseq, hseqe]
          exact seqLtb_append_lt p tb ta hd2

theorem kidsCount_replace (j : Nat) (nt : CT) :
    ∀ ks : CTKids, kidsCount (kidsReplace j nt ks) = kidsCount ks
  | .nil => rfl
  | .cons d t rest => by
    unfold kidsReplace
    by_cases hjd : j = d
    · rw [if_pos hjd]
      rfl
    · rw [if_neg hjd]
      show kidsCount (kidsReplace j nt rest) + 1 = kidsCount rest + 1
      rw [kidsCount_replace j nt rest]

theorem kidsFind_replace (j : Nat) (nt : CT) :
    ∀ (ks : CTKids) (x : Nat) {t0 : CT}, kidsFind ks j = some t0 →
      kidsFind (kidsReplace j nt ks) x = if x = j then some nt else kidsFind ks x
  | .nil, x, t0, hf => by simp [kidsFind] at hf
  | .cons d t rest, x, t0, hf => by
    by_cases hjd : j = d
    · subst hjd
      unfold kidsReplace
      rw [if_pos rfl]
      show (if x = j then some nt else kidsFind rest x) = _
      by_cases hxj : x = j
      · rw [if_pos hxj, if_pos hxj]
      · rw [if_neg hxj, if_neg hxj]
        show _ = (if x = j then some t else kidsFind rest x)
        rw [if_neg hxj]
    · unfold kidsFind at hf
      rw [if_neg hjd] at hf
      unfold kidsReplace
      rw [if_neg hjd]
      show (if x = d then some t else kidsFind (kidsReplace j nt rest) x) = _
      rw [kidsFind_replace j nt rest x hf]
      by_cases hxd : x = d
      · rw [if_pos hxd, if_neg (by rw [hxd]; exact fun h => hjd h.symm)]
        show _ = (if x = d then some t else kidsFind rest x)
        rw [if_pos hxd]
      · rw [if_neg hxd]
        by_cases hxj : x = j
        · rw [if_pos hxj, if_pos hxj]
        · rw [if_neg hxj, if_neg hxj]
          show _ = (if x = d then some t else kidsFind rest x)
          rw [if_neg hxd]

theorem ctGraft_idOf (sub : CT) (dq : Nat) :
    ∀ (q : List Nat) (t : CT), CT.idOf (ctGraft sub dq q t) = CT.idOf t
  | [], .leaf i f => rfl
  | [], .node i ks => rfl
  | d :: ds, .leaf i f => rfl
  | d :: ds, .node i ks => by
    unfold ctGraft
    cases kidsFind ks d <;> rfl

theorem kidsFind_ids_sublist : ∀ {ks : CTKids} {d : Nat} {t2 : CT},
    kidsFind ks d = some t2 → List.Sublist (ctIds t2) (ctKidsIds ks)
  | .nil, d, t2, hf => by simp [kidsFind] at hf
  | .cons d2 t rest, d, t2, hf => by
    unfold kidsFind at hf
    by_cases hdd : d = d2
    · rw [if_pos hdd] at hf
      injection hf with hf
      subst hf
      exact List.sublist_append_left _ _
    · rw [if_neg hdd] at hf
      exact (kidsFind_ids_sublist hf).trans (List.sublist_append_right _ _)

namespace GoTrie

theorem EncodesKids_find_parent {st : TrieSt} {i : Nat} {path : List Nat} :
    ∀ {ks : CTKids} {d : Nat} {t2 : CT}, EncodesKids st i path ks →
      kidsFind ks d = some t2 →
      ∃ rc, getN st (CT.idOf t2) = some rc ∧ rc.parent = some i
  | .nil, d, t2, _, hfind => by simp [kidsFind] at hfind
  | .cons d2 t rest, d, t2, hks, hfind => by
    obtain ⟨-, hpar, hrest⟩ := hks
    unfold kidsFind at hfind
    split at hfind
    next heq =>
      injection hfind with hfind
      subst hfind
      exact hpar
    next => exact EncodesKids_find_parent hrest hfind

/-- Replacing the kid under an occupied digit, re-encoded: the new kid
is encoded in the new arena, every sibling's records are untouched. -/
theorem EncodesKids_replace_enc {st st3 : TrieSt} (hcap : st3.capacity = st.capacity)
    {i i2 : Nat} {d : Nat} {g : CT} {path : List Nat} :
    ∀ (ks : CTKids) (t00 : CT), EncodesKids st i path ks → kidsFind ks d = some t00 →
      (ctKidsIds ks).Nodup → i2 ∈ ctIds t00 →
      (∀ j ∈ ctKidsIds ks, j ≠ i2 → getN st3 j = getN st j) →
      Encodes st3 (path ++ [d]) g →
      (∃ rs, getN st3 (CT.idOf g) = some rs ∧ rs.parent = some i) →
      EncodesKids st3 i path (kidsReplace d g ks)
  | .nil, t00, _, hf, _, _, _, _, _ => by simp [kidsFind] at hf
  | .cons d2 t rest, t00, hks, hf, hnd, hi2, hframe, hg, hgpar => by
    obtain ⟨ht, ⟨rc, hrc, hrcp⟩, hrest⟩ := hks
    unfold kidsFind at hf
    have hnd2 := List.nodup_append.mp (show (ctIds t ++ ctKidsIds rest).Nodup from hnd)
    by_cases hdd : d = d2
    · rw [if_pos hdd] at hf
      injection hf with hf
      subst hf
      subst hdd
      unfold kidsReplace
      rw [if_pos rfl]
      refine ⟨hg, hgpar, ?_⟩
      refine EncodesKids_frame hcap i path rest hrest ?_
      intro j hj
      refine hframe j (by simp [ctKidsIds, hj]) ?_
      intro hji2
      exact hnd2.2.2 (by rw [hji2]; exact hi2) hj
    · rw [if_neg hdd] at hf
      unfold kidsReplace
      rw [if_neg hdd]
      have hi2nott : ∀ j ∈ ctIds t, j ≠ i2 := by
        intro j hj hji2
        exact hnd2.2.2 hj (by rw [hji2]; exact (kidsFind_ids_sublist hf).subset hi2)
      refine ⟨?_, ?_, ?_⟩
      · refine Encodes_frame hcap (path ++ [d2]) t ht ?_
        intro j hj
        exact hframe j (by simp [ctKidsIds, hj]) (hi2nott j hj)
      · refine ⟨rc, ?_, hrcp⟩
        rw [hframe (CT.idOf t) (by simp [ctKidsIds, idOf_mem_ctIds t])
          (hi2nott _ (idOf_mem_ctIds t))]
        exact hrc
      · exact EncodesKids_replace_enc hcap rest t00 hrest hf hnd2.2.1 hi2
          (fun j hj hji2 => hframe j (by simp [ctKidsIds, hj]) hji2) hg hgpar

/-- Inserting a freshly encoded kid under a new digit. -/
theorem EncodesKids_insert_enc {st3 : TrieSt} {i : Nat} {path : List Nat} {dq : Nat}
    {sub : CT} :
    ∀ ks : CTKids, EncodesKids st3 i path ks → Encodes st3 (path ++ [dq]) sub →
      (∃ rs, getN st3 (CT.idOf sub) = some rs ∧ rs.parent = some i) →
      EncodesKids st3 i path (kidsInsert dq sub ks)
  | .nil, _, hs, hp => ⟨hs, hp, trivial⟩
  | .cons d t rest, hks, hs, hp => by
    obtain ⟨ht, hpt, hrest⟩ := hks
    unfold kidsInsert
    by_cases hlt : dq < d
    · rw [if_pos hlt]
      exact ⟨hs, hp, ht, hpt, hrest⟩
    · rw [if_neg hlt]
      exact ⟨ht, hpt, EncodesKids_insert_enc rest hrest hs hp⟩

/-- The replant lemma: after the arena update that fills the free slot
of the insertion-point node and grows the fresh chain, the arena encodes
the grafted tree. -/
theorem Encodes_graft {st st3 : TrieSt} (hcap : st3.capacity = st.capacity)
    {sub : CT} {dq : Nat} :
    ∀ (q path : List Nat) (t : CT) (i2 : Nat) (ks2 : CTKids),
    Encodes st path t →
    ctAt t q = some (CT.node i2 ks2) → kidsFind ks2 dq = none → dq < st.capacity →
    (ctIds t).Nodup →
    (∀ j ∈ ctIds t, j ≠ i2 → getN st3 j = getN st j) →
    (∃ r2, getN st i2 = some r2 ∧ getN st3 i2 = some
      { r2 with
        numChildren := r2.numChildren + 1,
        children := r2.children.set dq (some (CT.idOf sub)) }) →
    (∀ p2 : List Nat, p2 ≠ [] → Encodes st3 p2 sub) →
    (∃ rs, getN st3 (CT.idOf sub) = some rs ∧ rs.parent = some i2) →
    Encodes st3 path (ctGraft sub dq q t)
  | [], path, .leaf i f, i2, ks2, henc, hat, _, _, _, _, _, _, _ => by
    simp only [ctAt, Option.some_inj] at hat
    exact absurd hat (by intro h; cases h)
  | [], path, .node i ks, i2, ks2, henc, hat, hfind, hdqB, hnd, hframe, hrec2, hsub,
      hspar => by
    simp only [ctAt, Option.some_inj] at hat
    injection hat with h1 h2
    subst h1
    subst h2
    obtain ⟨r, hr, hleaf, hhd, htl, hroot, hlen, hcount, hslots, hks⟩ := henc
    obtain ⟨r2, hr2, hr2new⟩ := hrec2
    rw [hr] at hr2
    injection hr2 with hr2
    subst hr2
    show Encodes st3 path (CT.node i (kidsInsert dq sub ks))
    refine ⟨_, hr2new, hleaf, hhd, htl, hroot, ?_, ?_, ?_, ?_⟩
    · show (r.children.set dq (some (CT.idOf sub))).length = st3.capacity
      rw [List.length_set, hlen, hcap]
    · show r.numChildren + 1 = (kidsCount (kidsInsert dq sub ks) : Int)
      rw [kidsCount_insert, hcount]
      push_cast
      ring
    · intro j hj
      rw [hcap] at hj
      by_cases hjdq : j = dq
      · rw [hjdq]
        rw [List.getElem?_set_self (by rw [hlen]; exact hdqB)]
        unfold kidsLookup
        rw [kidsFind_insert dq sub ks dq hfind, if_pos rfl]
        rfl
      · rw [List.getElem?_set_ne (Ne.symm hjdq), hslots j hj]
        unfold kidsLookup
        rw [kidsFind_insert dq sub ks j hfind, if_neg hjdq]
    · refine EncodesKids_insert_enc ks ?_ (hsub _ (by simp)) hspar
      refine EncodesKids_frame hcap i path ks hks ?_
      intro j hj
      refine hframe j (by simp [ctIds, hj]) ?_
      intro hji2
      have hndc : (ctIds (CT.node i ks)).Nodup := hnd
      simp only [ctIds, List.nodup_cons] at hndc
      exact hndc.1 (by rw [← hji2]; exact hj)
  | d :: ds, path, .leaf i f, i2, ks2, henc, hat, _, _, _, _, _, _, _ => by
    simp [ctAt] at hat
  | d :: ds, path, .node i ks, i2, ks2, henc, hat, hfind, hdqB, hnd, hframe, hrec2, hsub,
      hspar => by
    unfold ctAt at hat
    revert hat
    cases hf0 : kidsFind ks d with
    | none => intro hat; exact absurd hat (by simp)
    | some t00 =>
      intro hat
      obtain ⟨r, hr, hleaf, hhd, htl, hroot, hlen, hcount, hslots, hks⟩ := henc
      have hndc : (ctIds (CT.node i ks)).Nodup := hnd
      simp only [ctIds, List.nodup_cons] at hndc
      have hi2t00 : i2 ∈ ctIds t00 :=
        ctAt_ids_subset ds t00 (CT.node i2 ks2) hat i2 (by simp [ctIds])
      have hi2ks : i2 ∈ ctKidsIds ks := (kidsFind_ids_sublist hf0).subset hi2t00
      have hii2 : i ≠ i2 := by
        intro h
        exact hndc.1 (by rw [h]; exact hi2ks)
      have hg : Encodes st3 (path ++ [d]) (ctGraft sub dq ds t00) :=
        Encodes_graft hcap ds (path ++ [d]) t00 i2 ks2
          (EncodesKids_find hks hf0) hat hfind hdqB
          (hndc.2.sublist (kidsFind_ids_sublist hf0))
          (fun j hj hji2 => hframe j (by
              simp only [ctIds, List.mem_cons]
              exact Or.inr ((kidsFind_ids_sublist hf0).subset hj)) hji2)
          hrec2 hsub hspar
      have hgpar : ∃ rs, getN st3 (CT.idOf (ctGraft sub dq ds t00)) = some rs ∧
          rs.parent = some i := by
        rw [ctGraft_idOf]
        obtain ⟨rc, hrc, hrcp⟩ := EncodesKids_find_parent hks hf0
        by_cases hid : CT.idOf t00 = i2
        · obtain ⟨r2, hr2, hr2new⟩ := hrec2
          rw [hid] at hrc
          rw [hrc] at hr2
          injection hr2 with hr2
          subst hr2
          refine ⟨_, by rw [hid]; exact hr2new, ?_⟩
          exact hrcp
        · refine ⟨rc, ?_, hrcp⟩
          rw [hframe (CT.idOf t00) (by
            simp only [ctIds, List.mem_cons]
            exact Or.inr ((kidsFind_ids_sublist hf0).subset (idOf_mem_ctIds t00))) hid]
          exact hrc
      rw [ctGraft_cons_eq hf0]
      refine ⟨r, ?_, hleaf, hhd, htl, hroot, ?_, ?_, ?_, ?_⟩
      · rw [hframe i (by simp [ctIds]) hii2]
        exact hr
      · rw [hlen, hcap]
      · rw [kidsCount_replace]
        exact hcount
      · intro j hj
        rw [hcap] at hj
        rw [hslots j hj]
        unfold kidsLookup
        rw [kidsFind_replace d (ctGraft sub dq ds t00) ks j hf0]
        by_cases hjd : j = d
        · subst hjd
          rw [if_pos rfl, hf0]
          simp [ctGraft_idOf]
        · rw [if_neg hjd]
      · exact EncodesKids_replace_enc hcap ks t00 hks hf0 hndc.2 hi2t00
          (fun j hj hji2 => hframe j (by
            simp only [ctIds, List.mem_cons]
            exact Or.inr hj) hji2) hg hgpar
end GoTrie

theorem kidsFind_none_of_not_mem : ∀ {ks : CTKids} {j : Nat},
    j ∉ kidsDigits ks → kidsFind ks j = none
  | .nil, j, _ => rfl
  | .cons d t rest, j, h => by
    simp only [kidsDigits, List.mem_cons, not_or] at h
    show (if j = d then some t else kidsFind rest j) = none
    rw [if_neg h.1]
    exact kidsFind_none_of_not_mem h.2

theorem kidsDigits_mem_find : ∀ {ks : CTKids} {j : Nat},
    j ∈ kidsDigits ks → ∃ t2, kidsFind ks j = some t2
  | .nil, j, h => by simp [kidsDigits] at h
  | .cons d t rest, j, h => by
    show ∃ t2, (if j = d then some t else kidsFind rest j) = some t2
    by_cases hjd : j = d
    · exact ⟨t, by rw [if_pos hjd]⟩
    · simp only [kidsDigits, List.mem_cons] at h
      rcases h with h | h
      · exact absurd h hjd
      · obtain ⟨t2, ht2⟩ := kidsDigits_mem_find h
        exact ⟨t2, by rw [if_neg hjd]; exact ht2⟩

theorem scanDown_eq_none_of {ks : CTKids} :
    ∀ {j : Nat}, (∀ d2, d2 ≤ j → kidsFind ks d2 = none) → scanDown ks j = none := by
  intro j
  induction j with
  | zero =>
    intro h
    unfold scanDown
    rw [h 0 (Nat.le_refl 0)]
    rfl
  | succ j2 ih =>
    intro h
    unfold scanDown
    rw [h (j2 + 1) (Nat.le_refl _)]
    exact ih (fun d2 hd2 => h d2 (by omega))

theorem scanDown_eq_some_of {ks : CTKids} {d2 : Nat} {t2 : CT}
    (hf : kidsFind ks d2 = some t2) :
    ∀ {j : Nat}, d2 ≤ j → (∀ d3, d2 < d3 → d3 ≤ j → kidsFind ks d3 = none) →
      scanDown ks j = some (d2, t2) := by
  intro j
  induction j with
  | zero =>
    intro hle _
    have : d2 = 0 := by omega
    subst this
    unfold scanDown
    rw [hf]
    rfl
  | succ j2 ih =>
    intro hle hmax
    unfold scanDown
    by_cases heq : d2 = j2 + 1
    · subst heq
      rw [hf]
    · rw [hmax (j2 + 1) (by omega) (Nat.le_refl _)]
      exact ih (by omega) (fun d3 h1 h2 => hmax d3 h1 (by omega))

/-- Stepping one digit off the end of a located path. -/
theorem ctAt_snoc : ∀ (q : List Nat) (t : CT) (d : Nat) {u : CT},
    ctAt t (q ++ [d]) = some u →
    ∃ i3 ks3, ctAt t q = some (CT.node i3 ks3) ∧ kidsFind ks3 d = some u
  | [], .leaf i f, d, u, hat => by simp [ctAt] at hat
  | [], .node i ks, d, u, hat => by
    simp only [List.nil_append] at hat
    unfold ctAt at hat
    revert hat
    cases hfind : kidsFind ks d with
    | none => intro hat; exact absurd hat (by simp)
    | some t2 =>
      intro hat
      simp only [ctAt, Option.some_inj] at hat
      subst hat
      exact ⟨i, ks, rfl, hfind⟩
  | d0 :: q, .leaf i f, d, u, hat => by simp [ctAt] at hat
  | d0 :: q, .node i ks, d, u, hat => by
    simp only [List.cons_append] at hat
    unfold ctAt at hat
    revert hat
    cases hfind : kidsFind ks d0 with
    | none => intro hat; exact absurd hat (by simp)
    | some t0 =>
      intro hat
      obtain ⟨i3, ks3, h1, h2⟩ := ctAt_snoc q t0 d hat
      refine ⟨i3, ks3, ?_, h2⟩
      unfold ctAt
      rw [hfind]
      exact h1

theorem ctIds_ne_nil : ∀ t : CT, ctIds t ≠ []
  | .leaf i f => by simp [ctIds]
  | .node i ks => by simp [ctIds]

/-- Each step of a located path passes a distinct node, so the path is
shorter than the id list. -/
theorem ctAt_ids_length : ∀ (q : List Nat) (t : CT) {u : CT},
    ctAt t q = some u → (ctIds u).length + q.length ≤ (ctIds t).length
  | [], t, u, hat => by
    simp only [ctAt, Option.some_inj] at hat
    subst hat
    simp
  | d :: q, .leaf i f, u, hat => by simp [ctAt] at hat
  | d :: q, .node i ks, u, hat => by
    unfold ctAt at hat
    revert hat
    cases hfind : kidsFind ks d with
    | none => intro hat; exact absurd hat (by simp)
    | some t0 =>
      intro hat
      have h1 := ctAt_ids_length q t0 hat
      have h2 : (ctIds t0).length ≤ (ctKidsIds ks).length :=
        (kidsFind_ids_sublist hfind).length_le
      have h3 : 1 ≤ (ctIds t0).length := by
        cases hx : ctIds t0 with
        | nil => exact absurd hx (ctIds_ne_nil t0)
        | cons a l => simp
      show (ctIds u).length + (q.length + 1) ≤ (i :: ctKidsIds ks).length
      simp only [List.length_cons]
      omega

theorem forkBelow_cons_eq {d : Nat} {ds : List Nat} {i : Nat} {ks : CTKids} {t0 : CT}
    (hfind : kidsFind ks d = some t0) :
    forkBelow (d :: ds) (CT.node i ks) =
      (match forkBelow ds t0 with
        | some ft => some ft
        | none => (scanBelow ks d).map Prod.snd) := by
  conv_lhs => unfold forkBelow
  split
  next h =>
    rw [hfind] at h
    exact absurd h (by simp)
  next t2 h =>
    rw [hfind] at h
    injection h with h
    subst h
    rfl

/-- A fork reported by `forkBelow` sits one digit off a located node. -/
theorem forkBelow_at : ∀ (q : List Nat) (t : CT) {ft : CT}, forkBelow q t = some ft →
    ∃ (fq : List Nat) (i3 : Nat) (ks3 : CTKids) (d3 : Nat),
      ctAt t fq = some (CT.node i3 ks3) ∧ kidsFind ks3 d3 = some ft ∧
      ctAt t (fq ++ [d3]) = some ft
  | [], t, ft, h => by simp [forkBelow] at h
  | d :: ds, .leaf i f, ft, h => by simp [forkBelow] at h
  | d :: ds, .node i ks, ft, h => by
    revert h
    cases hfind : kidsFind ks d with
    | none =>
      intro h
      unfold forkBelow at h
      rw [hfind] at h
      simp at h
    | some t0 =>
      intro h
      rw [forkBelow_cons_eq hfind] at h
      revert h
      cases hfb : forkBelow ds t0 with
      | some ft2 =>
        intro h
        have h2 : some ft2 = some ft := h
        injection h2 with h2
        subst h2
        obtain ⟨fq, i3, ks3, d3, h1, h2, h3⟩ := forkBelow_at ds t0 hfb
        refine ⟨d :: fq, i3, ks3, d3, ?_, h2, ?_⟩
        · unfold ctAt
          rw [hfind]
          exact h1
        · show ctAt (CT.node i ks) ((d :: fq) ++ [d3]) = _
          simp only [List.cons_append]
          unfold ctAt
          rw [hfind]
          exact h3
      | none =>
        intro h
        have h2 : (scanBelow ks d).map Prod.snd = some ft := h
        cases hd : d with
        | zero =>
          rw [hd] at h2
          simp [scanBelow] at h2
        | succ dd =>
          rw [hd] at h2
          revert h2
          cases hsd : scanDown ks dd with
          | none => intro h2; simp [scanBelow, hsd] at h2
          | some pr =>
            intro h2
            obtain ⟨dstar, tstar⟩ := pr
            simp only [scanBelow, hsd, Option.map_some', Option.some_inj] at h2
            obtain ⟨hfindp, -, -⟩ := scanDown_some hsd
            have hfindp2 : kidsFind ks dstar = some tstar := hfindp
    
            refine ⟨[], i, ks, dstar, rfl, ?_, ?_⟩
            · rw [hfindp2, h2]
            · simp only [List.nil_append]
              have hst : ctAt (CT.node i ks) [dstar] = some tstar := by
                unfold ctAt
                rw [hfindp2]
                cases tstar <;> rfl
              rw [hst, h2]

theorem kidsWF_digits_lt {B : Nat} {p : List Nat} :
    ∀ {ks : CTKids}, kidsWF B p ks → ∀ d ∈ kidsDigits ks, d < B
  | .nil, _, d, hd => by simp [kidsDigits] at hd
  | .cons d2 t rest, hwf, d, hd => by
    simp only [kidsDigits, List.mem_cons] at hd
    rcases hd with rfl | hd
    · exact hwf.1
    · exact kidsWF_digits_lt hwf.2.2.1 d hd

/-- On a sorted non-empty kid list whose digits fit the alphabet, the
downward scan from the top slot finds the kid holding the last stored
pairs. -/
theorem scanDown_last_pairs {B : Nat} {p : List Nat} {ks : CTKids} {d2 : Nat} {t2 : CT}
    (hwf : kidsWF B p ks) (hs : scanDown ks (B - 1) = some (d2, t2)) (hB : 0 < B) :
    kidsFind ks d2 = some t2 ∧ ctPairs t2 ≠ [] ∧
      (ctKidsPairs ks).getLast? = (ctPairs t2).getLast? := by
  obtain ⟨hfind, hle, hmax⟩ := scanDown_some hs
  have hne2 : ctPairs t2 ≠ [] :=
    ctPairs_ne_nil (p ++ [d2]) t2 (kidsWF_find hwf hfind).1 (by simp)
  obtain ⟨pre, post, h1, -, -, h4⟩ := kids_split_at hwf hfind t2
  have hpost : post = [] := by
    rw [List.eq_nil_iff_forall_not_mem]
    intro pr hpr
    obtain ⟨d3, ta, hd3, hmem3, -⟩ := h4 pr hpr
    have hd3B : d3 < B := kidsWF_digits_lt hwf d3 hmem3
    obtain ⟨t3, ht3⟩ := kidsDigits_mem_find hmem3
    rw [hmax d3 hd3 (by omega)] at ht3
    exact absurd ht3 (by simp)
  refine ⟨hfind, hne2, ?_⟩
  rw [h1, hpost, List.append_nil]
  exact List.getLast?_append_of_ne_nil pre hne2

theorem kids_scanDown_top {B : Nat} {p : List Nat} :
    ∀ {ks : CTKids}, kidsWF B p ks → ks ≠ .nil →
      ∃ pr, scanDown ks (B - 1) = some pr := by
  intro ks hwf hne
  cases hs : scanDown ks (B - 1) with
  | some pr => exact ⟨pr, rfl⟩
  | none =>
    exfalso
    cases ks with
    | nil => exact hne rfl
    | cons d t rest =>
      have hdB : d < B := hwf.1
      have := scanDown_none hs d (by omega)
      revert this
      show ¬ ((if d = d then some t else kidsFind rest d) = none)
      rw [if_pos rfl]
      simp

namespace GoTrie

/-- `descendToIndex` at an encoded internal node and an in-range index:
move to the child if the slot is occupied, report `childNotFound`
otherwise. -/
theorem descendToIndex_spec {st : TrieSt} {path : List Nat} {i : Nat} {ks : CTKids}
    (henc : Encodes st path (CT.node i ks)) {d : Nat} (hd : d < st.capacity) (bp m : Int) :
    descendToIndex st ⟨some i, bp, m⟩ (d : Int) =
      some (match kidsFind ks d with
        | none => (childNotFound, ⟨some i, bp, m⟩)
        | some t2 => ((d : Int), ⟨some (CT.idOf t2), bp + 1, m⟩)) := by
  obtain ⟨r, hr, -, -, -, -, hlen, -, hslots, -⟩ := henc
  unfold descendToIndex childWithIndexOf checkBoundsN
  simp only [hr, Option.bind_eq_bind, Option.some_bind]
  rw [if_neg (by rw [hlen]; omega)]
  rw [Int.toNat_ofNat]
  rw [hslots d hd]
  simp only [Option.bind_eq_bind, Option.some_bind]
  unfold kidsLookup
  cases hfind : kidsFind ks d with
  | none => simp
  | some t2 => simp [childNotFound]

theorem leftForkScan_neg {st : TrieSt} (s : SCtx) (ii : Int) (hii : ii < 0) (n : Nat) :
    leftForkScan st s ii (n + 1) = some none := by
  unfold leftForkScan
  rw [if_pos hii]

/-- The sibling scan realizes the pure downward scan. -/
theorem leftForkScan_go {st : TrieSt} {path : List Nat} {i : Nat} {ks : CTKids}
    (henc : Encodes st path (CT.node i ks)) (bp m : Int) :
    ∀ (j : Nat), j < st.capacity → ∀ (fuel : Nat), j + 2 ≤ fuel →
    leftForkScan st ⟨some i, bp, m⟩ (j : Int) fuel =
      some ((scanDown ks j).map (fun pr => ⟨some (CT.idOf pr.2), bp + 1, m⟩)) := by
  intro j
  induction j with
  | zero =>
    intro hj fuel hfuel
    obtain ⟨f2, rfl⟩ : ∃ f2, fuel = f2 + 1 := ⟨fuel - 1, by omega⟩
    unfold leftForkScan
    rw [if_neg (by omega)]
    rw [descendToIndex_spec henc hj bp m]
    cases hfind : kidsFind ks 0 with
    | none =>
      simp only [Option.bind_eq_bind, Option.some_bind]
      rw [if_pos trivial]
      obtain ⟨f3, rfl⟩ : ∃ f3, f2 = f3 + 1 := ⟨f2 - 1, by omega⟩
      rw [leftForkScan_neg _ _ (by omega) f3]
      unfold scanDown
      rw [hfind]
      rfl
    | some t2 =>
      simp only [Option.bind_eq_bind, Option.some_bind]
      rw [if_neg (by unfold childNotFound; omega)]
      unfold scanDown
      rw [hfind]
      rfl
  | succ j2 ih =>
    intro hj fuel hfuel
    obtain ⟨f2, rfl⟩ : ∃ f2, fuel = f2 + 1 := ⟨fuel - 1, by omega⟩
    unfold leftForkScan
    rw [if_neg (by omega)]
    rw [descendToIndex_spec henc hj bp m]
    cases hfind : kidsFind ks (j2 + 1) with
    | none =>
      simp only [Option.bind_eq_bind, Option.some_bind]
      rw [if_pos trivial]
      have hcast : ((j2 + 1 : Nat) : Int) - 1 = ((j2 : Nat) : Int) := by push_cast; ring
      have hsd2 : scanDown ks (j2 + 1) = scanDown ks j2 := by
        conv_lhs => unfold scanDown
        rw [hfind]
      rw [hcast, ih (by omega) f2 (by omega), hsd2]
    | some t2 =>
      simp only [Option.bind_eq_bind, Option.some_bind]
      rw [if_neg (by unfold childNotFound; omega)]
      unfold scanDown
      rw [hfind]
      rfl

/-- The max-descent slot scan lands on the scan result. -/
theorem maxDescScan_spec {st : TrieSt} {path : List Nat} {i : Nat} {ks : CTKids}
    (henc : Encodes st path (CT.node i ks)) (bp m : Int) :
    ∀ (j : Nat), j < st.capacity → ∀ {d2 : Nat} {t2 : CT},
      scanDown ks j = some (d2, t2) → ∀ (fuel : Nat), j + 2 ≤ fuel →
    maxDescScan st ⟨some i, bp, m⟩ (j : Int) fuel =
      some ⟨some (CT.idOf t2), bp + 1, m⟩ := by
  intro j
  induction j with
  | zero =>
    intro hj d2 t2 hs fuel hfuel
    obtain ⟨f2, rfl⟩ : ∃ f2, fuel = f2 + 1 := ⟨fuel - 1, by omega⟩
    unfold maxDescScan
    rw [descendToIndex_spec henc hj bp m]
    unfold scanDown at hs
    cases hfind : kidsFind ks 0 with
    | none =>
      rw [hfind] at hs
      simp at hs
    | some t3 =>
      rw [hfind] at hs
      simp only [Option.map_some', Option.some_inj, Prod.mk.injEq] at hs
      obtain ⟨-, rfl⟩ := hs
      simp only [Option.bind_eq_bind, Option.some_bind]
      rw [if_neg (by unfold childNotFound; omega)]
  | succ j2 ih =>
    intro hj d2 t2 hs fuel hfuel
    obtain ⟨f2, rfl⟩ : ∃ f2, fuel = f2 + 1 := ⟨fuel - 1, by omega⟩
    unfold maxDescScan
    rw [descendToIndex_spec henc hj bp m]
    unfold scanDown at hs
    cases hfind : kidsFind ks (j2 + 1) with
    | none =>
      rw [hfind] at hs
      simp only [Option.bind_eq_bind, Option.some_bind]
      rw [if_pos trivial]
      have hcast : ((j2 + 1 : Nat) : Int) - 1 = ((j2 : Nat) : Int) := by push_cast; ring
      rw [hcast]
      exact ih (by omega) hs f2 (by omega)
    | some t3 =>
      rw [hfind] at hs
      simp only [Option.some_inj, Prod.mk.injEq] at hs
      obtain ⟨-, rfl⟩ := hs
      simp only [Option.bind_eq_bind, Option.some_bind]
      rw [if_neg (by unfold childNotFound; omega)]

/-- `moveToMaxDescendant` reaches the leaf holding the last pair of the
subtree. -/
theorem moveToMaxDescendant_spec {st : TrieSt} (hB : 0 < st.capacity) :
    ∀ (fuel : Nat) (t : CT) (fpath : List Nat) (bp m : Int),
      Encodes st fpath t → ctWF st.capacity fpath t → fpath ≠ [] →
      (ctIds t).length < fuel →
      ∃ bp2 c f, (ctPairs t).getLast? = some (c, f) ∧
        moveToMaxDescendant st ⟨some (CT.idOf t), bp, m⟩ fuel = some ⟨some c, bp2, m⟩ := by
  intro fuel
  induction fuel with
  | zero =>
    intro t fpath bp m henc hwf hne hlen
    omega
  | succ n ih =>
    intro t fpath bp m henc hwf hne hlen
    cases t with
    | leaf c f =>
      refine ⟨bp, c, f, rfl, ?_⟩
      unfold moveToMaxDescendant
      simp only [CT.idOf]
      rw [if_pos (atLeaf_leaf henc bp m)]
    | node i ks =>
      have hksne : ks ≠ .nil := by
        rcases hwf.1 with h | h
        · exact absurd h hne
        · exact h
      obtain ⟨⟨d2, t2⟩, hs⟩ := kids_scanDown_top hwf.2 hksne
      obtain ⟨hfind, hne2, hlast⟩ := scanDown_last_pairs hwf.2 hs hB
      have henc2 : Encodes st (fpath ++ [d2]) t2 :=
        EncodesKids_find henc.choose_spec.2.2.2.2.2.2.2.2 hfind
      have hwf2 := (kidsWF_find hwf.2 hfind).1
      have hlen2 : (ctIds t2).length < n := by
        have hsub : (ctIds t2).length ≤ (ctKidsIds ks).length :=
          (kidsFind_ids_sublist hfind).length_le
        have : (ctIds (CT.node i ks)).length = (ctKidsIds ks).length + 1 := by
          simp [ctIds]
        omega
      obtain ⟨bp2, c, f, hget, hrun⟩ := ih t2 (fpath ++ [d2]) (bp + 1) m henc2 hwf2
        (by simp) hlen2
      refine ⟨bp2, c, f, ?_, ?_⟩
      · show (ctKidsPairs ks).getLast? = _
        rw [hlast]
        exact hget
      · unfold moveToMaxDescendant
        simp only [CT.idOf]
        rw [if_neg (by rw [atLeaf_node henc bp m]; simp)]
        have hcast : (st.capacity : Int) - 1 = ((st.capacity - 1 : Nat) : Int) := by
          omega
        rw [hcast]
        rw [maxDescScan_spec henc bp m (st.capacity - 1) (by omega) hs
          (st.capacity + 2) (by omega)]
        simp only [Option.bind_eq_bind, Option.some_bind]
        exact hrun

end GoTrie

theorem ctAt_prefix : ∀ (a b : List Nat) (t : CT) {u : CT},
    ctAt t (a ++ b) = some u → ∃ v, ctAt t a = some v ∧ ctAt v b = some u
  | [], b, t, u, h => ⟨t, by cases t <;> rfl, by simpa using h⟩
  | d :: a, b, .leaf i f, u, h => by simp [ctAt] at h
  | d :: a, b, .node i ks, u, h => by
    simp only [List.cons_append] at h
    unfold ctAt at h
    revert h
    cases hf : kidsFind ks d with
    | none => intro h; exact absurd h (by simp)
    | some t0 =>
      intro h
      obtain ⟨v, h1, h2⟩ := ctAt_prefix a b t0 h
      refine ⟨v, ?_, h2⟩
      unfold ctAt
      rw [hf]
      exact h1

theorem take_succ_getD {l : List Nat} {j : Nat} (hj : j < l.length) :
    l.take (j + 1) = l.take j ++ [l.getD j 0] := by
  rw [List.take_succ, List.getElem?_eq_getElem hj, List.getD_eq_getElem l 0 hj]
  rfl

/-- Extending the digit path by one digit: the deepest-fork scan first
consults the new level and falls back to the shorter path. -/
theorem forkBelow_snoc : ∀ (q : List Nat) (t : CT) (d : Nat) {i2 : Nat} {ks2 : CTKids}
    {tnext : CT}, ctAt t q = some (CT.node i2 ks2) → kidsFind ks2 d = some tnext →
    forkBelow (q ++ [d]) t =
      (match (scanBelow ks2 d).map Prod.snd with
        | some ft => some ft
        | none => forkBelow q t)
  | [], t, d, i2, ks2, tnext, hat, hnext => by
    simp only [ctAt, Option.some_inj] at hat
    subst hat
    simp only [List.nil_append]
    rw [forkBelow_cons_eq hnext]
    show (match forkBelow [] tnext with
      | some ft => some ft
      | none => (scanBelow ks2 d).map Prod.snd) = _
    show ((scanBelow ks2 d).map Prod.snd) = _
    cases (scanBelow ks2 d).map Prod.snd with
    | none => rfl
    | some ft => rfl
  | d0 :: q, .leaf i f, d, i2, ks2, tnext, hat, hnext => by simp [ctAt] at hat
  | d0 :: q, .node i ks, d, i2, ks2, tnext, hat, hnext => by
    unfold ctAt at hat
    revert hat
    cases hf0 : kidsFind ks d0 with
    | none => intro hat; exact absurd hat (by simp)
    | some t0 =>
      intro hat
      have ih := forkBelow_snoc q t0 d hat hnext
      simp only [List.cons_append]
      rw [forkBelow_cons_eq hf0, ih, forkBelow_cons_eq hf0]
      cases hsb : (scanBelow ks2 d).map Prod.snd with
      | some ft => rfl
      | none => rfl

/-- The pairs strictly below an occupied digit: empty when no smaller
slot is occupied, otherwise ending with the last pair of the greatest
occupied smaller slot (the slot `scanBelow` finds). -/
theorem kids_below_split {B : Nat} {p : List Nat} :
    ∀ {ks : CTKids} {d0 : Nat} {t0 : CT}, kidsWF B p ks → kidsFind ks d0 = some t0 →
    ∃ pre post, ctKidsPairs ks = pre ++ ctPairs t0 ++ post ∧
      (match scanBelow ks d0 with
        | none => pre = []
        | some pr2 => pre ≠ [] ∧ pre.getLast? = (ctPairs pr2.2).getLast?)
  | .nil, d0, t0, _, hfind => by simp [kidsFind] at hfind
  | .cons d t rest, d0, t0, hwf, hfind => by
    obtain ⟨hdB, hwt, hwr, hlt⟩ := hwf
    unfold kidsFind at hfind
    by_cases hd0d : d0 = d
    · rw [if_pos hd0d] at hfind
      injection hfind with hfind
      subst hfind
      subst hd0d
      refine ⟨[], ctKidsPairs rest, by simp [ctKidsPairs], ?_⟩
      have hsb : ∀ j : Nat, j ≤ d0 → scanBelow (CTKids.cons d0 t rest) j = none := by
        intro j hj
        cases j with
        | zero => rfl
        | succ dd =>
          simp only [scanBelow]
          apply scanDown_eq_none_of
          intro d2 hd2
          show (if d2 = d0 then some t else kidsFind rest d2) = none
          rw [if_neg (by omega)]
          apply kidsFind_none_of_not_mem
          intro hmem
          have := hlt d2 hmem
          omega
      simp only [hsb d0 (Nat.le_refl d0)]
    · rw [if_neg hd0d] at hfind
      obtain ⟨pre2, post2, h1, hcond2⟩ := kids_below_split hwr hfind
      have hdd0 : d < d0 := hlt d0 (kidsFind_digit_mem hfind)
      obtain ⟨d0p, rfl⟩ : ∃ k, d0 = k + 1 := ⟨d0 - 1, by omega⟩
      refine ⟨ctPairs t ++ pre2, post2, ?_, ?_⟩
      · show ctPairs t ++ ctKidsPairs rest = _
        rw [h1]
        simp [List.append_assoc]
      · have hre : scanBelow rest (d0p + 1) = scanDown rest d0p := by simp only [scanBelow]
        rw [hre] at hcond2
        cases hs2 : scanDown rest d0p with
        | some pr2 =>
          obtain ⟨d2, t2⟩ := pr2
          simp only [hs2] at hcond2
          obtain ⟨hne2, hlast2⟩ := hcond2
          obtain ⟨hf2, hle2, hmax2⟩ := scanDown_some hs2
          have hd2gt : d < d2 := hlt d2 (kidsFind_digit_mem hf2)
          have hsk : scanBelow (CTKids.cons d t rest) (d0p + 1) = some (d2, t2) := by
            simp only [scanBelow]
            apply scanDown_eq_some_of
            · show (if d2 = d then some t else kidsFind rest d2) = some t2
              rw [if_neg (by omega)]
              exact hf2
            · exact hle2
            · intro d3 h3a h3b
              show (if d3 = d then some t else kidsFind rest d3) = none
              rw [if_neg (by omega)]
              exact hmax2 d3 h3a h3b
          simp only [hsk]
          constructor
          · intro hcon
            exact hne2 (List.append_eq_nil.mp hcon).2
          · rw [List.getLast?_append_of_ne_nil _ hne2]
            exact hlast2
        | none =>
          simp only [hs2] at hcond2
          subst hcond2
          have hsk : scanBelow (CTKids.cons d t rest) (d0p + 1) = some (d, t) := by
            simp only [scanBelow]
            apply scanDown_eq_some_of
            · show (if d = d then some t else kidsFind rest d) = some t
              rw [if_pos rfl]
            · omega
            · intro d3 h3a h3b
              show (if d3 = d then some t else kidsFind rest d3) = none
              rw [if_neg (by omega)]
              exact scanDown_none hs2 d3 h3b
          simp only [hsk]
          refine ⟨?_, by rw [List.append_nil]⟩
          rw [List.append_nil]
          exact ctPairs_ne_nil (p ++ [d]) t hwt (by simp)

/-- Splitting the stored pairs at a leaf's digit path: everything before
the leaf's pair ends with the last pair of the deepest left fork, and is
empty exactly when there is no left fork. -/
theorem forkBelow_split {B : Nat} :
    ∀ (ds p : List Nat) (t : CT) (lf : Nat) (f0 : String),
    ctWF B p t → ctAt t ds = some (CT.leaf lf f0) →
    ∃ esL esR, ctPairs t = esL ++ (lf, f0) :: esR ∧
      (match forkBelow ds t with
        | none => esL = []
        | some ft => esL ≠ [] ∧ esL.getLast? = (ctPairs ft).getLast?)
  | [], p, t, lf, f0, hwf, hat => by
    simp only [ctAt, Option.some_inj] at hat
    subst hat
    exact ⟨[], [], rfl, by simp [forkBelow]⟩
  | d :: ds, p, .leaf i f, lf, f0, hwf, hat => by simp [ctAt] at hat
  | d :: ds, p, .node i ks, lf, f0, hwf, hat => by
    unfold ctAt at hat
    revert hat
    cases hfind : kidsFind ks d with
    | none => intro hat; exact absurd hat (by simp)
    | some t0 =>
      intro hat
      have hwt0 := (kidsWF_find hwf.2 hfind).1
      obtain ⟨esL2, esR2, hsplit2, hcond2⟩ := forkBelow_split ds (p ++ [d]) t0 lf f0 hwt0 hat
      obtain ⟨pre, post, h1, hbelow⟩ := kids_below_split hwf.2 hfind
      refine ⟨pre ++ esL2, esR2 ++ post, ?_, ?_⟩
      · show ctKidsPairs ks = _
        rw [h1, hsplit2]
        simp [List.append_assoc]
      · rw [forkBelow_cons_eq hfind]
        cases hfb : forkBelow ds t0 with
        | some ft =>
          simp only [hfb] at hcond2 ⊢
          obtain ⟨hne2, hlast2⟩ := hcond2
          constructor
          · intro hcon
            exact hne2 (List.append_eq_nil.mp hcon).2
          · rw [List.getLast?_append_of_ne_nil _ hne2]
            exact hlast2
        | none =>
          simp only [hfb] at hcond2 ⊢
          subst hcond2
          cases hsb : scanBelow ks d with
          | none =>
            simp only [hsb, Option.map_none'] at hbelow ⊢
            rw [List.append_nil]
            exact hbelow
          | some pr2 =>
            obtain ⟨d2, t2⟩ := pr2
            simp only [hsb, Option.map_some'] at hbelow ⊢
            obtain ⟨hneP, hlastP⟩ := hbelow
            constructor
            · rw [List.append_nil]
              exact hneP
            · rw [List.append_nil]
              exact hlastP

theorem getD_drop0 (l : List Nat) (n j : Nat) : (l.drop n).getD j 0 = l.getD (n + j) 0 := by
  simp [List.getD_eq_getElem?_getD, List.getElem?_drop]

/-- Descending through the graft lands in the grafted subtree. -/
theorem ctAt_graft {sub : CT} {dq : Nat} :
    ∀ (q : List Nat) (t : CT) (i2 : Nat) (ks2 : CTKids) (ds2 : List Nat),
    ctAt t q = some (CT.node i2 ks2) → kidsFind ks2 dq = none →
    ctAt (ctGraft sub dq q t) (q ++ dq :: ds2) = ctAt sub ds2
  | [], t, i2, ks2, ds2, hat, hfind => by
    simp only [ctAt, Option.some_inj] at hat
    subst hat
    show ctAt (CT.node i2 (kidsInsert dq sub ks2)) (dq :: ds2) = _
    conv_lhs => unfold ctAt
    rw [kidsFind_insert dq sub ks2 dq hfind, if_pos rfl]
  | d :: ds, .leaf i f, i2, ks2, ds2, hat, hfind => by simp [ctAt] at hat
  | d :: ds, .node i ks, i2, ks2, ds2, hat, hfind => by
    unfold ctAt at hat
    revert hat
    cases hf0 : kidsFind ks d with
    | none => intro hat; exact absurd hat (by simp)
    | some t0 =>
      intro hat
      have h1 : ctGraft sub dq (d :: ds) (CT.node i ks) =
          CT.node i (kidsReplace d (ctGraft sub dq ds t0) ks) := by
        conv_lhs => unfold ctGraft
        simp only [hf0]
      rw [h1, show (d :: ds) ++ dq :: ds2 = d :: (ds ++ dq :: ds2) from rfl]
      conv_lhs => unfold ctAt
      rw [kidsFind_replace d (ctGraft sub dq ds t0) ks d hf0, if_pos rfl]
      exact ctAt_graft ds t0 i2 ks2 ds2 hat hfind

/-- The chain stores its leaf exactly at its digit list. -/
theorem chainCT_at (leafId : Nat) (f : String) :
    ∀ (n : Nat) (ds : List Nat), ctAt (chainCT leafId f n ds) ds = some (CT.leaf leafId f)
  | n, [] => rfl
  | n, d :: ds => by
    show ctAt (CT.node n (CTKids.cons d (chainCT leafId f (n + 1) ds) CTKids.nil))
      (d :: ds) = _
    conv_lhs => unfold ctAt
    rw [show kidsFind (CTKids.cons d (chainCT leafId f (n + 1) ds) CTKids.nil) d =
        some (chainCT leafId f (n + 1) ds) from by unfold kidsFind; rw [if_pos rfl]]
    exact chainCT_at leafId f (n + 1) ds

/-- Grafting below a node keeps its id and node shape. -/
theorem ctGraft_node (sub : CT) (dq : Nat) :
    ∀ (q : List Nat) (i : Nat) (ks : CTKids),
      ∃ ksG, ctGraft sub dq q (CT.node i ks) = CT.node i ksG
  | [], i, ks => ⟨kidsInsert dq sub ks, rfl⟩
  | d :: ds, i, ks => ⟨_, rfl⟩

theorem ctAt_ids_sublist : ∀ (q : List Nat) (t u : CT),
    ctAt t q = some u → List.Sublist (ctIds u) (ctIds t)
  | [], t, u, hat => by
    simp only [ctAt, Option.some_inj] at hat
    subst hat
    exact List.Sublist.refl _
  | d :: ds, .leaf i f, u, hat => by simp [ctAt] at hat
  | d :: ds, .node i ks, u, hat => by
    unfold ctAt at hat
    revert hat
    cases hfind : kidsFind ks d with
    | none => intro hat; exact absurd hat (by simp)
    | some t0 =>
      intro hat
      have h1 := ctAt_ids_sublist ds t0 u hat
      have h2 := kidsFind_ids_sublist hfind
      exact (h1.trans h2).trans (List.sublist_cons_self i _)

/-- Splitting a list at an element that occurs in neither left part is
unambiguous. -/
theorem append_cons_inj {α : Type} : ∀ {a c : List α} {x : α} {b d : List α},
    a ++ x :: b = c ++ x :: d → x ∉ a → x ∉ c → a = c ∧ b = d
  | [], [], x, b, d, h, _, _ => by
    simp only [List.nil_append, List.cons.injEq] at h
    exact ⟨rfl, h.2⟩
  | [], c0 :: c2, x, b, d, h, hxa, hxc => by
    simp only [List.nil_append, List.cons_append, List.cons.injEq] at h
    exact absurd (by rw [h.1]; exact List.mem_cons_self c0 c2) hxc
  | a0 :: a2, [], x, b, d, h, hxa, hxc => by
    simp only [List.cons_append, List.nil_append, List.cons.injEq] at h
    exact absurd (by rw [← h.1]; exact List.mem_cons_self a0 a2) hxa
  | a0 :: a2, c0 :: c2, x, b, d, h, hxa, hxc => by
    simp only [List.cons_append, List.cons.injEq] at h
    obtain ⟨hac, hrest⟩ := h
    obtain ⟨h1, h2⟩ := append_cons_inj hrest
      (fun hx => hxa (List.mem_cons_of_mem a0 hx))
      (fun hx => hxc (List.mem_cons_of_mem c0 hx))
    exact ⟨by rw [hac, h1], h2⟩

namespace GoTrie

/-- `retraceToLastLeftFork`, launched at the level-`j` node on the
query's digit path, lands on the deepest left fork at or below that
level, or at the root when there is none. -/
theorem retrace_go {st : TrieSt} {e : String} {T : CT} {rid : Nat}
    (hgood : GoodStr st.capacity e) (hB : 0 < st.capacity)
    (henc : Encodes st [] T) (hid : CT.idOf T = rid)
    (hroot : ∃ rr, getN st rid = some rr ∧ rr.parent = none) (m : Int)
    {tfin : CT} (hfull : ctAt T (seqOf e) = some tfin) :
    ∀ (j : Nat), j < (seqOf e).length →
    ∀ (u : Nat) (ksu : CTKids),
      ctAt T ((seqOf e).take j) = some (CT.node u ksu) →
      ∀ (fuel : Nat), j + 1 ≤ fuel →
      ∃ bp2,
        retraceToLastLeftFork st e ⟨some u, (j : Int), m⟩ fuel =
          some ⟨some (match forkBelow ((seqOf e).take (j + 1)) T with
            | some ft => CT.idOf ft
            | none => rid), bp2, m⟩ := by
  intro j
  induction j with
  | zero =>
    intro hjlen u ksu hatj fuel hfuel
    have hencU : Encodes st ((seqOf e).take 0) (CT.node u ksu) := by
      have := ctAt_encodes ((seqOf e).take 0) [] T _ henc hatj
      simpa using this
    obtain ⟨vnext, hv1, -⟩ := ctAt_prefix ((seqOf e).take 1) ((seqOf e).drop 1) T
      (by rw [List.take_append_drop]; exact hfull)
    rw [take_succ_getD hjlen] at hv1
    obtain ⟨i3, ks3, hat3, hnext⟩ := ctAt_snoc _ T _ hv1
    rw [hatj] at hat3
    injection hat3 with hat3
    injection hat3 with hi3 hks3
    subst hi3
    subst hks3
    have hTnode : T = CT.node u ksu := by
      have h0 : ctAt T [] = some T := by cases T <;> rfl
      have : (seqOf e).take 0 = [] := rfl
      rw [this] at hatj
      rw [h0] at hatj
      injection hatj
    have hurid : u = rid := by
      rw [hTnode] at hid
      simpa [CT.idOf] using hid
    subst hurid
    obtain ⟨rr, hrr, hrpar⟩ := hroot
    have hrr2 : st.nodes[u]? = some rr := hrr
    obtain ⟨f2, rfl⟩ : ∃ f2, fuel = f2 + 1 := ⟨fuel - 1, by omega⟩
    unfold retraceToLastLeftFork
    rw [if_neg (by rw [atLeaf_node hencU ((0 : Nat) : Int) m]; simp)]
    rw [stringDigitOf_eq_getD]
    simp only [Option.bind_eq_bind, Option.some_bind]
    rw [take_succ_getD hjlen,
      forkBelow_snoc ((seqOf e).take 0) T ((seqOf e).getD 0 0) hatj hnext]
    cases hdj : (seqOf e).getD 0 0 with
    | zero =>
      have hf2eq : (0 : Nat) + 2 = 1 + 1 := rfl
      rw [hf2eq, leftForkScan_neg _ _ (by omega) 1]
      simp only [Option.some_bind]
      refine ⟨0, ?_⟩
      unfold atRoot
      simp only [hrr2, Option.map_some', Option.bind_eq_bind, Option.some_bind, hrpar,
        Option.isNone_none]
      rw [if_pos trivial]
      simp [scanBelow, forkBelow]
    | succ dj2 =>
      have hdig : dj2 + 1 < st.capacity := by
        have := goodStr_digit_lt hgood hB 0
        omega
      have hcast : ((dj2 + 1 : Nat) : Int) - 1 = ((dj2 : Nat) : Int) := by push_cast; ring
      rw [hcast, leftForkScan_go hencU ((0 : Nat) : Int) m dj2 (by omega) (dj2 + 1 + 2)
        (by omega)]
      simp only [Option.some_bind]
      cases hscan : scanDown ksu dj2 with
      | some pr =>
        refine ⟨((0 : Nat) : Int) + 1, ?_⟩
        simp only [hscan, Option.map_some']
        show some _ = _
        simp [scanBelow, hscan]
      | none =>
        simp only [hscan, Option.map_none']
        refine ⟨0, ?_⟩
        unfold atRoot
        simp only [hrr2, Option.map_some', Option.bind_eq_bind, Option.some_bind, hrpar,
          Option.isNone_none]
        rw [if_pos trivial]
        simp [scanBelow, hscan, forkBelow]
  | succ j2 ih =>
    intro hjlen u ksu hatj fuel hfuel
    have hencU : Encodes st ((seqOf e).take (j2 + 1)) (CT.node u ksu) := by
      have := ctAt_encodes ((seqOf e).take (j2 + 1)) [] T _ henc hatj
      simpa using this
    obtain ⟨vnext, hv1, -⟩ := ctAt_prefix ((seqOf e).take (j2 + 2)) ((seqOf e).drop (j2 + 2))
      T (by rw [List.take_append_drop]; exact hfull)
    rw [take_succ_getD hjlen] at hv1
    obtain ⟨i3, ks3, hat3, hnext⟩ := ctAt_snoc _ T _ hv1
    rw [hatj] at hat3
    injection hat3 with hat3
    injection hat3 with hi3 hks3
    subst hi3
    subst hks3
    -- the parent of the level-(j2+1) node
    have hj2len : j2 < (seqOf e).length := by omega
    obtain ⟨vpar, hvp1, hvp2⟩ := ctAt_prefix ((seqOf e).take j2 ++ [(seqOf e).getD j2 0])
      ((seqOf e).drop (j2 + 1)) T
      (by rw [← take_succ_getD hj2len, List.take_append_drop]; exact hfull)
    obtain ⟨ipar, kspar, hatpar, hfindpar⟩ := ctAt_snoc _ T _ hvp1
    have hvpar : vpar = CT.node u ksu := by
      rw [← take_succ_getD hj2len] at hvp1
      rw [hatj] at hvp1
      injection hvp1 with h
      exact h.symm
    subst hvpar
    have hencPar : Encodes st ((seqOf e).take j2) (CT.node ipar kspar) := by
      have := ctAt_encodes ((seqOf e).take j2) [] T _ henc hatpar
      simpa using this
    obtain ⟨rc, hrc, hrcp⟩ :=
      EncodesKids_find_parent hencPar.choose_spec.2.2.2.2.2.2.2.2 hfindpar
    simp only [CT.idOf] at hrc
    have hrc2 : st.nodes[u]? = some rc := hrc
    obtain ⟨f2, rfl⟩ : ∃ f2, fuel = f2 + 1 := ⟨fuel - 1, by omega⟩
    unfold retraceToLastLeftFork
    rw [if_neg (by rw [atLeaf_node hencU ((j2 + 1 : Nat) : Int) m]; simp)]
    rw [stringDigitOf_eq_getD]
    simp only [Option.bind_eq_bind, Option.some_bind]
    rw [take_succ_getD hjlen,
      forkBelow_snoc ((seqOf e).take (j2 + 1)) T ((seqOf e).getD (j2 + 1) 0) hatj hnext]
    have hup : ∃ bp2,
        (do
          let rt ← atRoot st ⟨some u, ((j2 + 1 : Nat) : Int), m⟩
          if rt then some (⟨some u, ((j2 + 1 : Nat) : Int), m⟩ : SCtx)
          else do
            let s2 ← ascend st ⟨some u, ((j2 + 1 : Nat) : Int), m⟩
            retraceToLastLeftFork st e s2 f2) =
        some ⟨some (match forkBelow ((seqOf e).take (j2 + 1)) T with
          | some ft => CT.idOf ft
          | none => rid), bp2, m⟩ := by
      unfold atRoot ascend
      simp only [hrc2, hrc, Option.map_some', Option.bind_eq_bind, Option.some_bind, hrcp,
        Option.isNone_some]
      rw [if_neg (by simp)]
      have hcast2 : ((j2 + 1 : Nat) : Int) - 1 = ((j2 : Nat) : Int) := by push_cast; ring
      rw [hcast2]
      exact ih hj2len ipar kspar hatpar f2 (by omega)
    cases hdj : (seqOf e).getD (j2 + 1) 0 with
    | zero =>
      have hf2eq : (0 : Nat) + 2 = 1 + 1 := rfl
      rw [hf2eq, leftForkScan_neg _ _ (by omega) 1]
      simp only [Option.some_bind]
      obtain ⟨bp2, hbp2⟩ := hup
      refine ⟨bp2, ?_⟩
      have hsb : scanBelow ksu 0 = none := by simp [scanBelow]
      rw [hsb]
      simp only [Option.map_none']
      exact hbp2
    | succ dj2 =>
      have hdig : dj2 + 1 < st.capacity := by
        have := goodStr_digit_lt hgood hB (j2 + 1)
        omega
      have hcast : ((dj2 + 1 : Nat) : Int) - 1 = ((dj2 : Nat) : Int) := by push_cast; ring
      rw [hcast, leftForkScan_go hencU ((j2 + 1 : Nat) : Int) m dj2 (by omega)
        (dj2 + 1 + 2) (by omega)]
      simp only [Option.some_bind]
      cases hscan : scanDown ksu dj2 with
      | some pr =>
        refine ⟨((j2 + 1 : Nat) : Int) + 1, ?_⟩
        simp only [hscan, Option.map_some']
        show some _ = _
        simp [scanBelow, hscan]
      | none =>
        simp only [hscan, Option.map_none']
        obtain ⟨bp2, hbp2⟩ := hup
        refine ⟨bp2, ?_⟩
        have hsb : scanBelow ksu (dj2 + 1) = none := by
          simp only [scanBelow]
          exact hscan
        rw [hsb]
        simp only [Option.map_none']
        exact hbp2

/-- Equality of node records on every field except the chain links
`next` and `previous`. -/
def coreEq (r1 r2 : NodeRec) : Prop :=
  r1.parent = r2.parent ∧ r1.children = r2.children ∧
  r1.numChildren = r2.numChildren ∧ r1.element = r2.element ∧
  r1.isRoot = r2.isRoot ∧ r1.isLeafN = r2.isLeafN ∧
  r1.isHead = r2.isHead ∧ r1.isTail = r2.isTail

mutual

theorem Encodes_core_frame {st st2 : TrieSt} (hcap : st2.capacity = st.capacity)
    (hcore : ∀ i r, getN st i = some r → ∃ r2, getN st2 i = some r2 ∧ coreEq r2 r) :
    ∀ (p : List Nat) (t : CT), Encodes st p t → Encodes st2 p t
  | p, .leaf i e, henc => by
    obtain ⟨r, hr, h1, h2, h3, h4, h5, h6, h7⟩ := henc
    obtain ⟨r2, hr2, c1, c2, c3, c4, c5, c6, c7, c8⟩ := hcore i r hr
    exact ⟨r2, hr2, c6.trans h1, c4.trans h2, c2.trans h3, c3.trans h4, c5.trans h5,
      c7.trans h6, c8.trans h7⟩
  | p, .node i ks, henc => by
    obtain ⟨r, hr, h1, h2, h3, h4, h5, h6, h7, h8⟩ := henc
    obtain ⟨r2, hr2, c1, c2, c3, c4, c5, c6, c7, c8⟩ := hcore i r hr
    refine ⟨r2, hr2, c6.trans h1, c7.trans h2, c8.trans h3, c5.trans h4, ?_,
      c3.trans h6, ?_, ?_⟩
    · rw [c2, hcap]
      exact h5
    · intro j hj
      rw [hcap] at hj
      rw [c2]
      exact h7 j hj
    · exact EncodesKids_core_frame hcap hcore p i ks h8

theorem EncodesKids_core_frame {st st2 : TrieSt} (hcap : st2.capacity = st.capacity)
    (hcore : ∀ i r, getN st i = some r → ∃ r2, getN st2 i = some r2 ∧ coreEq r2 r) :
    ∀ (p : List Nat) (i : Nat) (ks : CTKids), EncodesKids st i p ks →
      EncodesKids st2 i p ks
  | _, _, .nil, _ => trivial
  | p, i, .cons d t rest, hks => by
    obtain ⟨ht, ⟨rc, hrc, hpar⟩, hrest⟩ := hks
    refine ⟨Encodes_core_frame hcap hcore (p ++ [d]) t ht, ?_,
      EncodesKids_core_frame hcap hcore p i rest hrest⟩
    obtain ⟨rc2, hrc2, cc⟩ := hcore _ rc hrc
    exact ⟨rc2, hrc2, cc.1.trans hpar⟩

end

theorem coreEq_refl (r : NodeRec) : coreEq r r :=
  ⟨rfl, rfl, rfl, rfl, rfl, rfl, rfl, rfl⟩

/-- The `next` link of the node sitting just before the insertion point
of the chain. -/
theorem chain_pred_next {st : TrieSt} :
    ∀ (idsL : List Nat) (p : Nat) (idsR : List Nat),
    ChainFrom st p (idsL ++ idsR) →
    ∃ r, getN st (idsL.getLastD p) = some r ∧
      r.next = some (match idsR with | [] => st.tail | x :: _ => x)
  | [], p, idsR, hch => by
    cases idsR with
    | nil =>
      obtain ⟨⟨r, hr, hn⟩, -⟩ := hch
      exact ⟨r, hr, hn⟩
    | cons x xs =>
      obtain ⟨⟨r, hr, hn⟩, -, -⟩ := hch
      exact ⟨r, hr, hn⟩
  | y :: idsL2, p, idsR, hch => by
    obtain ⟨-, -, hrest⟩ := hch
    rw [List.getLastD_cons]
    exact chain_pred_next idsL2 y idsR hrest

/-- Running `leafAddAfter`: the three touched records and the frame. -/
theorem leafAddAfter_run {st : TrieSt} {l a nx : Nat} {ra rl rnx : NodeRec}
    (hra : getN st a = some ra) (hrl : getN st l = some rl)
    (hnx : ra.next = some nx) (hrnx : getN st nx = some rnx)
    (hla : l ≠ a) (hlnx : l ≠ nx) (hanx : a ≠ nx) :
    ∃ st2, leafAddAfter st l a = some st2 ∧
      st2.head = st.head ∧ st2.tail = st.tail ∧ st2.size = st.size ∧
      st2.capacity = st.capacity ∧ st2.root = st.root ∧
      st2.nodes.length = st.nodes.length ∧
      getN st2 l = some { rl with next := some nx, previous := some a } ∧
      getN st2 a = some { ra with next := some l } ∧
      getN st2 nx = some { rnx with previous := some l } ∧
      (∀ j, j ≠ l → j ≠ a → j ≠ nx → getN st2 j = getN st j) := by
  have g1 : getN (setN st l { rl with next := some nx }) a = some ra := by
    rw [getN_setN_ne st l _ a (Ne.symm hla)]
    exact hra
  have g2 : getN (setN (setN st l { rl with next := some nx }) a
      { ra with next := some l }) l = some { rl with next := some nx } := by
    rw [getN_setN_ne _ a _ l hla]
    exact getN_setN_self _ hrl
  have g3 : getN (setN (setN (setN st l { rl with next := some nx }) a
      { ra with next := some l }) l { rl with next := some nx, previous := some a }) l =
      some { rl with next := some nx, previous := some a } :=
    getN_setN_self _ g2
  have g4 : getN (setN (setN (setN st l { rl with next := some nx }) a
      { ra with next := some l }) l { rl with next := some nx, previous := some a }) nx =
      some rnx := by
    rw [getN_setN_ne _ l _ nx (Ne.symm hlnx), getN_setN_ne _ a _ nx (Ne.symm hanx),
      getN_setN_ne _ l _ nx (Ne.symm hlnx)]
    exact hrnx
  have heq : leafAddAfter st l a =
      some (setN (setN (setN (setN st l { rl with next := some nx }) a
        { ra with next := some l }) l { rl with next := some nx, previous := some a })
        nx { rnx with previous := some l }) := by
    unfold leafAddAfter modifyN
    rw [hra]
    simp only [Option.bind_eq_bind, Option.some_bind]
    rw [hrl]
    simp only [Option.map_some', Option.some_bind]
    rw [hnx]
    rw [g1]
    simp only [Option.map_some', Option.some_bind]
    rw [g2]
    simp only [Option.map_some', Option.some_bind]
    rw [g3]
    simp only [Option.some_bind]
    rw [g4]
    simp only [Option.map_some']
  refine ⟨_, heq, rfl, rfl, rfl, rfl, rfl, by simp [setN], ?_, ?_, ?_, ?_⟩
  · rw [getN_setN_ne _ nx _ l hlnx]
    exact g3
  · rw [getN_setN_ne _ nx _ a hanx, getN_setN_ne _ l _ a (Ne.symm hla)]
    exact getN_setN_self _ g1
  · exact getN_setN_self _ g4
  · intro j hjl hja hjnx
    rw [getN_setN_ne _ nx _ j hjnx, getN_setN_ne _ l _ j hjl, getN_setN_ne _ a _ j hja,
      getN_setN_ne _ l _ j hjl]

/-- Chain agreement where the first node's record may have changed in
fields other than `next`. -/
theorem ChainFrom_frame_next {st st2 : TrieSt} (htl : st2.tail = st.tail) :
    ∀ (prev : Nat) (ids : List Nat), ChainFrom st prev ids →
    (∃ r r2, getN st prev = some r ∧ getN st2 prev = some r2 ∧ r2.next = r.next) →
    (∀ i ∈ st.tail :: ids, getN st2 i = getN st i) →
    ChainFrom st2 prev ids := by
  intro prev ids hch hprev hagree
  cases ids with
  | nil =>
    obtain ⟨⟨r1, hr1, hn1⟩, ⟨r2, hr2, hp2⟩⟩ := hch
    obtain ⟨r, r2b, hr, hr2b, hnn⟩ := hprev
    have hrr : r = r1 := by
      rw [hr] at hr1
      exact Option.some_inj.mp hr1
    refine ⟨⟨r2b, hr2b, by rw [hnn, hrr, htl]; exact hn1⟩, ⟨r2, ?_, hp2⟩⟩
    rw [htl]
    exact (hagree st.tail (by simp)).trans hr2
  | cons x xs =>
    obtain ⟨⟨r1, hr1, hn1⟩, ⟨r2, hr2, hp2⟩, hrest⟩ := hch
    obtain ⟨r, r2b, hr, hr2b, hnn⟩ := hprev
    have hrr : r = r1 := by
      rw [hr] at hr1
      exact Option.some_inj.mp hr1
    refine ⟨⟨r2b, hr2b, by rw [hnn, hrr]; exact hn1⟩,
      ⟨r2, (hagree x (by simp)).trans hr2, hp2⟩, ?_⟩
    refine ChainFrom_frame x xs hrest ?_ htl
    intro i hi
    apply hagree
    simp only [List.mem_cons] at hi ⊢
    tauto

/-- Splicing a fresh leaf into the chain right after the node the
predecessor search produced. -/
theorem ChainFrom_splice {st st2 : TrieSt} {l nx a : Nat} (htl : st2.tail = st.tail) :
    ∀ (idsL : List Nat) (p : Nat) (idsR : List Nat),
    ChainFrom st p (idsL ++ idsR) →
    idsL.getLastD p = a →
    (match idsR with | [] => nx = st.tail | x :: _ => nx = x) →
    (∃ ra, getN st a = some ra ∧ getN st2 a = some { ra with next := some l }) →
    (∃ rl, getN st2 l = some rl ∧ rl.next = some nx ∧ rl.previous = some a) →
    (∃ rnx, getN st nx = some rnx ∧
      getN st2 nx = some { rnx with previous := some l }) →
    (∀ j, j ∈ p :: st.tail :: (idsL ++ idsR) → j ≠ a → j ≠ nx →
      getN st2 j = getN st j) →
    (p :: (idsL ++ idsR) ++ [st.tail]).Nodup →
    ChainFrom st2 p (idsL ++ l :: idsR)
  | [], p, idsR, hch, hlast, hnxm, hA, hL, hN, hframe, hnd => by
    obtain ⟨ra, hra, hra2⟩ := hA
    obtain ⟨rl, hrl2, hrln, hrlp⟩ := hL
    obtain ⟨rnx, hrnx, hrnx2⟩ := hN
    have hpa : p = a := by simpa using hlast
    subst hpa
    cases idsR with
    | nil =>
      have hnxt : nx = st.tail := by simpa using hnxm
      subst hnxt
      exact ⟨⟨{ ra with next := some l }, hra2, rfl⟩, ⟨rl, hrl2, hrlp⟩,
        ⟨rl, hrl2, by rw [htl]; exact hrln⟩,
        ⟨{ rnx with previous := some l }, by rw [htl]; exact hrnx2, rfl⟩⟩
    | cons x xs =>
      have hnxx : nx = x := by simpa using hnxm
      subst hnxx
      obtain ⟨⟨r1, hr1, hn1⟩, ⟨r2, hr2, hp2⟩, hrest⟩ := hch
      simp only [List.nil_append, List.cons_append] at hnd
      obtain ⟨hp_nin, hnd2⟩ := List.nodup_cons.mp hnd
      obtain ⟨hx_nin, -⟩ := List.nodup_cons.mp hnd2
      have hagree2 : ∀ i ∈ st.tail :: xs, getN st2 i = getN st i := by
        intro i hi
        simp only [List.mem_cons] at hi
        rcases hi with rfl | hi
        · refine hframe st.tail (by simp) ?_ ?_
          · intro hc
            apply hp_nin
            rw [← hc]
            simp
          · intro hc
            apply hx_nin
            rw [← hc]
            simp
        · refine hframe i (by simp [hi]) ?_ ?_
          · intro hc
            apply hp_nin
            rw [← hc]
            simp [hi]
          · intro hc
            apply hx_nin
            rw [← hc]
            simp [hi]
      exact ⟨⟨{ ra with next := some l }, hra2, rfl⟩, ⟨rl, hrl2, hrlp⟩,
        ⟨rl, hrl2, hrln⟩, ⟨{ rnx with previous := some l }, hrnx2, rfl⟩,
        ChainFrom_frame_next htl nx xs hrest ⟨rnx, { rnx with previous := some l },
          hrnx, hrnx2, rfl⟩ hagree2⟩
  | y :: idsL2, p, idsR, hch, hlast, hnxm, hA, hL, hN, hframe, hnd => by
    obtain ⟨⟨r1, hr1, hn1⟩, ⟨r2, hr2, hp2⟩, hrest⟩ := hch
    have hlast2 : idsL2.getLastD y = a := by
      rw [List.getLastD_cons] at hlast
      exact hlast
    have hamem : a ∈ y :: idsL2 := hlast2 ▸ List.getLastD_mem_cons idsL2 y
    rw [List.cons_append] at hnd
    obtain ⟨hp_nin, hnd2⟩ := List.nodup_cons.mp hnd
    rw [List.cons_append] at hnd2 hp_nin
    have hnxmem : nx ∈ idsR ++ [st.tail] := by
      cases idsR with
      | nil =>
        have hx : nx = st.tail := hnxm
        simp [hx]
      | cons x xs =>
        have hx : nx = x := hnxm
        simp [hx]
    have hnxbig2 : nx ∈ (idsL2 ++ idsR) ++ [st.tail] := by
      rcases List.mem_append.mp hnxmem with h | h
      · exact List.mem_append_left _ (List.mem_append_right _ h)
      · exact List.mem_append_right _ h
    have hnxbig : nx ∈ y :: ((idsL2 ++ idsR) ++ [st.tail]) :=
      List.mem_cons_of_mem y hnxbig2
    have habig : a ∈ y :: ((idsL2 ++ idsR) ++ [st.tail]) := by
      simp only [List.mem_cons] at hamem
      simp only [List.mem_cons, List.mem_append]
      tauto
    have hpa : p ≠ a := fun hc => hp_nin (hc ▸ habig)
    have hpnx : p ≠ nx := fun hc => hp_nin (hc ▸ hnxbig)
    refine ⟨⟨r1, (hframe p (by simp) hpa hpnx).trans hr1, hn1⟩, ?_, ?_⟩
    · by_cases hya : y = a
      · obtain ⟨ra, hra, hra2⟩ := hA
        refine ⟨{ ra with next := some l }, by rw [hya]; exact hra2, ?_⟩
        show ra.previous = some p
        have hrar2 : ra = r2 := by
          rw [hya] at hr2
          exact Option.some_inj.mp (hra.symm.trans hr2)
        rw [hrar2]
        exact hp2
      · obtain ⟨hy_nin, -⟩ := List.nodup_cons.mp hnd2
        have hynx : y ≠ nx := fun hc => hy_nin (hc ▸ hnxbig2)
        exact ⟨r2, (hframe y (by simp) hya hynx).trans hr2, hp2⟩
    · refine ChainFrom_splice htl idsL2 y idsR hrest hlast2 hnxm hA hL hN ?_ hnd2
      intro j hj hjna hjnnx
      refine hframe j ?_ hjna hjnnx
      simp only [List.mem_cons, List.mem_append] at hj ⊢
      tauto

theorem newRootRec_eq (B : Nat) :
    newRootRec (B : Int) =
      { blankNode with children := List.replicate B none, isRoot := true } := by
  unfold newRootRec
  rw [Int.toNat_ofNat]

/-- Inserting a duplicate sequence: `insert` reports the prefix
violation and leaves the state untouched. -/
theorem insert_dup {st : TrieSt} {es : List (Nat × String)} (hinv : InvT st es)
    {e f : String} {c : Nat} (hgood : GoodStr st.capacity e)
    (hmem : (c, f) ∈ es) (hseq : seqOf f = seqOf e) :
    insert st e = some (st, Except.error GoErr.prefixViolation) := by
  unfold insert
  rw [find_present hinv hgood hmem hseq newSCtx]
  simp only [Option.bind_eq_bind, Option.some_bind]
  rw [if_pos (Or.inl trivial)]

/-- Running `addNode` on a trie without a root: the root is allocated
and the element's digit path is materialized as a single chain under
it. -/
theorem addNode_empty_run {stA : TrieSt} {e : String} {leafId : Nat}
    (hgood : GoodStr stA.capacity e) (hB : 0 < stA.capacity)
    (hl : getN stA leafId = some { newLeafRec with element := some e })
    (m : Int) :
    ∃ st3,
      addNode stA leafId ⟨none, 0, m⟩ =
        some (st3, ⟨some leafId, ((numDigitsOf e - 1 : Nat) : Int) + 1, m⟩) ∧
      st3.capacity = stA.capacity ∧ st3.root = some stA.nodes.length ∧
      st3.head = stA.head ∧ st3.tail = stA.tail ∧ st3.size = stA.size ∧
      st3.nodes.length = stA.nodes.length + 1 + ((seqOf e).drop 1).length ∧
      (∀ j, j < stA.nodes.length → j ≠ leafId → getN st3 j = getN stA j) ∧
      Encodes st3 [] (CT.node stA.nodes.length
        (CTKids.cons ((seqOf e).getD 0 0)
          (chainCT leafId e (stA.nodes.length + 1) ((seqOf e).drop 1)) CTKids.nil)) ∧
      (∃ rr, getN st3 stA.nodes.length = some rr ∧ rr.parent = none) := by
  have hlid : leafId < stA.nodes.length := getN_bound hl
  have hn1 : 0 < (seqOf e).length := List.length_pos.mpr (seqOf_ne_nil e)
  have hndlen : numDigitsOf e = (seqOf e).length := numDigitsOf_eq e
  have hd0 : (seqOf e).getD 0 0 < stA.capacity := goodStr_digit_lt hgood hB 0
  have hrootrec : newRootRec ((stA.capacity : Nat) : Int) =
      { blankNode with children := List.replicate stA.capacity none, isRoot := true } :=
    newRootRec_eq stA.capacity
  obtain ⟨st2, lastId, st3, hloop, hfin, hcap3, hroot3, hhead3, htail3, hsize3, hlen3,
      hframe3, hcid3, hchaine, hcpar⟩ :=
    @addNode_chain e leafId (numDigitsOf e + 1) 0
      (TrieSt.mk (stA.nodes ++ [newRootRec (stA.capacity : Int)]) (some stA.nodes.length) stA.head stA.tail stA.size stA.capacity)
      stA.nodes.length
      { blankNode with children := List.replicate stA.capacity none, isRoot := true }
      m hgood hB
      (by show (stA.nodes ++ [newRootRec (stA.capacity : Int)])[stA.nodes.length]? = _
          rw [List.getElem?_concat_length, hrootrec])
      (by simp)
      (List.getElem?_replicate_of_lt hd0)
      (by show (stA.nodes ++ [newRootRec (stA.capacity : Int)])[leafId]? = _
          rw [List.getElem?_append_left hlid]
          exact hl)
      (by omega)
      (by omega)
      (by omega)
  have hcapA : st3.capacity = stA.capacity := hcap3
  have hrootA : st3.root = some stA.nodes.length := hroot3
  have hheadA : st3.head = stA.head := hhead3
  have htailA : st3.tail = stA.tail := htail3
  have hsizeA : st3.size = stA.size := hsize3
  have hlenB : (TrieSt.mk (stA.nodes ++ [newRootRec (stA.capacity : Int)]) (some stA.nodes.length) stA.head stA.tail stA.size stA.capacity).nodes.length =
      stA.nodes.length + 1 := by simp
  rw [hlenB] at hlen3 hchaine hcpar hcid3
  have hlenA : st3.nodes.length = stA.nodes.length + 1 + ((seqOf e).drop 1).length :=
    hlen3
  have hframeA : ∀ j, j < stA.nodes.length → j ≠ leafId → getN st3 j = getN stA j := by
    intro j hj hjl
    have h1 : getN st3 j = getN (TrieSt.mk (stA.nodes ++ [newRootRec (stA.capacity : Int)]) (some stA.nodes.length) stA.head stA.tail stA.size stA.capacity) j :=
      hframe3 j (by rw [hlenB]; omega) (by omega) hjl
    have h2 : getN (TrieSt.mk (stA.nodes ++ [newRootRec (stA.capacity : Int)]) (some stA.nodes.length) stA.head stA.tail stA.size stA.capacity) j = getN stA j := by
      show (stA.nodes ++ [newRootRec (stA.capacity : Int)])[j]? = _
      rw [List.getElem?_append_left hj]
      rfl
    exact h1.trans h2
  refine ⟨st3, ?_, hcapA, hrootA, hheadA, htailA, hsizeA, hlenA, hframeA, ?_, ?_⟩
  · unfold addNode
    rw [if_pos (show ({ pointer := none, branchPosition := 0, numMatches := m } :
      SCtx).pointer.isNone = true from rfl)]
    simp only [alloc, Option.bind_eq_bind, Option.some_bind]
    rw [show getN (TrieSt.mk (stA.nodes ++ [newRootRec (stA.capacity : Int)]) (some stA.nodes.length) stA.head stA.tail stA.size stA.capacity) leafId =
        some { newLeafRec with element := some e } from by
      show (stA.nodes ++ [newRootRec (stA.capacity : Int)])[leafId]? = _
      rw [List.getElem?_append_left hlid]
      exact hl]
    simp only [Option.some_bind]
    have hloop2 : addNodeLoop
        (TrieSt.mk (stA.nodes ++ [newRootRec (stA.capacity : Int)]) (some stA.nodes.length) stA.head stA.tail stA.size stA.capacity) e (numDigitsOf e + 1)
        ⟨some stA.nodes.length, 0, m⟩ =
        some (st2, ⟨some lastId, ((numDigitsOf e - 1 : Nat) : Int), m⟩) := hloop
    rw [hloop2]
    simp only [Option.some_bind]
    exact hfin
  · refine ⟨_, hcid3, rfl, rfl, rfl, rfl, ?_, ?_, ?_, ?_⟩
    · show ((List.replicate stA.capacity (none : Option Nat)).set ((seqOf e).getD 0 0)
        (some (CT.idOf (chainCT leafId e (stA.nodes.length + 1)
          ((seqOf e).drop (0 + 1)))))).length = st3.capacity
      rw [hcapA, List.length_set, List.length_replicate]
    · show (0 : Int) + 1 = ((kidsCount CTKids.nil + 1 : Nat) : Int)
      norm_num [kidsCount]
    · intro j hj
      rw [hcapA] at hj
      rw [getElem_replicate_set _ hd0 hj, kidsLookup_single]
    · refine ⟨hchaine [(seqOf e).getD 0 0] (by simp), ?_, trivial⟩
      exact hcpar
  · exact ⟨_, hcid3, rfl⟩

/-- The tail of `insert` common to all successful paths: splice the
fresh leaf after the predecessor (or after the head when the new element
is the minimum) and bump the size, restoring the invariant with the new
pair slotted between the smaller and larger stored pairs. -/
theorem finish_insert {st3 : TrieSt} {esL esR : List (Nat × String)} {leafId rid : Nat}
    {e : String} {a : Nat}
    (hroot3 : st3.root = some rid)
    (hT : ∃ ksG, Encodes st3 [] (CT.node rid ksG) ∧
      ctWF st3.capacity [] (CT.node rid ksG) ∧
      ctPairs (CT.node rid ksG) = esL ++ (leafId, e) :: esR ∧
      (ctIds (CT.node rid ksG)).Nodup ∧
      st3.head ∉ ctIds (CT.node rid ksG) ∧ st3.tail ∉ ctIds (CT.node rid ksG) ∧
      (∃ rr, getN st3 rid = some rr ∧ rr.parent = none))
    (hsz : st3.size = ((esL ++ esR).length : Int))
    (hB : 0 < st3.capacity)
    (hht : st3.head ≠ st3.tail)
    (hhead : ∃ r, getN st3 st3.head = some r ∧ r.isHead = true ∧ r.isTail = false ∧
      r.isLeafN = true ∧ r.previous = none)
    (htail : ∃ r, getN st3 st3.tail = some r ∧ r.isTail = true ∧ r.isHead = false ∧
      r.isLeafN = true)
    (hch : ChainFrom st3 st3.head ((esL ++ esR).map Prod.fst) ∨
      (esL = [] ∧ esR = [] ∧ ∃ r, getN st3 st3.head = some r ∧ r.next = some st3.tail))
    (ha : (esL.map Prod.fst).getLastD st3.head = a) :
    ∃ st4, leafAddAfter st3 leafId a = some st4 ∧
      InvT { st4 with size := st4.size + 1 } (esL ++ (leafId, e) :: esR) := by
  obtain ⟨ksG, hencT, hwfT, hpairsT, hndT, hheadT, htailT, hrootrecT⟩ := hT
  obtain ⟨rh, hrh, hrhH, hrhT, hrhL, hrhP⟩ := hhead
  obtain ⟨rt, hrt, hrtT, hrtH, hrtL⟩ := htail
  have hmemL : (leafId, e) ∈ ctPairs (CT.node rid ksG) := by
    rw [hpairsT]
    simp
  obtain ⟨rl, hrl, hrlE, hrlH, hrlT, hrlL⟩ :=
    Encodes_pair_record [] _ hencT (leafId, e) hmemL
  have hfstnd0 : ((ctPairs (CT.node rid ksG)).map Prod.fst).Nodup :=
    (ctPairs_fst_sublist _).nodup hndT
  rw [hpairsT] at hfstnd0
  simp only [List.map_append, List.map_cons] at hfstnd0
  obtain ⟨hndL, hndR0, hdisj⟩ := List.nodup_append.mp hfstnd0
  obtain ⟨hLnotR, hndR⟩ := List.nodup_cons.mp hndR0
  have hLnotL : leafId ∉ esL.map Prod.fst := fun hm => hdisj hm (by simp)
  have hsubids : ∀ x, x ∈ esL.map Prod.fst ++ leafId :: esR.map Prod.fst →
      x ∈ ctIds (CT.node rid ksG) := by
    intro x hx
    apply (ctPairs_fst_sublist _).subset
    rw [hpairsT]
    simpa using hx
  have hLids : leafId ∈ ctIds (CT.node rid ksG) := hsubids leafId (by simp)
  have hamem : a = st3.head ∨ a ∈ esL.map Prod.fst := by
    have := List.getLastD_mem_cons (esL.map Prod.fst) st3.head
    rw [ha] at this
    simpa [Or.comm] using (List.mem_cons.mp this)
  -- a pair id carries a leaf record
  have hpairrec : ∀ x, x ∈ esL.map Prod.fst ++ leafId :: esR.map Prod.fst →
      ∃ r2 f2, getN st3 x = some r2 ∧ r2.isLeafN = true ∧ r2.element = some f2 := by
    intro x hx
    have hx2 : x ∈ (ctPairs (CT.node rid ksG)).map Prod.fst := by
      rw [hpairsT]
      simpa using hx
    obtain ⟨pr, hprmem, hpr1⟩ := List.mem_map.mp hx2
    obtain ⟨r2, hr2, hr2e, -, -, hr2l⟩ := Encodes_pair_record [] _ hencT pr hprmem
    exact ⟨r2, pr.2, hpr1 ▸ hr2, hr2l, hr2e⟩
  have hanotId : a ∉ ctIds (CT.node rid ksG) ∨ a ∈ esL.map Prod.fst := by
    rcases hamem with rfl | hm
    · exact Or.inl hheadT
    · exact Or.inr hm
  have hla : leafId ≠ a := by
    rcases hamem with rfl | hm
    · exact fun hc => hheadT (hc ▸ hLids)
    · exact fun hc => hLnotL (hc ▸ hm)
  have hndChain : (st3.head :: (esL.map Prod.fst ++ esR.map Prod.fst) ++
      [st3.tail]).Nodup := by
    have hsub2 : List.Sublist (esL.map Prod.fst ++ esR.map Prod.fst)
        (esL.map Prod.fst ++ leafId :: esR.map Prod.fst) :=
      List.Sublist.append (List.Sublist.refl _) (List.sublist_cons_self leafId _)
    have hnd2 : (esL.map Prod.fst ++ esR.map Prod.fst).Nodup := hsub2.nodup hfstnd0
    rw [List.cons_append]
    refine List.nodup_cons.mpr ⟨?_, ?_⟩
    · intro hm
      rcases List.mem_append.mp hm with hm | hm
      · exact hheadT (hsubids _ (by
          rcases List.mem_append.mp hm with h | h
          · simp [h]
          · simp [h]))
      · simp only [List.mem_singleton] at hm
        exact hht hm
    · refine List.nodup_append.mpr ⟨hnd2, List.nodup_singleton _, ?_⟩
      intro x hx
      simp only [List.mem_singleton]
      intro hc
      subst hc
      exact htailT (hsubids st3.tail (by
        rcases List.mem_append.mp hx with h | h
        · simp [h]
        · simp [h]))
  have key : ∃ nx ra rnx,
      getN st3 a = some ra ∧ ra.next = some nx ∧ getN st3 nx = some rnx ∧
      leafId ≠ nx ∧ a ≠ nx ∧ (nx = st3.tail ∨ nx ∈ esR.map Prod.fst) ∧
      (∀ st4, st4.tail = st3.tail →
        getN st4 leafId = some { rl with next := some nx, previous := some a } →
        getN st4 a = some { ra with next := some leafId } →
        getN st4 nx = some { rnx with previous := some leafId } →
        (∀ j, j ≠ leafId → j ≠ a → j ≠ nx → getN st4 j = getN st3 j) →
        ChainFrom st4 st3.head ((esL ++ (leafId, e) :: esR).map Prod.fst)) := by
    rcases hch with hchain | ⟨hL0, hR0, rE⟩
    · have hch2 : ChainFrom st3 st3.head (esL.map Prod.fst ++ esR.map Prod.fst) := by
        rw [← List.map_append]
        exact hchain
      obtain ⟨ra, hra0, hranext0⟩ :=
        chain_pred_next (esL.map Prod.fst) st3.head (esR.map Prod.fst) hch2
      rw [ha] at hra0
      cases hesR : esR with
      | nil =>
        subst hesR
        have hranext : ra.next = some st3.tail := hranext0
        refine ⟨st3.tail, ra, rt, hra0, hranext, hrt, ?_, ?_, Or.inl rfl, ?_⟩
        · exact fun hc => htailT (hc ▸ hLids)
        · rcases hamem with rfl | hm
          · exact hht
          · exact fun hc => htailT (hc ▸ hsubids a (by simp [hm]))
        · intro st4 htl hL4 hA4 hN4 hfr4
          simp only [List.map_append, List.map_cons, List.map_nil]
          refine ChainFrom_splice htl (esL.map Prod.fst) st3.head [] ?_ ha rfl
            ⟨ra, hra0, hA4⟩ ⟨_, hL4, rfl, rfl⟩ ⟨rt, hrt, hN4⟩ ?_ ?_
          · simpa using hch2
          · intro j hj hja hjnx
            refine hfr4 j ?_ hja hjnx
            simp only [List.mem_cons, List.append_nil] at hj
            rcases hj with rfl | rfl | hj
            · exact fun hc => hheadT (hc ▸ hLids)
            · exact fun hc => htailT (hc ▸ hLids)
            · exact fun hc => hLnotL (hc ▸ hj)
          · simpa using hndChain
      | cons pr2 esR2 =>
        subst hesR
        have hranext : ra.next = some pr2.1 := hranext0
        obtain ⟨rnx, f2, hrnx, hrnxL, hrnxE⟩ :=
          hpairrec pr2.1 (by simp)
        refine ⟨pr2.1, ra, rnx, hra0, hranext, hrnx, ?_, ?_, Or.inr (by simp), ?_⟩
        · exact fun hc => hLnotR (hc ▸ (by simp : pr2.1 ∈ (pr2 :: esR2).map Prod.fst))
        · rcases hamem with rfl | hm
          · exact fun hc => hheadT (hc ▸ hsubids pr2.1 (by simp))
          · exact fun hc => hdisj hm (by rw [hc]; simp)
        · intro st4 htl hL4 hA4 hN4 hfr4
          simp only [List.map_append, List.map_cons]
          refine ChainFrom_splice htl (esL.map Prod.fst) st3.head
            (pr2.1 :: esR2.map Prod.fst) ?_ ha rfl
            ⟨ra, hra0, hA4⟩ ⟨_, hL4, rfl, rfl⟩ ⟨rnx, hrnx, hN4⟩ ?_ ?_
          · simpa using hch2
          · intro j hj hja hjnx
            refine hfr4 j ?_ hja hjnx
            simp only [List.mem_cons, List.mem_append] at hj
            rcases hj with rfl | rfl | hj
            · exact fun hc => hheadT (hc ▸ hLids)
            · exact fun hc => htailT (hc ▸ hLids)
            · rcases hj with hj | hj
              · exact fun hc => hLnotL (hc ▸ hj)
              · refine fun hc => hLnotR ?_
                rw [← hc]
                simp only [List.map_cons, List.mem_cons]
                exact hj
          · simpa using hndChain
    · subst hL0
      subst hR0
      obtain ⟨rE2, hre2, hrn2⟩ := rE
      have hae : a = st3.head := by simpa using ha.symm
      subst hae
      have hre3 : rE2 = rh := by
        rw [hrh] at hre2
        exact (Option.some_inj.mp hre2).symm
      rw [hre3] at hrn2
      refine ⟨st3.tail, rh, rt, hrh, hrn2, hrt, ?_, hht, Or.inl rfl, ?_⟩
      · exact fun hc => htailT (hc ▸ hLids)
      · intro st4 htl hL4 hA4 hN4 hfr4
        simp only [List.nil_append, List.map_cons, List.map_nil]
        refine ⟨⟨_, hA4, rfl⟩, ⟨_, hL4, rfl⟩, ⟨_, hL4, ?_⟩,
          ⟨{ rt with previous := some leafId }, ?_, rfl⟩⟩
        · rw [htl]
        · rw [htl]
          exact hN4
  obtain ⟨nx, ra, rnx, hra, hranext, hrnx, hlnnx, hannx, hnxmem, hchainpost⟩ := key
  obtain ⟨st4, heq4, hh4, ht4, hs4, hc4, hr4, hlen4, hL4, hA4, hN4, hfr4⟩ :=
    leafAddAfter_run hra hrl hranext hrnx hla hlnnx hannx
  refine ⟨st4, heq4, ?_, ?_, ?_, ?_, ?_, ?_, ?_⟩
  · show st4.size + 1 = _
    rw [hs4, hsz]
    simp only [List.length_append, List.length_cons]
    push_cast
    ring
  · show 0 < st4.capacity
    rw [hc4]
    exact hB
  · show st4.head ≠ st4.tail
    rw [hh4, ht4]
    exact hht
  · show ∃ r, getN st4 st4.head = some r ∧ _
    rw [hh4]
    by_cases hah : st3.head = a
    · have hrar : ra = rh := by
        rw [← hah] at hra
        rw [hra] at hrh
        exact Option.some_inj.mp hrh
      rw [hah]
      exact ⟨_, hA4, by rw [show ({ ra with next := some leafId } : NodeRec).isHead =
        ra.isHead from rfl, hrar]; exact hrhH,
        by rw [show ({ ra with next := some leafId } : NodeRec).isTail = ra.isTail
          from rfl, hrar]; exact hrhT,
        by rw [show ({ ra with next := some leafId } : NodeRec).isLeafN = ra.isLeafN
          from rfl, hrar]; exact hrhL,
        by rw [show ({ ra with next := some leafId } : NodeRec).previous = ra.previous
          from rfl, hrar]; exact hrhP⟩
    · have hhnx : st3.head ≠ nx := by
        rcases hnxmem with rfl | hm
        · exact hht
        · exact fun hc => hheadT (hsubids _ (by simp [hc ▸ hm]))
      rw [hfr4 st3.head (fun hc => hheadT (hc ▸ hLids)) hah hhnx]
      exact ⟨rh, hrh, hrhH, hrhT, hrhL, hrhP⟩
  · show ∃ r, getN st4 st4.tail = some r ∧ _
    rw [ht4]
    by_cases htn : st3.tail = nx
    · have hrnr : rnx = rt := by
        rw [← htn] at hrnx
        rw [hrnx] at hrt
        exact Option.some_inj.mp hrt
      rw [htn]
      exact ⟨_, hN4, by rw [show ({ rnx with previous := some leafId } : NodeRec).isTail
        = rnx.isTail from rfl, hrnr]; exact hrtT,
        by rw [show ({ rnx with previous := some leafId } : NodeRec).isHead = rnx.isHead
          from rfl, hrnr]; exact hrtH,
        by rw [show ({ rnx with previous := some leafId } : NodeRec).isLeafN =
          rnx.isLeafN from rfl, hrnr]; exact hrtL⟩
    · have hta : st3.tail ≠ a := by
        rcases hamem with rfl | hm
        · exact hht.symm
        · exact fun hc => htailT (hsubids _ (by simp [hc ▸ hm]))
      rw [hfr4 st3.tail (fun hc => htailT (hc ▸ hLids)) hta htn]
      exact ⟨rt, hrt, hrtT, hrtH, hrtL⟩
  · left
    have hmain : ChainFrom st4 st3.head ((esL ++ (leafId, e) :: esR).map Prod.fst) :=
      hchainpost st4 ht4 hL4 hA4 hN4 hfr4
    have hh5 : ({ st4 with size := st4.size + 1 } : TrieSt).head = st3.head := hh4
    rw [hh5]
    exact ChainFrom_frame st3.head _ hmain (fun i _ => rfl) rfl
  · have hr5 : st4.root = some rid := by
      rw [hr4]
      exact hroot3
    rw [hr5]
    have hrid : rid ∉ [leafId, a, nx].tail → True := fun _ => trivial
    obtain ⟨rr0, hrr0, hrr0p⟩ := hrootrecT
    have hr0leaf : rr0.isLeafN = false := by
      obtain ⟨rr1, hrr1, hrr1a, -⟩ := hencT
      rw [hrr1] at hrr0
      rw [← Option.some_inj.mp hrr0]
      exact hrr1a
    have hridl : rid ≠ leafId := by
      intro hc
      rw [hc, hrl] at hrr0
      rw [← Option.some_inj.mp hrr0] at hr0leaf
      rw [hrlL] at hr0leaf
      cases hr0leaf
    have hridIds : rid ∈ ctIds (CT.node rid ksG) := by simp [ctIds]
    have hrida : rid ≠ a := by
      rcases hamem with rfl | hm
      · exact fun hc => hheadT (hc ▸ hridIds)
      · intro hc
        obtain ⟨r2, f2, hr2, hr2l, -⟩ := hpairrec a (by simp [hm])
        rw [hc, hr2] at hrr0
        rw [← Option.some_inj.mp hrr0] at hr0leaf
        rw [hr2l] at hr0leaf
        cases hr0leaf
    have hridnx : rid ≠ nx := by
      rcases hnxmem with rfl | hm
      · exact fun hc => htailT (hc ▸ hridIds)
      · intro hc
        obtain ⟨r2, f2, hr2, hr2l, -⟩ := hpairrec nx (by simp [hm])
        rw [hc, hr2] at hrr0
        rw [← Option.some_inj.mp hrr0] at hr0leaf
        rw [hr2l] at hr0leaf
        cases hr0leaf
    refine ⟨ksG, ?_, ?_, hpairsT, hndT, ?_, ?_, ?_⟩
    · refine @Encodes_core_frame st4
        (TrieSt.mk st4.nodes (some rid) st4.head st4.tail (st4.size + 1) st4.capacity)
        rfl (fun i r h => ⟨r, h, coreEq_refl r⟩) [] _ ?_
      refine Encodes_core_frame hc4 ?_ [] _ hencT
      intro i r hi
      by_cases hil : i = leafId
      · subst hil
        rw [hrl] at hi
        rw [← Option.some_inj.mp hi]
        exact ⟨_, hL4, rfl, rfl, rfl, rfl, rfl, rfl, rfl, rfl⟩
      · by_cases hia : i = a
        · subst hia
          rw [hra] at hi
          rw [← Option.some_inj.mp hi]
          exact ⟨_, hA4, rfl, rfl, rfl, rfl, rfl, rfl, rfl, rfl⟩
        · by_cases hin : i = nx
          · subst hin
            rw [hrnx] at hi
            rw [← Option.some_inj.mp hi]
            exact ⟨_, hN4, rfl, rfl, rfl, rfl, rfl, rfl, rfl, rfl⟩
          · exact ⟨r, (hfr4 i hil hia hin).trans hi, coreEq_refl r⟩
    · show ctWF st4.capacity [] _
      rw [hc4]
      exact hwfT
    · show st4.head ∉ _
      rw [hh4]
      exact hheadT
    · show st4.tail ∉ _
      rw [ht4]
      exact htailT
    · refine ⟨rr0, ?_, hrr0p⟩
      show getN st4 rid = some rr0
      rw [hfr4 rid hridl hrida hridnx]
      exact hrr0

/-- `moveToPredecessor`, launched with result `Matched` at a leaf stored
in the tree: it answers `false` at the root when there is no left fork
(the leaf is the minimum), and otherwise lands on the last pair of the
deepest left fork along the leaf's digit path. -/
theorem moveToPredecessor_spec {st : TrieSt} {e : String} {T : CT} {rid : Nat}
    (hgood : GoodStr st.capacity e) (hB : 0 < st.capacity)
    (henc : Encodes st [] T) (hwf : ctWF st.capacity [] T)
    (hid : CT.idOf T = rid)
    (hroot : ∃ rr, getN st rid = some rr ∧ rr.parent = none)
    {c0 : Nat} {f0 : String} (hleafat : ctAt T (seqOf e) = some (CT.leaf c0 f0))
    (hids : (ctIds T).Nodup) (m : Int) :
    (forkBelow (seqOf e) T = none →
      ∃ s3, moveToPredecessor st e ⟨some c0, ((seqOf e).length : Int), m⟩ .Matched =
        some (false, s3)) ∧
    (∀ ft, forkBelow (seqOf e) T = some ft →
      ∃ bp3 c f, (ctPairs ft).getLast? = some (c, f) ∧
        moveToPredecessor st e ⟨some c0, ((seqOf e).length : Int), m⟩ .Matched =
          some (true, ⟨some c, bp3, m⟩)) := by
  have hlenT : (ctIds T).length ≤ st.nodes.length :=
    nodup_lt_length_le hids (Encodes_ids_bound [] T henc)
  have hn1 : 0 < (seqOf e).length := List.length_pos.mpr (seqOf_ne_nil e)
  have hdepth : (seqOf e).length + 1 ≤ (ctIds T).length := by
    have := ctAt_ids_length (seqOf e) T hleafat
    simp only [ctIds, List.length_singleton] at this
    omega
  have hencL : Encodes st (seqOf e) (CT.leaf c0 f0) := by
    have := ctAt_encodes (seqOf e) [] T _ henc hleafat
    simpa using this
  have hsplit : (seqOf e).take ((seqOf e).length - 1) ++
      [(seqOf e).getD ((seqOf e).length - 1) 0] = seqOf e := by
    have h1 : (seqOf e).take (((seqOf e).length - 1) + 1) =
        (seqOf e).take ((seqOf e).length - 1) ++
          [(seqOf e).getD ((seqOf e).length - 1) 0] :=
      take_succ_getD (by omega)
    rw [show ((seqOf e).length - 1) + 1 = (seqOf e).length from by omega] at h1
    rw [List.take_length] at h1
    exact h1.symm
  have hleafat2 : ctAt T ((seqOf e).take ((seqOf e).length - 1) ++
      [(seqOf e).getD ((seqOf e).length - 1) 0]) = some (CT.leaf c0 f0) := by
    rw [hsplit]
    exact hleafat
  obtain ⟨ipar, kspar, hatpar, hfindpar⟩ := ctAt_snoc _ T _ hleafat2
  have hencPar : Encodes st ((seqOf e).take ((seqOf e).length - 1))
      (CT.node ipar kspar) := by
    have := ctAt_encodes _ [] T _ henc hatpar
    simpa using this
  obtain ⟨rc, hrc, hrcp⟩ :=
    EncodesKids_find_parent hencPar.choose_spec.2.2.2.2.2.2.2.2 hfindpar
  simp only [CT.idOf] at hrc
  have hrc2 : st.nodes[c0]? = some rc := hrc
  have hcast : ((seqOf e).length : Int) - 1 = (((seqOf e).length - 1 : Nat) : Int) := by
    omega
  obtain ⟨bp2, hret⟩ :
      ∃ bp2, retraceToLastLeftFork st e ⟨some c0, ((seqOf e).length : Int), m⟩
          (st.nodes.length + 2) =
        some ⟨some (match forkBelow (seqOf e) T with
          | some ft => CT.idOf ft
          | none => rid), bp2, m⟩ := by
    obtain ⟨bp2, hgo⟩ := retrace_go hgood hB henc hid hroot m hleafat
      ((seqOf e).length - 1) (by omega) ipar kspar hatpar (st.nodes.length + 1)
      (by omega)
    refine ⟨bp2, ?_⟩
    rw [show st.nodes.length + 2 = (st.nodes.length + 1) + 1 from rfl]
    generalize hL : st.nodes.length + 1 = L
    rw [hL] at hgo
    unfold retraceToLastLeftFork
    rw [if_pos (atLeaf_leaf hencL ((seqOf e).length : Int) m)]
    simp only [Option.bind_eq_bind, Option.some_bind]
    unfold atRoot
    simp only [hrc2, Option.map_some', Option.bind_eq_bind, Option.some_bind, hrcp,
      Option.isNone_some]
    rw [if_neg (by simp)]
    unfold ascend
    simp only [hrc, Option.map_some', Option.bind_eq_bind, Option.some_bind, hrcp]
    rw [hcast]
    rw [hgo]
    rw [show ((seqOf e).length - 1) + 1 = (seqOf e).length from by omega,
      List.take_length]
  have hcond1 : (decide (SearchResult.Matched = SearchResult.Greater) ||
      decide (SearchResult.Matched = SearchResult.Extension)) = false := rfl
  constructor
  · intro hfb
    simp only [hfb] at hret
    obtain ⟨rr, hrr, hrpar⟩ := hroot
    have hrr2 : st.nodes[rid]? = some rr := hrr
    refine ⟨⟨some rid, bp2, m⟩, ?_⟩
    unfold moveToPredecessor
    rw [if_neg (by rw [hcond1, Bool.and_false]; simp)]
    rw [if_pos (show SearchResult.Matched ≠ SearchResult.Greater from by decide)]
    rw [hret]
    simp only [Option.bind_eq_bind, Option.some_bind]
    unfold atRoot
    simp [hrr2, hrpar]
  · intro ft hfb
    simp only [hfb] at hret
    obtain ⟨fq, i3, ks3, d3, hatf, hfindf, hatf2⟩ := forkBelow_at (seqOf e) T hfb
    have hencFq : Encodes st fq (CT.node i3 ks3) := by
      have := ctAt_encodes fq [] T _ henc hatf
      simpa using this
    obtain ⟨rc2, hrc2b, hrcp2⟩ :=
      EncodesKids_find_parent hencFq.choose_spec.2.2.2.2.2.2.2.2 hfindf
    have hrc2c : st.nodes[CT.idOf ft]? = some rc2 := hrc2b
    have hencFt : Encodes st (fq ++ [d3]) ft := by
      have := ctAt_encodes (fq ++ [d3]) [] T _ henc hatf2
      simpa using this
    have hwfFt : ctWF st.capacity (fq ++ [d3]) ft := by
      have := ctAt_wf (fq ++ [d3]) [] T ft hwf hatf2
      simpa using this
    have hidsFt : (ctIds ft).length < st.nodes.length + 2 := by
      have := ctAt_ids_length (fq ++ [d3]) T hatf2
      omega
    unfold moveToPredecessor
    rw [if_neg (by rw [hcond1, Bool.and_false]; simp)]
    rw [if_pos (show SearchResult.Matched ≠ SearchResult.Greater from by decide)]
    rw [hret]
    simp only [Option.bind_eq_bind, Option.some_bind]
    unfold atRoot
    simp only [hrc2c, Option.map_some', hrcp2, Option.isNone_some, Option.bind_eq_bind,
      Option.some_bind]
    rw [if_neg (by simp)]
    cases ft with
    | leaf c f =>
      simp only [CT.idOf]
      refine ⟨bp2, c, f, rfl, ?_⟩
      rw [if_neg (by rw [atLeaf_leaf hencFt bp2 m]; simp)]
    | node i4 ks4 =>
      obtain ⟨bp3, c, f, hlast, hmove⟩ := moveToMaxDescendant_spec hB
        (st.nodes.length + 2) (CT.node i4 ks4) (fq ++ [d3]) bp2 m hencFt hwfFt
        (by simp) hidsFt
      refine ⟨bp3, c, f, hlast, ?_⟩
      simp only [CT.idOf] at hmove ⊢
      rw [if_pos (by rw [atLeaf_node hencFt bp2 m]; rfl)]
      rw [hmove]
      simp only [Option.bind_eq_bind, Option.some_bind]

/-- `insert` on an empty trie (no root yet): the element is stored as the
only pair, linked right after the head sentinel. -/
theorem insert_empty {st : TrieSt} (hinv : InvT st []) (hroot0 : st.root = none)
    {e : String} (hgood : GoodStr st.capacity e) :
    ∃ st5, insert st e = some (st5, Except.ok st.nodes.length) ∧
      InvT st5 [(st.nodes.length, e)] := by
  have hB : 0 < st.capacity := hinv.hcap
  have hn1 : 0 < (seqOf e).length := List.length_pos.mpr (seqOf_ne_nil e)
  obtain ⟨rh, hrh, hrhH, hrhT, hrhL, hrhP⟩ := hinv.hhead
  obtain ⟨rt, hrt, hrtT, hrtH, hrtL⟩ := hinv.htail
  have hheadlt : st.head < st.nodes.length := getN_bound hrh
  have htaillt : st.tail < st.nodes.length := getN_bound hrt
  obtain ⟨st3, hrun, hcap3, hroot3, hhead3, htail3, hsize3, hlen3, hframe3, henc3,
      hrootrec3⟩ :=
    @addNode_empty_run (TrieSt.mk (st.nodes ++ [{ newLeafRec with element := some e }])
      none st.head st.tail st.size st.capacity) e st.nodes.length
      hgood hB
      (by show (st.nodes ++ [{ newLeafRec with element := some e }])[st.nodes.length]? = _
          rw [List.getElem?_concat_length])
      0
  have hsl : (TrieSt.mk (st.nodes ++ [{ newLeafRec with element := some e }])
      none st.head st.tail st.size st.capacity).nodes.length = st.nodes.length + 1 := by
    simp
  rw [hsl] at hroot3 hlen3 hframe3 henc3 hrootrec3
  have hc3 : st3.capacity = st.capacity := hcap3
  have hh3 : st3.head = st.head := hhead3
  have ht3 : st3.tail = st.tail := htail3
  have hs3 : st3.size = st.size := hsize3
  have hd0B : (seqOf e).getD 0 0 < st.capacity := goodStr_digit_lt hgood hB 0
  have htake1 : (seqOf e).take 1 = [(seqOf e).getD 0 0] := by
    rw [show (1 : Nat) = 0 + 1 from rfl, take_succ_getD hn1]
    simp
  have hsplit0 : seqOf e = (seqOf e).getD 0 0 :: (seqOf e).drop 1 := by
    conv_lhs => rw [← List.take_append_drop 1 (seqOf e)]
    rw [htake1]
    rfl
  have hwfP : ctWF st.capacity [] (CT.node (st.nodes.length + 1)
      (CTKids.cons ((seqOf e).getD 0 0)
        (chainCT st.nodes.length e (st.nodes.length + 1 + 1) ((seqOf e).drop 1))
        CTKids.nil)) := by
    unfold ctWF kidsWF
    refine ⟨Or.inl rfl, hd0B, ?_, trivial, by simp [kidsDigits]⟩
    refine chainCT_wf st.nodes.length hgood [(seqOf e).getD 0 0]
      (st.nodes.length + 1 + 1) ((seqOf e).drop 1) hsplit0 ?_
    intro j hj
    rw [getD_drop0]
    exact goodStr_digit_lt hgood hB (1 + j)
  have hwf3 : ctWF st3.capacity [] (CT.node (st.nodes.length + 1)
      (CTKids.cons ((seqOf e).getD 0 0)
        (chainCT st.nodes.length e (st.nodes.length + 1 + 1) ((seqOf e).drop 1))
        CTKids.nil)) := by
    rw [hc3]
    exact hwfP
  have hstep : ctAt (CT.node (st.nodes.length + 1)
      (CTKids.cons ((seqOf e).getD 0 0)
        (chainCT st.nodes.length e (st.nodes.length + 1 + 1) ((seqOf e).drop 1))
        CTKids.nil)) ((seqOf e).getD 0 0 :: (seqOf e).drop 1) =
      some (CT.leaf st.nodes.length e) := by
    conv_lhs => unfold ctAt
    rw [show kidsFind (CTKids.cons ((seqOf e).getD 0 0)
        (chainCT st.nodes.length e (st.nodes.length + 1 + 1) ((seqOf e).drop 1))
        CTKids.nil) ((seqOf e).getD 0 0) =
        some (chainCT st.nodes.length e (st.nodes.length + 1 + 1) ((seqOf e).drop 1))
      from by unfold kidsFind; rw [if_pos rfl]]
    exact chainCT_at st.nodes.length e (st.nodes.length + 1 + 1) ((seqOf e).drop 1)
  rw [← hsplit0] at hstep
  have hidsEq : ctIds (CT.node (st.nodes.length + 1)
      (CTKids.cons ((seqOf e).getD 0 0)
        (chainCT st.nodes.length e (st.nodes.length + 1 + 1) ((seqOf e).drop 1))
        CTKids.nil)) =
      (st.nodes.length + 1) ::
        (List.range' (st.nodes.length + 1 + 1) ((seqOf e).drop 1).length ++
          [st.nodes.length]) := by
    show (st.nodes.length + 1) ::
      (ctIds (chainCT st.nodes.length e (st.nodes.length + 1 + 1) ((seqOf e).drop 1)) ++
        ctKidsIds CTKids.nil) = _
    rw [chainCT_ids]
    simp [ctKidsIds]
  have hids3 : (ctIds (CT.node (st.nodes.length + 1)
      (CTKids.cons ((seqOf e).getD 0 0)
        (chainCT st.nodes.length e (st.nodes.length + 1 + 1) ((seqOf e).drop 1))
        CTKids.nil))).Nodup := by
    rw [hidsEq]
    refine List.nodup_cons.mpr ⟨?_, ?_⟩
    · intro hm
      rcases List.mem_append.mp hm with hm | hm
      · rw [List.mem_range'_1] at hm
        omega
      · simp only [List.mem_singleton] at hm
        omega
    · refine List.nodup_append.mpr ⟨List.nodup_range' _ _, List.nodup_singleton _, ?_⟩
      intro x hx hx2
      rw [List.mem_range'_1] at hx
      simp only [List.mem_singleton] at hx2
      omega
  have hnotin : ∀ x, x < st.nodes.length → x ∉ ctIds (CT.node (st.nodes.length + 1)
      (CTKids.cons ((seqOf e).getD 0 0)
        (chainCT st.nodes.length e (st.nodes.length + 1 + 1) ((seqOf e).drop 1))
        CTKids.nil)) := by
    intro x hlt hm
    rw [hidsEq] at hm
    rcases List.mem_cons.mp hm with hm | hm
    · omega
    · rcases List.mem_append.mp hm with hm | hm
      · rw [List.mem_range'_1] at hm
        omega
      · simp only [List.mem_singleton] at hm
        omega
  have hrh3 : getN st3 st.head = some rh := by
    rw [hframe3 st.head (by omega) (by omega)]
    show (st.nodes ++ [{ newLeafRec with element := some e }])[st.head]? = some rh
    rw [List.getElem?_append_left hheadlt]
    exact hrh
  have hrt3 : getN st3 st.tail = some rt := by
    rw [hframe3 st.tail (by omega) (by omega)]
    show (st.nodes ++ [{ newLeafRec with element := some e }])[st.tail]? = some rt
    rw [List.getElem?_append_left htaillt]
    exact hrt
  have hrhnext : rh.next = some st.tail := by
    rcases hinv.hchain with ⟨⟨r0, hr0, hn0⟩, -⟩ | ⟨-, r0, hr0, hn0⟩ <;>
      (rw [hrh] at hr0
       obtain rfl : rh = r0 := Option.some_inj.mp hr0
       exact hn0)
  have hPairs : ctPairs (CT.node (st.nodes.length + 1)
      (CTKids.cons ((seqOf e).getD 0 0)
        (chainCT st.nodes.length e (st.nodes.length + 1 + 1) ((seqOf e).drop 1))
        CTKids.nil)) = [(st.nodes.length, e)] := by
    show ctPairs (chainCT st.nodes.length e (st.nodes.length + 1 + 1) ((seqOf e).drop 1))
      ++ ctKidsPairs CTKids.nil = _
    rw [chainCT_pairs]
    rfl
  -- thread the insert computation
  unfold insert
  rw [find_empty hinv rfl e newSCtx]
  simp only [newSCtx, Option.bind_eq_bind, Option.some_bind]
  rw [if_neg (by simp [stringIsPrefixFree])]
  simp only [alloc]
  rw [hroot0]
  rw [hrun]
  simp only [Option.some_bind]
  rw [show ((numDigitsOf e - 1 : Nat) : Int) + 1 = ((seqOf e).length : Int) from by
    rw [numDigitsOf_eq]
    omega]
  -- the retrace finds no left fork: the new leaf is the only pair
  obtain ⟨esL0, esR0, hPs, hcond⟩ := forkBelow_split (seqOf e) []
    (CT.node (st.nodes.length + 1)
      (CTKids.cons ((seqOf e).getD 0 0)
        (chainCT st.nodes.length e (st.nodes.length + 1 + 1) ((seqOf e).drop 1))
        CTKids.nil)) st.nodes.length e hwfP hstep
  rw [hPairs] at hPs
  have hesL0 : esL0 = [] := by
    cases esL0 with
    | nil => rfl
    | cons x xs =>
      exfalso
      have hL := congrArg List.length hPs
      simp at hL
  subst hesL0
  cases hfb : forkBelow (seqOf e) (CT.node (st.nodes.length + 1)
      (CTKids.cons ((seqOf e).getD 0 0)
        (chainCT st.nodes.length e (st.nodes.length + 1 + 1) ((seqOf e).drop 1))
        CTKids.nil)) with
  | some ft =>
    exfalso
    simp only [hfb] at hcond
    exact hcond.1 rfl
  | none =>
    obtain ⟨s3p, hmove⟩ := (moveToPredecessor_spec (by rw [hc3]; exact hgood)
      (by rw [hc3]; exact hB) henc3 hwf3 rfl hrootrec3 hstep hids3 0).1 hfb
    rw [hmove]
    simp only [Option.some_bind]
    rw [if_neg (by simp)]
    obtain ⟨st4, heq4, hinv4⟩ :=
      @finish_insert st3 [] [] st.nodes.length (st.nodes.length + 1) e st3.head
        hroot3
        ⟨CTKids.cons ((seqOf e).getD 0 0)
          (chainCT st.nodes.length e (st.nodes.length + 1 + 1) ((seqOf e).drop 1))
          CTKids.nil,
          henc3, hwf3, hPairs, hids3,
          (by rw [hh3]; exact hnotin st.head hheadlt),
          (by rw [ht3]; exact hnotin st.tail htaillt),
          hrootrec3⟩
        (by rw [hs3]; exact hinv.hsize)
        (by rw [hc3]; exact hB)
        (by rw [hh3, ht3]; exact hinv.hht)
        (by rw [hh3]; exact ⟨rh, hrh3, hrhH, hrhT, hrhL, hrhP⟩)
        (by rw [ht3]; exact ⟨rt, hrt3, hrtT, hrtH, hrtL⟩)
        (Or.inr ⟨rfl, rfl, rh, (by rw [hh3]; exact hrh3), (by rw [ht3]; exact hrhnext)⟩)
        rfl
    rw [heq4]
    exact ⟨{ st4 with size := st4.size + 1 }, rfl, hinv4⟩

end GoTrie

/-! ## The claims -/

/-- C4: for a node of child capacity `radix` and an index outside
`[0, radix)` the specified behavior is an IndexOutOfRange error from
`ChildWithIndexOf` and a plain `false` from `RemoveChildWithIndexOf`; the
code honors that for `index < 0` and `index > radix` but panics at
`index = radix`, because `checkBounds` tests `index > len(children)`
instead of `>=`.  Here for radix 4: index 4 panics on the slice access,
while 5 and -1 take the specified error paths. -/
theorem C4_child_access_at_radix_panics :
    GoNode.ChildWithIndexOf (GoNode.newNode 4) 4 = .panic ∧
    GoNode.RemoveChildWithIndexOf (GoNode.newNode 4) 4 = .panic ∧
    GoNode.ChildWithIndexOf (GoNode.newNode 4) 5 = .err .indexOutOfRange ∧
    GoNode.RemoveChildWithIndexOf (GoNode.newNode 4) 5 = .ok (false, GoNode.newNode 4) ∧
    GoNode.ChildWithIndexOf (GoNode.newNode 4) (-1) = .err .indexOutOfRange ∧
    GoNode.RemoveChildWithIndexOf (GoNode.newNode 4) (-1) = .ok (false, GoNode.newNode 4) := by
  decide

/-- C6: after any sequence of `AddChildWithIndexOf` and
`RemoveChildWithIndexOf` calls that completes without a runtime panic,
`numChildren` equals the number of non-nil child slots, and
`HasChildren()` is true exactly when some slot is occupied. -/
theorem C6_numChildren_tracks_occupied_slots (capacity : Int) (ops : List GoNode.NodeOp)
    (n' : GoNode.NodeSt) (h : GoNode.runNodeOps (GoNode.newNode capacity) ops = some n') :
    n'.numChildren = (GoNode.countOccupied n' : Int) ∧
    (GoNode.HasChildren n' = true ↔ ∃ c ∈ n'.children, c.isSome) := by
  have hc := GoNode.runNodeOps_counter ops _ n' (GoNode.newNode_counter capacity) h
  refine ⟨hc, ?_⟩
  unfold GoNode.HasChildren
  unfold GoNode.counterOK at hc
  rw [hc]
  unfold GoNode.countOccupied
  constructor
  · intro hpos
    have hlen : 0 < (n'.children.filter Option.isSome).length := by
      simpa using hpos
    obtain ⟨c, hmem⟩ := List.exists_mem_of_length_pos hlen
    have := List.mem_filter.mp hmem
    exact ⟨c, this.1, this.2⟩
  · intro ⟨c, hmem, hsome⟩
    have : c ∈ n'.children.filter Option.isSome := List.mem_filter.mpr ⟨hmem, hsome⟩
    have hlen : 0 < (n'.children.filter Option.isSome).length := List.length_pos.mpr
      (fun hnil => by simp [hnil] at this)
    simpa using hlen

def opsW : List GoNode.NodeOp :=
  [.add 1 7, .add 1 8, .remove 0, .remove 2, .add 2 5, .remove 1, .add (-3) 4]

def nW : GoNode.NodeSt := ⟨none, [none, none, some 5], 1, none, false⟩

theorem C6_witness :
    GoNode.runNodeOps (GoNode.newNode 3) opsW = some nW ∧
    nW.numChildren = (GoNode.countOccupied nW : Int) := by
  refine ⟨by decide, ?_⟩
  exact (C6_numChildren_tracks_occupied_slots 3 opsW nW (by decide)).1

/-- C7: a leaf is tombstoned exactly when its `previous` link is nil
(`IsDeleted`); `Remove` points the predecessor's `next` at the successor
and the successor's `previous` at the predecessor, and the removed leaf's
record afterwards differs from before only in the cleared `previous` link
- in particular its `next` link still points at the successor, so an
iterator positioned there can still advance past it. -/
theorem C7_leaf_remove_relinks_and_tombstones (st : GoTrie.TrieSt) (l p nx : Nat)
    (lr pr xr : GoTrie.NodeRec)
    (hl : GoTrie.getN st l = some lr) (hp : GoTrie.getN st p = some pr)
    (hx : GoTrie.getN st nx = some xr)
    (hprev : lr.previous = some p) (hnext : lr.next = some nx)
    (hpl : p ≠ l) (hxl : nx ≠ l) (hpx : p ≠ nx) :
    GoTrie.leafRemove st l =
      some (GoTrie.setN (GoTrie.setN (GoTrie.setN st p { pr with next := some nx }) nx
              { xr with previous := some p }) l { lr with previous := none }) ∧
    GoTrie.getN (GoTrie.setN (GoTrie.setN (GoTrie.setN st p { pr with next := some nx }) nx
              { xr with previous := some p }) l { lr with previous := none }) p
        = some { pr with next := some nx } ∧
    GoTrie.getN (GoTrie.setN (GoTrie.setN (GoTrie.setN st p { pr with next := some nx }) nx
              { xr with previous := some p }) l { lr with previous := none }) nx
        = some { xr with previous := some p } ∧
    GoTrie.getN (GoTrie.setN (GoTrie.setN (GoTrie.setN st p { pr with next := some nx }) nx
              { xr with previous := some p }) l { lr with previous := none }) l
        = some { lr with previous := none } ∧
    ({ lr with previous := none } : GoTrie.NodeRec).next = some nx ∧
    GoTrie.leafIsDeleted (GoTrie.setN (GoTrie.setN (GoTrie.setN st p
              { pr with next := some nx }) nx
              { xr with previous := some p }) l { lr with previous := none }) l = some true ∧
    GoTrie.leafIsDeleted st l = some false := by
  have h1 : GoTrie.getN (GoTrie.setN st p { pr with next := some nx }) l = some lr :=
    (GoTrie.getN_setN_ne st p _ l (Ne.symm hpl)).trans hl
  have h2 : GoTrie.getN (GoTrie.setN st p { pr with next := some nx }) nx = some xr :=
    (GoTrie.getN_setN_ne st p _ nx (Ne.symm hpx)).trans hx
  have h3 : GoTrie.getN (GoTrie.setN (GoTrie.setN st p { pr with next := some nx }) nx
      { xr with previous := some p }) l = some lr :=
    (GoTrie.getN_setN_ne _ nx _ l (Ne.symm hxl)).trans h1
  refine ⟨?_, ?_, ?_, ?_, ?_, ?_, ?_⟩
  · simp only [GoTrie.leafRemove, GoTrie.modifyN, hl, hprev, hp, hnext, h1, h2, h3,
      Option.bind_eq_bind, Option.some_bind, Option.map_some']
  · have e1 : GoTrie.getN (GoTrie.setN (GoTrie.setN st p { pr with next := some nx }) nx
        { xr with previous := some p }) p = some { pr with next := some nx } :=
      (GoTrie.getN_setN_ne _ nx _ p hpx).trans (GoTrie.getN_setN_self _ hp)
    exact (GoTrie.getN_setN_ne _ l _ p hpl).trans e1
  · have e2 : GoTrie.getN (GoTrie.setN (GoTrie.setN st p { pr with next := some nx }) nx
        { xr with previous := some p }) nx = some { xr with previous := some p } :=
      GoTrie.getN_setN_self _ h2
    exact (GoTrie.getN_setN_ne _ l _ nx hxl).trans e2
  · exact GoTrie.getN_setN_self _ h3
  · simpa using hnext
  · unfold GoTrie.leafIsDeleted
    rw [GoTrie.getN_setN_self _ h3]
    rfl
  · unfold GoTrie.leafIsDeleted
    rw [hl]
    simp [hprev]

def hdW : GoTrie.NodeRec := { GoTrie.newHeadRec with next := some 2 }

def tlW : GoTrie.NodeRec := { GoTrie.newTailRec with next := some 0, previous := some 2 }

def lfW : GoTrie.NodeRec :=
  { GoTrie.newLeafRec with element := some "a", previous := some 0, next := some 1 }

def stW : GoTrie.TrieSt :=
  { nodes := [hdW, tlW, lfW], root := none, head := 0, tail := 1, size := 1, capacity := 2 }

theorem C7_witness :
    GoTrie.leafRemove stW 2 =
      some (GoTrie.setN (GoTrie.setN (GoTrie.setN stW 0 { hdW with next := some 1 }) 1
              { tlW with previous := some 0 }) 2 { lfW with previous := none }) ∧
    GoTrie.leafIsDeleted stW 2 = some false := by
  have h := C7_leaf_remove_relinks_and_tombstones stW 2 0 1 lfW hdW tlW rfl rfl rfl rfl rfl
    (by decide) (by decide) (by decide)
  exact ⟨h.1, h.2.2.2.2.2.2⟩

/-- C8: after inserting exactly "bac", "dab", "dabb", "dac", "daca",
"dabba", "ab" into a fresh string-digitizer trie (the repository's own
scenario, alphabet size 4), every insertion succeeds and
Predecessor("dabba") = "dabb", Predecessor("bac") = "ab",
Successor("dabba") = "dac", Successor("bac") = "dab". -/
theorem C8_predecessor_successor_scenario :
    ((GoTrie.addSeq (GoTrie.newTrie 4) ["bac", "dab", "dabb", "dac", "daca", "dabba", "ab"]).map
        (fun p => p.2)) = some [none, none, none, none, none, none, none] ∧
    ((GoTrie.addSeq (GoTrie.newTrie 4) ["bac", "dab", "dabb", "dac", "daca", "dabba", "ab"]).bind
        (fun p => GoTrie.Predecessor p.1 "dabba")) = some (some "dabb") ∧
    ((GoTrie.addSeq (GoTrie.newTrie 4) ["bac", "dab", "dabb", "dac", "daca", "dabba", "ab"]).bind
        (fun p => GoTrie.Predecessor p.1 "bac")) = some (some "ab") ∧
    ((GoTrie.addSeq (GoTrie.newTrie 4) ["bac", "dab", "dabb", "dac", "daca", "dabba", "ab"]).bind
        (fun p => GoTrie.Successor p.1 "dabba")) = some (some "dac") ∧
    ((GoTrie.addSeq (GoTrie.newTrie 4) ["bac", "dab", "dabb", "dac", "daca", "dabba", "ab"]).bind
        (fun p => GoTrie.Successor p.1 "bac")) = some (some "dab") := by
  decide

/-- C3: `Completions` is not total.  On the non-empty trie holding "a"
(alphabet size 2) the query "b" fails at the root - the first digit has
no child, `find` returns Unmatched with the pointer still at the root -
and `processedEndOfString` then dereferences the root's nil parent:
`Completions` panics (`none`) instead of appending nothing.  The same
call with a matching prefix works normally. -/
theorem C3_completions_panics_when_find_fails_at_root :
    ((GoTrie.addSeq (GoTrie.newTrie 2) ["a"]).map (fun p => p.2)) = some [none] ∧
    ((GoTrie.addSeq (GoTrie.newTrie 2) ["a"]).bind
        (fun p => GoTrie.Completions p.1 "b" [])) = none ∧
    ((GoTrie.addSeq (GoTrie.newTrie 2) ["a"]).bind
        (fun p => GoTrie.Completions p.1 "a" [])) = some [some "a"] := by
  decide

/-- C1 counterexample: with alphabet size 4, inserting "e" and then "f"
returns no error from either `Add` (the out-of-range digit error inside
`addNode` is discarded), yet `Values()` afterwards is ["f", "e"], not the
case-insensitive lexicographic sort ["e", "f"]. -/
theorem C1_counterexample_out_of_alphabet :
    ((GoTrie.addSeq (GoTrie.newTrie 4) ["e", "f"]).map (fun p => p.2)) = some [none, none] ∧
    ((GoTrie.addSeq (GoTrie.newTrie 4) ["e", "f"]).bind (fun p => GoTrie.Values p.1))
        = some [some "f", some "e"] ∧
    ((GoTrie.addSeq (GoTrie.newTrie 4) ["e", "f"]).map (fun p => p.1.size)) = some 2 ∧
    ciSort ["e", "f"] = ["e", "f"] := by
  decide

/-- C2 counterexample: on the string digitizer the alphabet is
prefix-free, so inserting "a" after "ab" - a strict prefix of a stored
string - does not fail with PrefixViolation: both `Add` calls return nil,
`Size()` becomes 2 and `Values()` gains the new string. -/
theorem C2_counterexample_prefix_insert_succeeds :
    ((GoTrie.addSeq (GoTrie.newTrie 26) ["ab", "a"]).map (fun p => p.2)) = some [none, none] ∧
    ((GoTrie.addSeq (GoTrie.newTrie 26) ["ab", "a"]).map (fun p => p.1.size)) = some 2 ∧
    ((GoTrie.addSeq (GoTrie.newTrie 26) ["ab", "a"]).bind (fun p => GoTrie.Values p.1))
        = some [some "a", some "ab"] := by
  decide

/-- C5 counterexample: the public `Remove` of a radix tree does not reach
`radixTree.remove`.  After inserting "ab" into `NewRadixTree(26)`,
`Remove("ab")` (the promoted `trie.Remove`, which runs `trie.remove`)
returns true with size 0 and empty values, while the removal the claim
describes - dispatching to the radix tree's placeholder `remove` -
would return true with size still 1 and "ab" still present. -/
theorem C5_counterexample_remove_not_dispatched :
    ((GoTrie.addSeq (GoTrie.newRadixTree 26) ["ab"]).bind
        (fun p => (GoTrie.Remove p.1 "ab").map (fun q => (q.1, q.2.size)))) = some (true, 0) ∧
    ((GoTrie.addSeq (GoTrie.newRadixTree 26) ["ab"]).bind
        (fun p => (GoTrie.RemoveDispatchedToRadix p.1 "ab").map (fun q => (q.1, q.2.size))))
        = some (true, 1) ∧
    ((GoTrie.addSeq (GoTrie.newRadixTree 26) ["ab"]).bind
        (fun p => (GoTrie.Remove p.1 "ab").bind (fun q => GoTrie.Values q.2))) = some [] ∧
    ((GoTrie.addSeq (GoTrie.newRadixTree 26) ["ab"]).bind
        (fun p => (GoTrie.RemoveDispatchedToRadix p.1 "ab").bind (fun q => GoTrie.Values q.2)))
        = some [some "ab"] := by
  decide

/-- C5 amended: Go struct embedding does not virtually dispatch, so the
public operations of a radix tree are the plain trie's: a radix tree's
state is a plain trie state, and `Add`, `Contains`, `Remove` run the
plain `find`/`addNode`/`remove` machinery end to end (`Remove` unlinks
and decrements size instead of reaching the unimplemented placeholder). -/
theorem C5_public_ops_are_plain_trie_ops :
    (∀ a : Nat, GoTrie.newRadixTree a = GoTrie.newTrie a) ∧
    ((GoTrie.addSeq (GoTrie.newRadixTree 26) ["ab"]).map (fun p => p.2)) = some [none] ∧
    ((GoTrie.addSeq (GoTrie.newRadixTree 26) ["ab"]).bind
        (fun p => GoTrie.Contains p.1 "ab")) = some true ∧
    ((GoTrie.addSeq (GoTrie.newRadixTree 26) ["ab"]).bind
        (fun p => (GoTrie.Remove p.1 "ab").map (fun q => (q.1, q.2.size)))) = some (true, 0) := by
  exact ⟨fun _ => rfl, by decide, by decide, by decide⟩

/-! ### A concrete one-element state for the order-related claims -/

/-- The canonical tree of `st9`: root, one interior node, the leaf
holding "a". -/
def ks9 : CTKids :=
  CTKids.cons 1 (CT.node 3 (CTKids.cons 0 (CT.leaf 4 "a") CTKids.nil)) CTKids.nil

/-- A concrete one-element trie (alphabet size 1, element "a"): head,
tail, root, interior node for digit 1, and the leaf, with the leaf
spliced between the sentinels. -/
def st9 : GoTrie.TrieSt :=
  { nodes :=
      [ { GoTrie.newHeadRec with next := some 4 },
        { GoTrie.newTailRec with next := some 0, previous := some 4 },
        { GoTrie.blankNode with children := [none, some 3], numChildren := 1, isRoot := true },
        { GoTrie.blankNode with children := [some 4, none], numChildren := 1, parent := some 2 },
        { GoTrie.newLeafRec with
          element := some "a", parent := some 3, previous := some 0, next := some 1 } ],
    root := some 2, head := 0, tail := 1, size := 1, capacity := 2 }

theorem InvT_st9 : GoTrie.InvT st9 [(4, "a")] := by
  refine ⟨rfl, by decide, by decide,
    ⟨_, rfl, rfl, rfl, rfl, rfl⟩, ⟨_, rfl, rfl, rfl, rfl⟩,
    Or.inl ⟨⟨_, rfl, rfl⟩, ⟨_, rfl, rfl⟩, ⟨_, rfl, rfl⟩, ⟨_, rfl, rfl⟩⟩, ?_⟩
  refine ⟨ks9, ?_, ?_, by decide, by decide, by decide, by decide, ⟨_, rfl, rfl⟩⟩
  · exact ⟨_, rfl, rfl, rfl, rfl, rfl, rfl, rfl, by decide,
      ⟨_, rfl, rfl, rfl, rfl, rfl, rfl, rfl, by decide,
        ⟨_, rfl, rfl, rfl, rfl, rfl, rfl, rfl, rfl⟩, ⟨_, rfl, rfl⟩, trivial⟩,
      ⟨_, rfl, rfl⟩, trivial⟩
  · exact ⟨Or.inl rfl, by decide, ⟨Or.inr (fun h => nomatch h), by decide,
      ⟨by decide, by decide⟩, trivial, by decide⟩, trivial, by decide⟩

/-- C9: on every state satisfying the trie representation invariant,
`Min` returns the first and `Max` the last element of `Values`, and both
return nil (the empty optional) on an empty trie. -/
theorem C9_min_max_are_values_endpoints {st : GoTrie.TrieSt} {es : List (Nat × String)}
    (hinv : GoTrie.InvT st es) :
    ∃ vs, GoTrie.Values st = some vs ∧
      GoTrie.Min st = some (vs.headD none) ∧
      GoTrie.Max st = some (vs.getLastD none) ∧
      (GoTrie.Size st = 0 → GoTrie.Min st = some none ∧ GoTrie.Max st = some none) := by
  refine ⟨_, GoTrie.Values_spec hinv, GoTrie.Min_spec hinv, GoTrie.Max_spec hinv, ?_⟩
  intro hsz
  have hes : es = [] := by
    have hs := hinv.hsize
    unfold GoTrie.Size at hsz
    rw [hs] at hsz
    cases es with
    | nil => rfl
    | cons a l =>
      exfalso
      simp at hsz
      omega
  subst hes
  exact ⟨GoTrie.Min_spec hinv, GoTrie.Max_spec hinv⟩

theorem C9_witness :
    GoTrie.Min st9 = some (some "a") ∧ GoTrie.Max st9 = some (some "a") ∧
    (∃ vs, GoTrie.Values st9 = some vs ∧
      GoTrie.Min st9 = some (vs.headD none) ∧
      GoTrie.Max st9 = some (vs.getLastD none) ∧
      (GoTrie.Size st9 = 0 → GoTrie.Min st9 = some none ∧ GoTrie.Max st9 = some none)) :=
  ⟨by decide, by decide, C9_min_max_are_values_endpoints InvT_st9⟩

/-- C10: on every state satisfying the trie representation invariant and
every integer index, `ValueWithIndex` returns the index-th element of
`Values` with a nil error when `0 ≤ index < Size`, and no element with an
IndexOutOfRange error when `index < 0` or `index ≥ Size`. -/
theorem C10_value_with_index {st : GoTrie.TrieSt} {es : List (Nat × String)}
    (hinv : GoTrie.InvT st es) (index : Int) :
    ∃ vs, GoTrie.Values st = some vs ∧
      (0 ≤ index ∧ index < GoTrie.Size st →
        GoTrie.ValueWithIndex st index = some (vs.getD index.toNat none, none)) ∧
      (index < 0 ∨ GoTrie.Size st ≤ index →
        GoTrie.ValueWithIndex st index = some (none, some GoErr.indexOutOfRange)) := by
  have hs := hinv.hsize
  refine ⟨_, GoTrie.Values_spec hinv, ?_, ?_⟩
  · rintro ⟨hge, hlt⟩
    unfold GoTrie.Size at hlt
    rw [hs] at hlt
    have hk : index.toNat < es.length := by omega
    have hcast : (index + 1).toNat = index.toNat + 1 := by omega
    obtain ⟨rh, hrh, hhh, hht, -, -⟩ := hinv.hhead
    rcases hinv.hchain with hch | ⟨hes, -⟩
    · have hrecs : ∀ q ∈ es, ∃ r, GoTrie.getN st q.1 = some r ∧ r.element = some q.2 ∧
          r.isHead = false ∧ r.isTail = false := by
        intro q hq
        obtain ⟨r, h1, h2, h3, h4, -⟩ := GoTrie.InvT_pair_records hinv q hq
        exact ⟨r, h1, h2, h3, h4⟩
      obtain ⟨rk, hadv, hrk, helem, hkh, hkt, hkp⟩ :=
        GoTrie.advanceTimes_chain es index.toNat st.head rh (es.get ⟨index.toNat, hk⟩)
          hrh hht (Or.inl hhh) hch hrecs (by rw [List.getElem?_eq_getElem hk]; rfl)
      unfold GoTrie.ValueWithIndex GoTrie.trieCheckBounds
      rw [if_neg (by rw [hs]; omega)]
      rw [hcast, hadv]
      simp only [Option.bind_eq_bind, Option.some_bind]
      rw [GoTrie.iterGet_live hrk hkh hkt hkp]
      simp only [Option.some_bind, helem]
      have hv : (es.map (fun pr => some pr.2)).getD index.toNat none =
          some (es.get ⟨index.toNat, hk⟩).2 := by
        rw [List.getD_eq_getElem?_getD, List.getElem?_map, List.getElem?_eq_getElem hk]
        rfl
      rw [hv]
    · subst hes
      simp at hk
  · intro hcond
    unfold GoTrie.ValueWithIndex GoTrie.trieCheckBounds
    rw [if_pos (by unfold GoTrie.Size at hcond; exact hcond)]

theorem C10_witness :
    (0 ≤ (0 : Int) ∧ (0 : Int) < GoTrie.Size st9) ∧
    GoTrie.ValueWithIndex st9 0 = some (some "a", none) ∧
    GoTrie.ValueWithIndex st9 2 = some (none, some GoErr.indexOutOfRange) ∧
    (∃ vs, GoTrie.Values st9 = some vs ∧
      (0 ≤ (0 : Int) ∧ (0 : Int) < GoTrie.Size st9 →
        GoTrie.ValueWithIndex st9 0 = some (vs.getD (0 : Int).toNat none, none)) ∧
      ((0 : Int) < 0 ∨ GoTrie.Size st9 ≤ (0 : Int) →
        GoTrie.ValueWithIndex st9 0 = some (none, some GoErr.indexOutOfRange))) :=
  ⟨by decide, by decide, by decide, C10_value_with_index InvT_st9 0⟩
